import Mathlib

/-!
Verification of the operation engine of `ab_plugin_manager`.

The definitions below are a shallow embedding of
`ab_plugin_manager/plugin_manager.py` (class `PluginManagerImpl`),
`ab_plugin_manager/abc.py` (the data model) and the factory-wrapper sugar of
`ab_plugin_manager/magic_operation.py`, together with the parts of CPython's
`graphlib.TopologicalSorter` that `PluginManagerImpl.get_operation_sequence`
relies on (`add`, `prepare`, `_find_cycle`, `get_ready`, `is_active`, `done`).

Python dictionaries are modelled by insertion-ordered association lists (keys
unique by construction), which mirrors the iteration-order semantics the code
relies on.  Opaque payloads, cache keys and cache values are modelled by `Nat`;
plugin back references are modelled by the plugin name.
-/

/-- `OperationStep` from `abc.py`: payload, name, contributing plugin,
forward dependencies and reverse dependencies.  (The optional metadata field
describing the payload plays no role in any algorithm and is omitted.) -/
structure OperationStep where
  step : Nat
  name : String
  plugin : String
  dependencies : List String
  reverse_dependencies : List String
deriving Repr, DecidableEq

/-- `Plugin` from `abc.py`: a name, the step provider `get_operation_steps`,
and `list_implemented_operations`, where `none` models the method raising
`UnlistableOperationSetException`. -/
structure Plugin where
  name : String
  get_operation_steps : String → List OperationStep
  list_implemented_operations : Option (List String)

/-- Association-list lookup (the embedding of Python `dict` indexing /
`dict.get`). -/
def alookup {α β : Type} [DecidableEq α] : List (α × β) → α → Option β
  | [], _ => none
  | (k0, v) :: rest, k => if k0 = k then some v else alookup rest k

/-- Update the (unique) entry with the given key, leaving the list unchanged
when the key is absent. -/
def aupdate {α β : Type} [DecidableEq α] : List (α × β) → α → (β → β) → List (α × β)
  | [], _, _ => []
  | (k0, v) :: rest, k, f =>
    if k0 = k then (k0, f v) :: rest else (k0, v) :: aupdate rest k f

/-- Remove the entry with the given key, if present. -/
def aremove {α β : Type} [DecidableEq α] : List (α × β) → α → List (α × β)
  | [], _ => []
  | (k0, v) :: rest, k => if k0 = k then rest else (k0, v) :: aremove rest k

/-- `_NodeInfo` from `graphlib`: the predecessor count (with the sentinels
`-1` = passed out, `-2` = done) and the successor list. -/
structure NodeInfo where
  npredecessors : Int
  successors : List String
deriving Repr, DecidableEq

/-- `TopologicalSorter._node2info`: an insertion-ordered map from node to its
info, as built while steps are ingested. -/
abbrev Node2Info := List (String × NodeInfo)

/-- `TopologicalSorter._get_nodeinfo`: make sure the node has an entry,
inserting a fresh zero entry at the end (Python dict insertion order). -/
def get_nodeinfo (m : Node2Info) (node : String) : Node2Info :=
  match alookup m node with
  | some _ => m
  | none => m ++ [(node, { npredecessors := 0, successors := [] })]

/-- `TopologicalSorter.add(node, *predecessors)`: bump the node's predecessor
count by the number of predecessors and append the node to each predecessor's
successor list (inserting entries on first mention). -/
def ts_add (m : Node2Info) (node : String) (predecessors : List String) : Node2Info :=
  let m1 := aupdate (get_nodeinfo m node) node
    (fun i => { i with npredecessors := i.npredecessors + predecessors.length })
  predecessors.foldl
    (fun acc p => aupdate (get_nodeinfo acc p) p
      (fun i => { i with successors := i.successors ++ [node] })) m1

/-- Successor list of a node (empty for unknown nodes). -/
def successors_of (m : Node2Info) (n : String) : List String :=
  match alookup m n with
  | some i => i.successors
  | none => []

/-- The suffix of the DFS stack starting at the first occurrence of `n`:
the embedding of `stack[node2stacki[node]:]` in `_find_cycle`. -/
def stack_suffix_from : List String → String → List String
  | [], _ => []
  | x :: rest, n => if x = n then x :: rest else stack_suffix_from rest n

/-- The depth-first traversal inside `TopologicalSorter._find_cycle`,
written recursively: `nodes` are the pending successors of the top of
`stack`, `seen` is the visited set (represented as a list, queried only for
membership) and a discovered cycle is reported as `.error`.  The fuel is
consumed once per newly visited node; `find_cycle` supplies enough fuel for
every node of the map. -/
def visit_all (m : Node2Info) :
    Nat → List String → List String → List String → Except (List String) (List String)
  | _, seen, _, [] => .ok seen
  | 0, seen, stack, n :: rest =>
    if n ∈ seen then
      if n ∈ stack then .error (stack_suffix_from stack n ++ [n])
      else visit_all m 0 seen stack rest
    else .ok seen
  | fuel1 + 1, seen, stack, n :: rest =>
    if n ∈ seen then
      if n ∈ stack then .error (stack_suffix_from stack n ++ [n])
      else visit_all m (fuel1 + 1) seen stack rest
    else
      match visit_all m fuel1 (n :: seen) (stack ++ [n]) (successors_of m n) with
      | .error c => .error c
      | .ok seen1 => visit_all m (fuel1 + 1) seen1 stack rest
termination_by fuel _ _ nodes => (fuel, nodes.length)
decreasing_by
  all_goals first
    | (apply Prod.Lex.right; simp)
    | exact Prod.Lex.left _ _ (by omega)

/-- The outer loop of `_find_cycle`: start a traversal from every not yet
visited node, in insertion order of the map. -/
def find_cycle_aux (m : Node2Info) (fuel : Nat) (seen : List String) :
    List String → Option (List String)
  | [] => none
  | k :: rest =>
    if k ∈ seen then find_cycle_aux m fuel seen rest
    else
      match visit_all m fuel seen [] [k] with
      | .error c => some c
      | .ok seen1 => find_cycle_aux m fuel seen1 rest

/-- `TopologicalSorter._find_cycle`. -/
def find_cycle (m : Node2Info) : Option (List String) :=
  find_cycle_aux m m.length [] (m.map Prod.fst)

/-- The mutable state of a prepared `TopologicalSorter`. -/
structure TS where
  node2info : Node2Info
  ready : List String
  npassedout : Nat
  nfinished : Nat
deriving Repr, DecidableEq

/-- `TopologicalSorter.prepare`: compute the initially ready nodes (predecessor
count zero, in insertion order), then fail with the found cycle if there is
one.  The raised `CycleError` carries the cycle as its second argument. -/
def ts_prepare (m : Node2Info) : Except (List String) TS :=
  let ready := m.filterMap (fun p => if p.2.npredecessors = 0 then some p.1 else none)
  match find_cycle m with
  | some cyc => .error cyc
  | none => .ok { node2info := m, ready := ready, npassedout := 0, nfinished := 0 }

/-- `TopologicalSorter.get_ready`: hand out the ready nodes, marking each as
passed out (`_NODE_OUT = -1`). -/
def ts_get_ready (ts : TS) : List String × TS :=
  ( ts.ready,
    { ts with
      node2info := ts.ready.foldl
        (fun acc n => aupdate acc n (fun i => { i with npredecessors := -1 })) ts.node2info,
      ready := [],
      npassedout := ts.npassedout + ts.ready.length } )

/-- `TopologicalSorter.is_active`. -/
def ts_is_active (ts : TS) : Bool :=
  decide (ts.nfinished < ts.npassedout) || !ts.ready.isEmpty

/-- Decrement one successor's predecessor count, appending it to the ready
list when the count reaches zero.  (In `graphlib` every successor has an
entry; the `none` branch is unreachable for graphs built through `ts_add`.) -/
def dec_successor (ts : TS) (s : String) : TS :=
  match alookup ts.node2info s with
  | none => ts
  | some i =>
    let m := aupdate ts.node2info s (fun j => { j with npredecessors := j.npredecessors - 1 })
    if i.npredecessors - 1 = 0 then
      { ts with node2info := m, ready := ts.ready ++ [s] }
    else
      { ts with node2info := m }

/-- Process one node of `TopologicalSorter.done`: mark it done
(`_NODE_DONE = -2`), decrement all its successors and count it as finished.
(The state-validation errors of `graphlib.done` are unreachable in
`get_operation_sequence`, which calls `done` exactly on the nodes it has just
received from `get_ready`.) -/
def done_one (ts : TS) (n : String) : TS :=
  match alookup ts.node2info n with
  | none => ts
  | some i =>
    let ts1 := { ts with
      node2info := aupdate ts.node2info n (fun j => { j with npredecessors := -2 }) }
    let ts2 := i.successors.foldl dec_successor ts1
    { ts2 with nfinished := ts2.nfinished + 1 }

/-- `TopologicalSorter.done(*nodes)`. -/
def ts_done (ts : TS) (ns : List String) : TS :=
  ns.foldl done_one ts

/-- The generator `iterate` nested in `get_operation_sequence`: while the
sorter is active, take the ready group, yield the steps of the group's names
that have a step (dangling names are skipped), then mark the whole group done.
The fuel bounds the number of loop iterations; `get_operation_sequence` passes
one more than the number of nodes, which is always enough (proved below). -/
def iterate_gen (steps : List (String × OperationStep)) :
    Nat → TS → List OperationStep × TS
  | 0, ts => ([], ts)
  | fuel + 1, ts =>
    if ts_is_active ts then
      let gr := ts_get_ready ts
      let out := gr.1.filterMap (fun n => alookup steps n)
      let rest := iterate_gen steps fuel (ts_done gr.2 gr.1)
      (out ++ rest.1, rest.2)
    else ([], ts)

/-- The state threaded through the ingestion loop of
`PluginManagerImpl.get_operation_sequence` (lines 22-40): the `steps` dict,
the warnings emitted through the logger (step name, plugin that contributed
first, plugin whose step is discarded), and the topological sorter's map. -/
structure BuildState where
  steps : List (String × OperationStep)
  warnings : List (String × String × String)
  graph : Node2Info
deriving Repr

/-- Ingest one step contributed by `p`: a duplicate name only logs a warning
and is discarded; otherwise the step is recorded, `ts.add(step.name,
*step.dependencies)` is performed, and each reverse dependency `r` leads to
`ts.add(r, step.name)`. -/
def ingest_step (st : BuildState) (p : Plugin) (s : OperationStep) : BuildState :=
  match alookup st.steps s.name with
  | some prev => { st with warnings := st.warnings ++ [(s.name, prev.plugin, p.name)] }
  | none =>
    let g1 := ts_add st.graph s.name s.dependencies
    let g2 := s.reverse_dependencies.foldl (fun g r => ts_add g r [s.name]) g1
    { steps := st.steps ++ [(s.name, s)], warnings := st.warnings, graph := g2 }

/-- The double loop over plugins and their steps. -/
def build_state (plugins : List Plugin) (op_name : String) : BuildState :=
  plugins.foldl
    (fun st p => (p.get_operation_steps op_name).foldl (fun st1 s => ingest_step st1 p s) st)
    { steps := [], warnings := [], graph := [] }

/-- `DependencyCycleException` from `abc.py`: the operation name and, for each
node of the reported cycle, its step when one exists or the raw name when the
node is a dangling dependency (`steps.get(name, name)`). -/
structure DependencyCycleException where
  op_name : String
  steps : List (OperationStep ⊕ String)
deriving Repr, DecidableEq

/-- `PluginManagerImpl.get_operation_sequence`: ingest all steps, prepare the
sorter (raising `DependencyCycleException` built from the cycle minus its
repeated first node, `e.args[1][1:]`), and otherwise return the fully drained
generator. -/
def get_operation_sequence (plugins : List Plugin) (op_name : String) :
    Except DependencyCycleException (List OperationStep) :=
  match ts_prepare (build_state plugins op_name).graph with
  | .error cyc =>
    .error { op_name := op_name,
             steps := (cyc.drop 1).map (fun n =>
               match alookup (build_state plugins op_name).steps n with
               | some s => Sum.inl s
               | none => Sum.inr n) }
  | .ok ts =>
    .ok (iterate_gen (build_state plugins op_name).steps
      ((build_state plugins op_name).graph.length + 1) ts).1

/-- The operation cache `_op_cache`: operation name to scope, scope being an
insertion-ordered map from key to value (keys and values modelled by `Nat`). -/
abbrev OpCache := List (String × List (Nat × Nat))

/-- Store a scope for an operation, replacing the existing entry or inserting
a new one at the end (Python dict assignment). -/
def set_scope (c : OpCache) (op : String) (scope : List (Nat × Nat)) : OpCache :=
  match alookup c op with
  | some _ => aupdate c op (fun _ => scope)
  | none => c ++ [(op, scope)]

/-- `PluginManagerImpl.operation_cache`: look up the operation's scope (a
`defaultdict`, so an absent operation acts as an empty scope), return the
cached value when the key is present, otherwise compute, store and return. -/
def operation_cache (c : OpCache) (op_name : String) (key : Nat)
    (compute : List Nat → Nat) (args : List Nat) : Nat × OpCache :=
  let scope := (alookup c op_name).getD []
  match alookup scope key with
  | some v => (v, c)
  | none =>
    let res := compute args
    (res, set_scope c op_name (scope ++ [(key, res)]))

/-- The nested helper `drop_operation` of `PluginManagerImpl.
drop_operation_cache`: with `keys` given, delete exactly those keys from the
operation's scope (Python `del` raises `KeyError`, modelled by `.error ()`,
when a key is absent); otherwise discard the operation's whole scope,
swallowing the `KeyError` when there is none. -/
def drop_operation (keys : Option (List Nat)) (c : OpCache) (operation : String) :
    Except Unit OpCache :=
  match keys with
  | some ks =>
    match alookup c operation with
    | none => .ok c
    | some scope => do
      let scope1 ← ks.foldlM
        (fun sc k =>
          match alookup sc k with
          | some _ => Except.ok (aremove sc k)
          | none => Except.error ()) scope
      .ok (set_scope c operation scope1)
  | none => .ok (aremove c operation)

/-- `PluginManagerImpl.drop_operation_cache`: with `operations` given, drop
those and return; otherwise with `plugin` given, drop the operations the
plugin enumerates and return — but when the plugin raises
`UnlistableOperationSetException` (modelled by `none`), fall through; in all
remaining cases replace the whole cache by a fresh empty one. -/
def drop_operation_cache (c : OpCache) (operations : Option (List String))
    (keys : Option (List Nat)) (plugin : Option Plugin) : Except Unit OpCache :=
  match operations with
  | some ops => ops.foldlM (drop_operation keys) c
  | none =>
    match plugin with
    | some p =>
      match p.list_implemented_operations with
      | some ops => ops.foldlM (drop_operation keys) c
      | none => .ok []
    | none => .ok []

/-- `PluginManagerImpl`: the plugin collection and the operation cache. -/
structure PluginManagerImpl where
  plugins : List Plugin
  op_cache : OpCache

/-- `get_operation_sequence` as a method on the manager state: it reads only
the plugin collection and leaves the manager unchanged. -/
def pm_get_operation_sequence (pm : PluginManagerImpl) (op_name : String) :
    Except DependencyCycleException (List OperationStep) × PluginManagerImpl :=
  (get_operation_sequence pm.plugins op_name, pm)

/-- The wrapper built by `WrapperCallOperation.factory_implementation` for a
plain function: `lambda nxt, prev, *args: nxt(prev if prev is not None else
fn(*args), *args)`.  Calls are modelled in an explicit state monad `Nat → α ×
Nat` so that the number of invocations of `fn` is observable; Python's lazy
conditional is rendered by the match, which runs `fn` only in the `none`
branch. -/
def factory_impl (fn : List Nat → Nat → Option Nat × Nat)
    (nxt : Option Nat → List Nat → Nat → Nat × Nat)
    (prev : Option Nat) (args : List Nat) : Nat → Nat × Nat :=
  fun s =>
    match prev with
    | some v => nxt (some v) args s
    | none =>
      let (r, s1) := fn args s
      nxt r args s1

/-- The wrapper built by `AsyncWrapperCallOperation.factory_implementation`;
after erasing `await` (which a pure embedding renders transparently) its body
coincides with the synchronous one. -/
def afactory_impl (fn : List Nat → Nat → Option Nat × Nat)
    (nxt : Option Nat → List Nat → Nat → Nat × Nat)
    (prev : Option Nat) (args : List Nat) : Nat → Nat × Nat :=
  fun s =>
    match prev with
    | some v => nxt (some v) args s
    | none =>
      let (r, s1) := fn args s
      nxt r args s1

/-- Instrument a pure factory so each invocation bumps the counter. -/
def counting_fn (f : List Nat → Option Nat) : List Nat → Nat → Option Nat × Nat :=
  fun args s => (f args, s + 1)

/-- Lift a pure continuation into the counting state. -/
def pure_nxt (g : Option Nat → List Nat → Nat) : Option Nat → List Nat → Nat → Nat × Nat :=
  fun v args s => (g v args, s)

/-- Lookup of a cached value under `(operation, key)`: the branch decision of
`operation_cache` (`compute` runs exactly when this is `none`). -/
def cache_lookup (c : OpCache) (op : String) (k : Nat) : Option Nat :=
  alookup ((alookup c op).getD []) k

/-- A trace of successive `operation_cache` calls on one manager, all for the
same `(operation, key)` pair but with arbitrary compute functions and
arguments.  Returns the final cache, the returned values, and how many of the
calls invoked their compute function. -/
def run_cache_trace (c : OpCache) (op : String) (k : Nat) :
    List ((List Nat → Nat) × List Nat) → OpCache × List Nat × Nat
  | [] => (c, [], 0)
  | (f, args) :: rest =>
    let miss : Nat := if cache_lookup c op k = none then 1 else 0
    let r := operation_cache c op k f args
    let rec1 := run_cache_trace r.2 op k rest
    (rec1.1, r.1 :: rec1.2.1, miss + rec1.2.2)

/-! Concrete inputs used by counterexamples and witnesses. -/

/-- A cache holding one value, operation `"r"`, key `1`. -/
def ex_cache : OpCache := [("r", [(1, 42)])]

/-- A plugin that cannot enumerate its operations
(`list_implemented_operations` raises `UnlistableOperationSetException`). -/
def ex_unlistable_plugin : Plugin :=
  { name := "Q", get_operation_steps := fun _ => [], list_implemented_operations := none }

/-- Step `A` with no dependencies. -/
def ex_step_A : OperationStep :=
  { step := 1, name := "A", plugin := "PA", dependencies := [], reverse_dependencies := [] }

/-- Step `A` after adding a dependency on the dangling name `"d"`. -/
def ex_step_A_dangling : OperationStep :=
  { step := 1, name := "A", plugin := "PA", dependencies := ["d"], reverse_dependencies := [] }

/-- A second, different step also named `"A"`, contributed by plugin `PA2`. -/
def ex_step_A2 : OperationStep :=
  { step := 9, name := "A", plugin := "PA2", dependencies := [], reverse_dependencies := [] }

/-- Plugin contributing the competing step named `"A"` for operation `"o"`. -/
def ex_plugin_A2 : Plugin :=
  { name := "PA2", get_operation_steps := fun op => if op = "o" then [ex_step_A2] else [],
    list_implemented_operations := none }

/-- Step `B` with no dependencies. -/
def ex_step_B : OperationStep :=
  { step := 2, name := "B", plugin := "PB", dependencies := [], reverse_dependencies := [] }

/-- Plugin contributing step `A` for operation `"o"`. -/
def ex_plugin_A : Plugin :=
  { name := "PA", get_operation_steps := fun op => if op = "o" then [ex_step_A] else [],
    list_implemented_operations := none }

/-- Plugin contributing step `A` with the extra dangling dependency `"d"`. -/
def ex_plugin_A_dangling : Plugin :=
  { name := "PA", get_operation_steps := fun op => if op = "o" then [ex_step_A_dangling] else [],
    list_implemented_operations := none }

/-- Plugin contributing step `B` for operation `"o"`. -/
def ex_plugin_B : Plugin :=
  { name := "PB", get_operation_steps := fun op => if op = "o" then [ex_step_B] else [],
    list_implemented_operations := none }

/-- Step `C`, which depends on step `A`. -/
def ex_step_C : OperationStep :=
  { step := 4, name := "C", plugin := "PC", dependencies := ["A"],
    reverse_dependencies := [] }

/-- Plugin contributing step `C` for operation `"o"`. -/
def ex_plugin_C : Plugin :=
  { name := "PC", get_operation_steps := fun op => if op = "o" then [ex_step_C] else [],
    list_implemented_operations := none }

/-- Step `S` whose reverse dependencies mention the dangling name `"d"`. -/
def ex_step_S : OperationStep :=
  { step := 1, name := "S", plugin := "PS", dependencies := [], reverse_dependencies := ["d"] }

/-- Step `S` after additionally adding a forward dependency on `"d"`:
together with the reverse dependency this closes the cycle `d -> S -> d`. -/
def ex_step_S_dangling : OperationStep :=
  { step := 1, name := "S", plugin := "PS", dependencies := ["d"], reverse_dependencies := ["d"] }

/-- Plugin contributing `ex_step_S` for operation `"o"`. -/
def ex_plugin_S : Plugin :=
  { name := "PS", get_operation_steps := fun op => if op = "o" then [ex_step_S] else [],
    list_implemented_operations := none }

/-- Plugin contributing `ex_step_S_dangling` for operation `"o"`. -/
def ex_plugin_S_dangling : Plugin :=
  { name := "PS", get_operation_steps := fun op => if op = "o" then [ex_step_S_dangling] else [],
    list_implemented_operations := none }

/-! Graph notions used to state cycle properties. -/

/-- Edge relation of the sorter's graph: `u` must precede `v` (that is, `v`
appears in `u`'s successor list). -/
def isEdge (m : Node2Info) (u v : String) : Prop :=
  v ∈ successors_of m u

/-- Every consecutive pair of the list is an edge. -/
def chain_edges (m : Node2Info) : List String → Bool
  | [] => true
  | [_] => true
  | a :: b :: rest => decide (b ∈ successors_of m a) && chain_edges m (b :: rest)

/-- A closed nonempty walk, written with its start repeated at the end
(the shape `_find_cycle` reports). -/
def is_cycle_list (m : Node2Info) (c : List String) : Prop :=
  2 ≤ c.length ∧ c.head? = c.getLast? ∧ chain_edges m c = true

/-- The dependency graph has a cycle. -/
def HasCycle (m : Node2Info) : Prop :=
  ∃ c, is_cycle_list m c

/-- Well-formedness of a graph as built through `ts_add`: node names are
unique and every successor has an entry of its own. -/
def WfGraph (m : Node2Info) : Prop :=
  (m.map Prod.fst).Nodup ∧ ∀ u v, isEdge m u v → v ∈ m.map Prod.fst

/-- Number of graph nodes not yet visited: the fuel budget of the DFS. -/
def unseen_count (m : Node2Info) (seen : List String) : Nat :=
  ((m.map Prod.fst).filter (fun x => decide (x ∉ seen))).length

/-- How often `n` is mentioned in the successor lists of nodes that are not
yet done (predecessor count at least `-1`): the quantity tracked by
`npredecessors` while the sorter runs. -/
def mention_sum (m : Node2Info) (n : String) : Nat :=
  (m.map (fun p => if -1 ≤ p.2.npredecessors then p.2.successors.count n else 0)).sum

/-- Number of entries not yet passed out (predecessor count nonnegative):
the termination measure of the Kahn loop. -/
def live_count (m : Node2Info) : Nat :=
  (m.map (fun p => if 0 ≤ p.2.npredecessors then 1 else 0)).sum

/-- The node names the generator hands out, with the final sorter state:
`iterate_gen` before the lookup into the `steps` dict. -/
def node_out : Nat → TS → List String × TS
  | 0, ts => ([], ts)
  | fuel + 1, ts =>
    if ts_is_active ts then
      let rest := node_out fuel (ts_done (ts_get_ready ts).2 ts.ready)
      (ts.ready ++ rest.1, rest.2)
    else ([], ts)

/-- Iterated-predecessor walk used in the pigeonhole argument that an acyclic
graph leaves no live node at the end of the run. -/
def iter_path (f : String → String) : Nat → String → List String
  | 0, v => [v]
  | d + 1, v => f^[d + 1] v :: iter_path f d v

/-- Invariant of the topological sorter state at the top of the generator
loop (established by `prepare`, preserved by one whole
`get_ready` / emit / `done` iteration). -/
structure TsInv (ts : TS) : Prop where
  nodup_keys : (ts.node2info.map Prod.fst).Nodup
  edges_closed : ∀ u v, isEdge ts.node2info u v → v ∈ ts.node2info.map Prod.fst
  ready_nodup : ts.ready.Nodup
  ready_zero : ∀ n ∈ ts.ready, ∃ i, alookup ts.node2info n = some i ∧ i.npredecessors = 0
  fin_eq : ts.nfinished = ts.npassedout
  vals : ∀ n i, alookup ts.node2info n = some i →
    i.npredecessors = -2 ∨ i.npredecessors = -1 ∨ 0 ≤ i.npredecessors
  cnt : ∀ n i, alookup ts.node2info n = some i → 0 ≤ i.npredecessors →
    i.npredecessors = (mention_sum ts.node2info n : Int)
  pd : ∀ n i, alookup ts.node2info n = some i → i.npredecessors < 0 →
    ∀ u j, alookup ts.node2info u = some j → n ∈ j.successors → j.npredecessors = -2
  r0 : ∀ n i, alookup ts.node2info n = some i → i.npredecessors = 0 → n ∈ ts.ready
  noout : ∀ n i, alookup ts.node2info n = some i → i.npredecessors ≠ -1

/-- Invariant of the sorter state in the middle of one loop iteration, after
`get_ready` has marked the group and while `done` still has the nodes of `r`
to process. -/
structure MidInv (ts : TS) (r : List String) : Prop where
  nodup_keys : (ts.node2info.map Prod.fst).Nodup
  edges_closed : ∀ u v, isEdge ts.node2info u v → v ∈ ts.node2info.map Prod.fst
  ready_nodup : ts.ready.Nodup
  ready_zero : ∀ n ∈ ts.ready, ∃ i, alookup ts.node2info n = some i ∧ i.npredecessors = 0
  vals : ∀ n i, alookup ts.node2info n = some i →
    i.npredecessors = -2 ∨ i.npredecessors = -1 ∨ 0 ≤ i.npredecessors
  cnt : ∀ n i, alookup ts.node2info n = some i → 0 ≤ i.npredecessors →
    i.npredecessors = (mention_sum ts.node2info n : Int)
  pd : ∀ n i, alookup ts.node2info n = some i → i.npredecessors < 0 →
    ∀ u j, alookup ts.node2info u = some j → n ∈ j.successors → j.npredecessors = -2
  r0 : ∀ n i, alookup ts.node2info n = some i → i.npredecessors = 0 → n ∈ ts.ready
  out_iff : ∀ n i, alookup ts.node2info n = some i → (i.npredecessors = -1 ↔ n ∈ r)
  r_nodup : r.Nodup
  r_mem : ∀ x ∈ r, x ∈ ts.node2info.map Prod.fst

/-- What one pass of successor decrements (the inner loop of `done`)
guarantees, relating the state before (`ts`) and after (`ts1`). -/
structure DecFoldOut (ts ts1 : TS) : Prop where
  keys_eq : ts1.node2info.map Prod.fst = ts.node2info.map Prod.fst
  succ_eq : ∀ u, successors_of ts1.node2info u = successors_of ts.node2info u
  pass_eq : ts1.npassedout = ts.npassedout
  nfin_eq : ts1.nfinished = ts.nfinished
  ready_ext : ∃ new, ts1.ready = ts.ready ++ new
  ready_zero : ∀ n ∈ ts1.ready, ∃ i, alookup ts1.node2info n = some i ∧ i.npredecessors = 0
  ready_nodup : ts1.ready.Nodup
  cnt : ∀ v i, alookup ts1.node2info v = some i → 0 ≤ i.npredecessors →
    i.npredecessors = (mention_sum ts1.node2info v : Int)
  vals : ∀ v i, alookup ts1.node2info v = some i →
    i.npredecessors = -2 ∨ i.npredecessors = -1 ∨ 0 ≤ i.npredecessors
  pd : ∀ v i, alookup ts1.node2info v = some i → i.npredecessors < 0 →
    ∀ u j, alookup ts1.node2info u = some j → v ∈ j.successors → j.npredecessors = -2
  r0 : ∀ v i, alookup ts1.node2info v = some i → i.npredecessors = 0 → v ∈ ts1.ready
  neg_pres : ∀ v i, alookup ts.node2info v = some i → i.npredecessors < 0 →
    alookup ts1.node2info v = some i
  neg_back : ∀ v i, alookup ts1.node2info v = some i → i.npredecessors < 0 →
    alookup ts.node2info v = some i
  live_eq : live_count ts1.node2info = live_count ts.node2info

/-- What draining the generator from a boundary state `ts` guarantees about
the emitted node list `out` and the final state `tsf`. -/
structure DrainOut (ts : TS) (out : List String) (tsf : TS) : Prop where
  inv : TsInv tsf
  keys_eq : tsf.node2info.map Prod.fst = ts.node2info.map Prod.fst
  succ_eq : ∀ u, successors_of tsf.node2info u = successors_of ts.node2info u
  out_nodup : out.Nodup
  out_keys : ∀ v ∈ out, v ∈ ts.node2info.map Prod.fst
  out_live : ∀ v ∈ out, ∃ j, alookup ts.node2info v = some j ∧ 0 ≤ j.npredecessors
  no_back : List.Pairwise (fun a b => ¬ isEdge ts.node2info b a) out
  done_of_out : ∀ v ∈ out, ∃ j, alookup tsf.node2info v = some j ∧ j.npredecessors = -2
  done_pres : ∀ v j, alookup ts.node2info v = some j → j.npredecessors = -2 →
    alookup tsf.node2info v = some j
  done_back : ∀ v j, alookup tsf.node2info v = some j → j.npredecessors = -2 →
    v ∈ out ∨ alookup ts.node2info v = some j
  inactive : ts_is_active tsf = false

/-- Invariant of the sorter's map during the build phase (`add` calls only):
well-formed, all counts still nonnegative, and every node's predecessor count
is exactly how often it is mentioned across the successor lists. -/
def BuildInv (m : Node2Info) : Prop :=
  WfGraph m ∧
  ∀ v j, alookup m v = some j → 0 ≤ j.npredecessors ∧
    j.npredecessors = (mention_sum m v : Int)

/-! Association-list lemmas. -/

theorem alookup_append_of_none {α β : Type} [DecidableEq α]
    (m l : List (α × β)) (k : α) (h : alookup m k = none) :
    alookup (m ++ l) k = alookup l k := by
  induction m with
  | nil => rfl
  | cons p rest ih =>
    obtain ⟨k0, v⟩ := p
    by_cases hk : k0 = k
    · simp [alookup, hk] at h
    · simpa [alookup, hk] using ih (by simpa [alookup, hk] using h)

theorem alookup_aupdate_self {α β : Type} [DecidableEq α]
    (m : List (α × β)) (k : α) (f : β → β) (v : β) (h : alookup m k = some v) :
    alookup (aupdate m k f) k = some (f v) := by
  induction m with
  | nil => simp [alookup] at h
  | cons p rest ih =>
    obtain ⟨k0, w⟩ := p
    by_cases hk : k0 = k
    · simp [alookup, hk] at h
      simp [alookup, aupdate, hk, h]
    · simp [alookup, hk] at h
      simpa [alookup, aupdate, hk] using ih h

theorem alookup_set_scope_self (c : OpCache) (op : String) (sc : List (Nat × Nat)) :
    alookup (set_scope c op sc) op = some sc := by
  unfold set_scope
  cases h : alookup c op with
  | some old =>
    simpa using alookup_aupdate_self c op (fun _ => sc) old h
  | none =>
    rw [alookup_append_of_none c _ op h]
    simp [alookup]

/-! `operation_cache` lemmas. -/

theorem operation_cache_hit (c : OpCache) (op : String) (k : Nat)
    (f : List Nat → Nat) (args : List Nat) (v : Nat)
    (h : cache_lookup c op k = some v) :
    operation_cache c op k f args = (v, c) := by
  unfold operation_cache
  unfold cache_lookup at h
  simp [h]

theorem operation_cache_miss (c : OpCache) (op : String) (k : Nat)
    (f : List Nat → Nat) (args : List Nat)
    (h : cache_lookup c op k = none) :
    operation_cache c op k f args
      = (f args, set_scope c op (((alookup c op).getD []) ++ [(k, f args)])) := by
  unfold operation_cache
  unfold cache_lookup at h
  simp [h]

theorem cache_lookup_after_store (c : OpCache) (op : String) (k : Nat) (v : Nat)
    (h : cache_lookup c op k = none) :
    cache_lookup (set_scope c op (((alookup c op).getD []) ++ [(k, v)])) op k = some v := by
  unfold cache_lookup at h ⊢
  rw [alookup_set_scope_self]
  simp only [Option.getD_some]
  rw [alookup_append_of_none _ _ _ h]
  simp [alookup]

theorem run_cache_trace_hit (c : OpCache) (op : String) (k : Nat) (v : Nat)
    (reqs : List ((List Nat → Nat) × List Nat))
    (h : cache_lookup c op k = some v) :
    run_cache_trace c op k reqs = (c, reqs.map (fun _ => v), 0) := by
  induction reqs with
  | nil => rfl
  | cons r rest ih =>
    obtain ⟨f, args⟩ := r
    simp [run_cache_trace, h, operation_cache_hit c op k f args v h, ih]

/-- C7: across any sequence of `operation_cache` calls for one `(op, key)`
pair on one manager (no intervening drop), the compute function runs exactly
once — zero times when the entry already exists, once on the first call
otherwise — and every call returns the stored value, regardless of which
compute function or arguments later calls pass. -/
theorem c7_theorem (c : OpCache) (op : String) (k : Nat)
    (reqs : List ((List Nat → Nat) × List Nat)) :
    (run_cache_trace c op k reqs).2.2
      = (match cache_lookup c op k, reqs with
         | some _, _ => 0
         | none, [] => 0
         | none, _ :: _ => 1)
    ∧ (run_cache_trace c op k reqs).2.1
      = reqs.map (fun _ =>
          match cache_lookup c op k, reqs with
          | some v, _ => v
          | none, [] => 0
          | none, (f, a) :: _ => f a) := by
  cases h : cache_lookup c op k with
  | some v =>
    rw [run_cache_trace_hit c op k v reqs h]
    exact ⟨rfl, rfl⟩
  | none =>
    cases reqs with
    | nil => exact ⟨rfl, rfl⟩
    | cons r rest =>
      obtain ⟨f, args⟩ := r
      have hmiss := operation_cache_miss c op k f args h
      have hstore := cache_lookup_after_store c op k (f args) h
      have htail := run_cache_trace_hit _ op k (f args) rest hstore
      constructor
      · simp [run_cache_trace, h, hmiss, htail]
      · simp [run_cache_trace, h, hmiss, htail]

/-- C9: `drop_operation_cache(keys=K)` with neither `operations` nor `plugin`
given falls through to replacing the whole cache with a fresh empty one: every
entry of every operation is gone and the keys restriction is ignored. -/
theorem c9_theorem (c : OpCache) (ks : List Nat) :
    drop_operation_cache c none (some ks) none = Except.ok ([] : OpCache)
    ∧ ∀ op k, cache_lookup ([] : OpCache) op k = none := by
  exact ⟨rfl, fun _ _ => rfl⟩

/-- C1 counterexample: for the one-entry cache `ex_cache` and a plugin whose
operation enumeration raises `UnlistableOperationSetException`,
`drop_operation_cache(plugin=p)` does not leave the cached entry `("r", 1)`
unchanged — it replaces the cache by an empty one, so the entry is gone. -/
theorem c1_counterexample :
    ex_unlistable_plugin.list_implemented_operations = none
    ∧ drop_operation_cache ex_cache none none (some ex_unlistable_plugin)
        = Except.ok ([] : OpCache)
    ∧ cache_lookup ex_cache "r" 1 = some 42
    ∧ cache_lookup ([] : OpCache) "r" 1 = none := by
  exact ⟨rfl, rfl, rfl, rfl⟩

/-- C1 (amended): when the plugin cannot enumerate its operations,
`drop_operation_cache(plugin=p)` is not a no-op: the
`UnlistableOperationSetException` is swallowed and control falls through to
the global branch, which flushes the entire cache. -/
theorem c1_theorem (c : OpCache) (ks : Option (List Nat)) (p : Plugin)
    (h : p.list_implemented_operations = none) :
    drop_operation_cache c none ks (some p) = Except.ok ([] : OpCache) := by
  simp [drop_operation_cache, h]

/-- C1 witness: the amended statement at the concrete unlistable plugin. -/
theorem c1_witness :
    ex_unlistable_plugin.list_implemented_operations = none
    ∧ drop_operation_cache ex_cache none none (some ex_unlistable_plugin)
        = Except.ok ([] : OpCache) :=
  ⟨rfl, c1_theorem ex_cache none ex_unlistable_plugin rfl⟩

/-- C6: `get_operation_sequence` neither reads nor writes any manager state
other than the plugin collection, so on one manager two successive calls with
the same operation name and no intervening plugin-set change return the same
sequence — pointwise equal steps in identical order — and leave the manager
unchanged. -/
theorem c6_theorem (pm : PluginManagerImpl) (op_name : String) :
    (pm_get_operation_sequence pm op_name).2 = pm
    ∧ (pm_get_operation_sequence ((pm_get_operation_sequence pm op_name).2) op_name).1
        = (pm_get_operation_sequence pm op_name).1 :=
  ⟨rfl, rfl⟩

/-- C8: the wrapper that `factory_implementation` builds (sync and async
alike) invokes the factory exactly when `prev` is `None`, passes `prev` itself
to `next` when `prev` is present and the factory's result otherwise, and
returns whatever `next` returns (in particular, when `prev` is present the
factory has no influence at all). -/
theorem c8_theorem (f : List Nat → Option Nat) (g : Option Nat → List Nat → Nat)
    (fn1 fn2 : List Nat → Nat → Option Nat × Nat)
    (nxt : Option Nat → List Nat → Nat → Nat × Nat)
    (v : Nat) (prev : Option Nat) (args : List Nat) (s : Nat) :
    factory_impl fn1 nxt (some v) args s = nxt (some v) args s
    ∧ factory_impl fn1 nxt (some v) args s = factory_impl fn2 nxt (some v) args s
    ∧ afactory_impl fn1 nxt (some v) args s = nxt (some v) args s
    ∧ factory_impl (counting_fn f) (pure_nxt g) prev args s
        = (g (match prev with | some w => some w | none => f args) args,
           s + (match prev with | some _ => 0 | none => 1))
    ∧ afactory_impl (counting_fn f) (pure_nxt g) prev args s
        = (g (match prev with | some w => some w | none => f args) args,
           s + (match prev with | some _ => 0 | none => 1)) := by
  refine ⟨rfl, rfl, rfl, ?_, ?_⟩ <;> cases prev <;> rfl

/-! Cycle-detection soundness: whatever `_find_cycle` reports really is a
closed walk of the graph. -/

theorem alookup_some_mem_fst {α β : Type} [DecidableEq α]
    (m : List (α × β)) (k : α) (v : β) (h : alookup m k = some v) :
    k ∈ m.map Prod.fst := by
  induction m with
  | nil => simp [alookup] at h
  | cons p rest ih =>
    obtain ⟨k0, w⟩ := p
    by_cases hk : k0 = k
    · simp [hk]
    · simp [alookup, hk] at h
      simpa using Or.inr (ih h)

theorem isEdge_mem_fst (m : Node2Info) (u v : String) (h : isEdge m u v) :
    u ∈ m.map Prod.fst := by
  unfold isEdge successors_of at h
  cases hl : alookup m u with
  | none => rw [hl] at h; simp at h
  | some i => exact alookup_some_mem_fst m u i hl

theorem stack_suffix_from_spec (st : List String) (n : String) :
    n ∈ st → ∃ pre t, st = pre ++ (n :: t) ∧ stack_suffix_from st n = n :: t := by
  induction st with
  | nil => intro h; simp at h
  | cons x rest ih =>
    intro h
    by_cases hx : x = n
    · subst hx
      exact ⟨[], rest, by simp, by simp [stack_suffix_from]⟩
    · have hmem : n ∈ rest := by
        cases List.mem_cons.mp h with
        | inl h1 => exact absurd h1.symm hx
        | inr h1 => exact h1
      obtain ⟨pre, t, hst, hsf⟩ := ih hmem
      exact ⟨x :: pre, t, by simp [hst], by simpa [stack_suffix_from, hx] using hsf⟩

theorem chain_edges_of_cons (m : Node2Info) (x : String) (l : List String)
    (h : chain_edges m (x :: l) = true) : chain_edges m l = true := by
  cases l with
  | nil => rfl
  | cons y r =>
    have := h
    simp [chain_edges, Bool.and_eq_true] at this
    exact this.2

theorem chain_edges_append_left (m : Node2Info) (a b : List String)
    (h : chain_edges m (a ++ b) = true) : chain_edges m b = true := by
  induction a with
  | nil => simpa using h
  | cons x a0 ih =>
    exact ih (chain_edges_of_cons m x (a0 ++ b) (by simpa using h))

theorem chain_edges_snoc (m : Node2Info) (xs : List String) (y : String)
    (h : chain_edges m xs = true)
    (hlast : ∀ l, xs.getLast? = some l → isEdge m l y) :
    chain_edges m (xs ++ [y]) = true := by
  induction xs with
  | nil => rfl
  | cons x xs0 ih =>
    cases xs0 with
    | nil =>
      have he : isEdge m x y := hlast x rfl
      simp [chain_edges]
      exact he
    | cons z r =>
      have h1 : decide (z ∈ successors_of m x) = true := by
        simp [chain_edges, Bool.and_eq_true] at h
        simpa using h.1
      have h2 : chain_edges m (z :: r) = true := chain_edges_of_cons m x (z :: r) h
      have h3 := ih h2 (fun l hl => hlast l (by simpa [List.getLast?] using hl))
      simp only [List.cons_append, chain_edges, Bool.and_eq_true]
      constructor
      · simpa using h1
      · simpa using h3

theorem cycle_from_stack_hit (m : Node2Info) (stack : List String) (n : String)
    (hstk : n ∈ stack) (hchain : chain_edges m stack = true)
    (hlast : ∀ l, stack.getLast? = some l → isEdge m l n) :
    is_cycle_list m (stack_suffix_from stack n ++ [n]) := by
  obtain ⟨pre, t, hst, hsf⟩ := stack_suffix_from_spec stack n hstk
  subst hst
  rw [hsf]
  have hchain2 : chain_edges m (n :: t) = true :=
    chain_edges_append_left m pre (n :: t) hchain
  have hlastedge : ∀ l, (n :: t).getLast? = some l → isEdge m l n := by
    intro l hl
    exact hlast l (by rw [List.getLast?_append_cons]; exact hl)
  refine ⟨by simp, ?_, ?_⟩
  · rw [List.getLast?_append_cons]
    rfl
  · exact chain_edges_snoc m (n :: t) n hchain2 hlastedge

theorem visit_all_sound (m : Node2Info) :
    ∀ fuel nodes seen stack c,
    chain_edges m stack = true →
    (∀ x ∈ nodes, ∀ l, stack.getLast? = some l → isEdge m l x) →
    visit_all m fuel seen stack nodes = .error c →
    is_cycle_list m c := by
  intro fuel
  induction fuel using Nat.strong_induction_on with
  | _ fuel ihf =>
    intro nodes
    induction nodes with
    | nil =>
      intro seen stack c _ _ hvis
      cases fuel <;> simp [visit_all] at hvis
    | cons n rest ihn =>
      intro seen stack c hchain hsucc hvis
      cases fuel with
      | zero =>
        rw [visit_all] at hvis
        by_cases hseen : n ∈ seen
        · simp only [hseen, if_true] at hvis
          by_cases hstk : n ∈ stack
          · simp only [hstk, if_true] at hvis
            have hc : stack_suffix_from stack n ++ [n] = c := by injection hvis
            rw [← hc]
            exact cycle_from_stack_hit m stack n hstk hchain (hsucc n (by simp))
          · simp only [hstk, if_false] at hvis
            exact ihn seen stack c hchain (fun x hx => hsucc x (by simp [hx])) hvis
        · simp only [hseen, if_false] at hvis
          exact Except.noConfusion hvis
      | succ fuel1 =>
        rw [visit_all] at hvis
        by_cases hseen : n ∈ seen
        · simp only [hseen, if_true] at hvis
          by_cases hstk : n ∈ stack
          · simp only [hstk, if_true] at hvis
            have hc : stack_suffix_from stack n ++ [n] = c := by injection hvis
            rw [← hc]
            exact cycle_from_stack_hit m stack n hstk hchain (hsucc n (by simp))
          · simp only [hstk, if_false] at hvis
            exact ihn seen stack c hchain (fun x hx => hsucc x (by simp [hx])) hvis
        · simp only [hseen, if_false] at hvis
          have hchain2 : chain_edges m (stack ++ [n]) = true :=
            chain_edges_snoc m stack n hchain (fun l hl => hsucc n (by simp) l hl)
          cases hin : visit_all m fuel1 (n :: seen) (stack ++ [n]) (successors_of m n) with
          | error c0 =>
            rw [hin] at hvis
            have hcc : c0 = c := by injection hvis
            subst hcc
            refine ihf fuel1 (by omega) (successors_of m n) (n :: seen) (stack ++ [n]) c0
              hchain2 ?_ hin
            intro x hx l hl
            rw [List.getLast?_append_cons] at hl
            simp [List.getLast?] at hl
            subst hl
            exact hx
          | ok seen1 =>
            rw [hin] at hvis
            exact ihn seen1 stack c hchain (fun x hx => hsucc x (by simp [hx])) hvis

theorem find_cycle_aux_sound (m : Node2Info) :
    ∀ ks fuel seen c,
    find_cycle_aux m fuel seen ks = some c →
    is_cycle_list m c := by
  intro ks
  induction ks with
  | nil =>
    intro fuel seen c h
    simp [find_cycle_aux] at h
  | cons k rest ih =>
    intro fuel seen c h
    rw [find_cycle_aux] at h
    by_cases hk : k ∈ seen
    · simp only [hk, if_true] at h
      exact ih fuel seen c h
    · simp only [hk, if_false] at h
      cases hv : visit_all m fuel seen [] [k] with
      | error c0 =>
        rw [hv] at h
        have : c0 = c := by injection h
        subst this
        exact visit_all_sound m fuel [k] seen [] c0 rfl (by intro x _ l hl; simp at hl) hv
      | ok seen1 =>
        rw [hv] at h
        exact ih fuel seen1 c h

/-- Soundness of `_find_cycle`: a reported list is a genuine closed walk. -/
theorem find_cycle_sound (m : Node2Info) (c : List String)
    (h : find_cycle m = some c) : is_cycle_list m c :=
  find_cycle_aux_sound m (m.map Prod.fst) m.length [] c h

/-! Generic fold and lookup helpers for the build-phase invariants. -/

theorem foldl_preserve {α β : Type} (f : β → α → β) (P : β → Prop)
    (h : ∀ b a, P b → P (f b a)) : ∀ (l : List α) (b : β), P b → P (l.foldl f b) := by
  intro l
  induction l with
  | nil => intro b hb; exact hb
  | cons a l0 ih => intro b hb; exact ih (f b a) (h b a hb)

theorem alookup_append_left {α β : Type} [DecidableEq α]
    (m l : List (α × β)) (k : α) (v : β) (h : alookup m k = some v) :
    alookup (m ++ l) k = some v := by
  induction m with
  | nil => simp [alookup] at h
  | cons p rest ih =>
    obtain ⟨k0, w⟩ := p
    by_cases hk : k0 = k
    · simp [alookup, hk] at h ⊢
      exact h
    · simp only [alookup, hk, if_false, List.cons_append] at h ⊢
      exact ih h

/-- Ingesting one step preserves the keyed-by-own-name property of the
`steps` dict. -/
theorem ingest_step_steps_named (st1 : BuildState) (p : Plugin) (s1 : OperationStep)
    (h1 : ∀ k s, alookup st1.steps k = some s → s.name = k) :
    ∀ k s, alookup (ingest_step st1 p s1).steps k = some s → s.name = k := by
  intro k s hlook
  unfold ingest_step at hlook
  cases he : alookup st1.steps s1.name with
  | some prev =>
    rw [he] at hlook
    exact h1 k s hlook
  | none =>
    rw [he] at hlook
    have hlook2 : alookup (st1.steps ++ [(s1.name, s1)]) k = some s := hlook
    cases hk : alookup st1.steps k with
    | some v =>
      rw [alookup_append_left st1.steps [(s1.name, s1)] k v hk] at hlook2
      have hvs : v = s := by injection hlook2
      rw [← hvs]
      exact h1 k v hk
    | none =>
      rw [alookup_append_of_none st1.steps [(s1.name, s1)] k hk] at hlook2
      by_cases hn : s1.name = k
      · rw [show alookup [(s1.name, s1)] k = some s1 from by simp [alookup, hn]] at hlook2
        cases hlook2
        exact hn
      · rw [show alookup [(s1.name, s1)] k = none from by simp [alookup, hn]] at hlook2
        exact Option.noConfusion hlook2

/-- The `steps` dict built by `get_operation_sequence` keys every step by its
own name. -/
theorem build_state_steps_named (plugins : List Plugin) (op : String) :
    ∀ k s, alookup (build_state plugins op).steps k = some s → s.name = k := by
  unfold build_state
  refine foldl_preserve
    (fun st p => (p.get_operation_steps op).foldl (fun st1 s => ingest_step st1 p s) st)
    (fun st => ∀ k s, alookup st.steps k = some s → s.name = k)
    ?_ plugins { steps := [], warnings := [], graph := [] } ?_
  · intro st p hst
    exact foldl_preserve (fun st1 s => ingest_step st1 p s)
      (fun st1 => ∀ k s, alookup st1.steps k = some s → s.name = k)
      (fun st1 s1 h1 => ingest_step_steps_named st1 p s1 h1)
      (p.get_operation_steps op) st hst
  · intro k s h
    simp [alookup] at h

/-- Every step yielded by the generator comes from the `steps` dict. -/
theorem mem_iterate_gen (steps : List (String × OperationStep)) :
    ∀ fuel ts s, s ∈ (iterate_gen steps fuel ts).1 → ∃ n, alookup steps n = some s := by
  intro fuel
  induction fuel with
  | zero =>
    intro ts s h
    simp [iterate_gen] at h
  | succ f ih =>
    intro ts s h
    rw [iterate_gen] at h
    by_cases ha : ts_is_active ts
    · simp only [ha, if_true] at h
      rcases List.mem_append.mp h with h1 | h1
      · obtain ⟨n, _, hn⟩ := List.mem_filterMap.mp h1
        exact ⟨n, hn⟩
      · exact ih _ s h1
    · simp only [ha, if_false] at h
      simp at h

/-- `get_operation_sequence` fails only when `_find_cycle` reports a cycle,
and then the reported list really is a closed walk of the built graph. -/
theorem get_operation_sequence_error_cycle (plugins : List Plugin) (op : String)
    (e : DependencyCycleException)
    (h : get_operation_sequence plugins op = .error e) :
    ∃ cyc, find_cycle (build_state plugins op).graph = some cyc
      ∧ is_cycle_list (build_state plugins op).graph cyc
      ∧ e.op_name = op
      ∧ e.steps = (cyc.drop 1).map (fun n =>
          (match alookup (build_state plugins op).steps n with
           | some s => Sum.inl s
           | none => Sum.inr n)) := by
  unfold get_operation_sequence at h
  split at h
  case h_1 cyc hp =>
    have he : e = DependencyCycleException.mk op ((cyc.drop 1).map (fun n =>
          (match alookup (build_state plugins op).steps n with
           | some s => Sum.inl s
           | none => Sum.inr n))) := by
      injection h with h1
      exact h1.symm
    subst he
    unfold ts_prepare at hp
    cases hf : find_cycle (build_state plugins op).graph with
    | none =>
      rw [hf] at hp
      exact Except.noConfusion hp
    | some c =>
      rw [hf] at hp
      have hc : c = cyc := by injection hp
      subst hc
      exact ⟨c, rfl, find_cycle_sound _ c hf, rfl, rfl⟩
  case h_2 ts hp =>
    exact Except.noConfusion h

/-- C2 counterexample: adding a dependency on the name `"d"`, which no step
carries, (a) flips the order of the two dependency-unrelated steps `A` and `B`
(from `[A, B]` to `[B, A]`), and (b) for a step with reverse dependency `"d"`,
makes `get_operation_sequence` raise `DependencyCycleException` (cycle
`d -> S -> d`), while in both cases `"d"` names no step. -/
theorem c2_counterexample :
    get_operation_sequence [ex_plugin_A, ex_plugin_B] "o" = .ok [ex_step_A, ex_step_B]
    ∧ get_operation_sequence [ex_plugin_A_dangling, ex_plugin_B] "o"
        = .ok [ex_step_B, ex_step_A_dangling]
    ∧ alookup (build_state [ex_plugin_A_dangling, ex_plugin_B] "o").steps "d" = none
    ∧ get_operation_sequence [ex_plugin_S] "o" = .ok [ex_step_S]
    ∧ get_operation_sequence [ex_plugin_S_dangling] "o"
        = .error (DependencyCycleException.mk "o" [Sum.inr "d", Sum.inl ex_step_S_dangling])
    ∧ alookup (build_state [ex_plugin_S_dangling] "o").steps "d" = none := by
  refine ⟨?_, ?_, ?_, ?_, ?_, ?_⟩ <;>
    simp +decide [get_operation_sequence, build_state, ingest_step, ts_add, get_nodeinfo,
      aupdate, alookup, ts_prepare, find_cycle, find_cycle_aux, visit_all, successors_of,
      stack_suffix_from, iterate_gen, ts_is_active, ts_get_ready, ts_done, done_one,
      dec_successor, ex_plugin_A, ex_plugin_A_dangling, ex_plugin_B, ex_plugin_S,
      ex_plugin_S_dangling, ex_step_A, ex_step_A_dangling, ex_step_B, ex_step_S,
      ex_step_S_dangling]

/-- C2 (amended): a dependency on a name that no step carries is never itself
an error and never yields a step — every step of a successful sequence is a
recorded step, found in the steps dict under its own name, so dangling names
are silently skipped — and `get_operation_sequence` raises only when the
dependency graph including such hint edges genuinely has a cycle.  However
(see the counterexample) a dangling dependency may change the relative order
of dependency-unrelated steps, and may close a cycle together with
reverse-dependency hint edges, so the claim's invariance part does not hold. -/
theorem c2_theorem (plugins : List Plugin) (op : String) :
    (∀ out, get_operation_sequence plugins op = .ok out →
      ∀ s ∈ out, alookup (build_state plugins op).steps s.name = some s)
    ∧ (∀ e, get_operation_sequence plugins op = .error e →
      HasCycle (build_state plugins op).graph) := by
  constructor
  · intro out hok s hs
    unfold get_operation_sequence at hok
    split at hok
    case h_1 cyc hp => exact Except.noConfusion hok
    case h_2 ts hp =>
      have hout : out = (iterate_gen (build_state plugins op).steps
          ((build_state plugins op).graph.length + 1) ts).1 := by
        injection hok with h1
        exact h1.symm
      subst hout
      obtain ⟨n, hn⟩ := mem_iterate_gen _ _ ts s hs
      have hname := build_state_steps_named plugins op n s hn
      rw [hname]
      exact hn
  · intro e herr
    obtain ⟨cyc, _, hcyc, _, _⟩ := get_operation_sequence_error_cycle plugins op e herr
    exact ⟨cyc, hcyc⟩

/-- C2 witness: the amended statement applied at the concrete inputs of the
counterexample. -/
theorem c2_witness :
    alookup (build_state [ex_plugin_A_dangling, ex_plugin_B] "o").steps ex_step_B.name
      = some ex_step_B
    ∧ HasCycle (build_state [ex_plugin_S_dangling] "o").graph := by
  constructor
  · refine (c2_theorem [ex_plugin_A_dangling, ex_plugin_B] "o").1
      [ex_step_B, ex_step_A_dangling] ?_ ex_step_B (by simp)
    simp +decide [get_operation_sequence, build_state, ingest_step, ts_add, get_nodeinfo,
      aupdate, alookup, ts_prepare, find_cycle, find_cycle_aux, visit_all, successors_of,
      stack_suffix_from, iterate_gen, ts_is_active, ts_get_ready, ts_done, done_one,
      dec_successor, ex_plugin_A_dangling, ex_plugin_B, ex_step_A_dangling, ex_step_B]
  · refine (c2_theorem [ex_plugin_S_dangling] "o").2
      (DependencyCycleException.mk "o" [Sum.inr "d", Sum.inl ex_step_S_dangling]) ?_
    simp +decide [get_operation_sequence, build_state, ingest_step, ts_add, get_nodeinfo,
      aupdate, alookup, ts_prepare, find_cycle, find_cycle_aux, visit_all, successors_of,
      stack_suffix_from, ex_plugin_S_dangling, ex_step_S_dangling]

/-! Cycle-detection completeness: if `_find_cycle` reports nothing, the DFS
has produced a topological rank, so the graph is acyclic. -/

theorem filter_length_mono {α : Type} (p q : α → Bool)
    (l : List α) (h : ∀ x ∈ l, p x = true → q x = true) :
    (l.filter p).length ≤ (l.filter q).length := by
  induction l with
  | nil => simp
  | cons a l0 ih =>
    have ih2 := ih (fun x hx hp => h x (by simp [hx]) hp)
    by_cases hp : p a = true
    · rw [List.filter_cons_of_pos hp, List.filter_cons_of_pos (h a (by simp) hp)]
      simpa using ih2
    · rw [List.filter_cons_of_neg (by simpa using hp)]
      by_cases hq : q a = true
      · rw [List.filter_cons_of_pos hq]
        exact le_trans ih2 (by simp)
      · rw [List.filter_cons_of_neg (by simpa using hq)]
        exact ih2

theorem unseen_count_mono (m : Node2Info) (seen seen1 : List String)
    (h : ∀ x ∈ seen, x ∈ seen1) :
    unseen_count m seen1 ≤ unseen_count m seen := by
  apply filter_length_mono
  intro x _ hx
  simp only [decide_eq_true_eq] at hx ⊢
  intro hmem
  exact hx (h x hmem)

theorem count_unseen_strict (l seen : List String) (n : String)
    (hk : n ∈ l) (hn : n ∉ seen) :
    (l.filter (fun x => decide (x ∉ n :: seen))).length
      < (l.filter (fun x => decide (x ∉ seen))).length := by
  induction l with
  | nil => simp at hk
  | cons a l0 ih =>
    by_cases ha : a = n
    · subst ha
      rw [List.filter_cons_of_neg (by simp), List.filter_cons_of_pos (by simpa using hn)]
      have hmono := filter_length_mono (fun x => decide (x ∉ a :: seen))
        (fun x => decide (x ∉ seen)) l0 ?_
      · simp only [List.length_cons]
        omega
      · intro x _ hx
        simp only [decide_eq_true_eq, List.mem_cons, not_or] at hx ⊢
        exact hx.2
    · cases List.mem_cons.mp hk with
      | inl h1 => exact absurd h1.symm ha
      | inr h1 =>
        have ih2 := ih h1
        by_cases hpa : a ∈ seen
        · rw [List.filter_cons_of_neg (by simp [hpa]),
            List.filter_cons_of_neg (by simp [hpa])]
          exact ih2
        · rw [List.filter_cons_of_pos (by simp [hpa, ha]),
            List.filter_cons_of_pos (by simp [hpa])]
          simpa using ih2

theorem unseen_count_strict (m : Node2Info) (seen : List String) (n : String)
    (hk : n ∈ m.map Prod.fst) (hn : n ∉ seen) :
    unseen_count m (n :: seen) < unseen_count m seen :=
  count_unseen_strict (m.map Prod.fst) seen n hk hn

theorem unseen_count_le (m : Node2Info) (seen : List String) :
    unseen_count m seen ≤ m.length := by
  unfold unseen_count
  calc ((m.map Prod.fst).filter (fun x => decide (x ∉ seen))).length
      ≤ (m.map Prod.fst).length := List.length_filter_le _ _
    _ = m.length := List.length_map m Prod.fst

theorem le_foldr_max (f : String → Nat) (l : List String) (x : String) (hx : x ∈ l) :
    f x ≤ (l.map f).foldr Nat.max 0 := by
  induction l with
  | nil => simp at hx
  | cons a l0 ih =>
    cases List.mem_cons.mp hx with
    | inl h1 =>
      subst h1
      simp only [List.map_cons, List.foldr_cons]
      exact Nat.le_max_left _ _
    | inr h1 =>
      simp only [List.map_cons, List.foldr_cons]
      exact le_trans (ih h1) (Nat.le_max_right _ _)

/-- When the DFS of `_find_cycle` completes a node list without reporting a
cycle, the visited region admits a topological rank: every edge from a
finished (visited, off-stack) node goes to a finished node of strictly
smaller rank.  This is the heart of completeness. -/
theorem visit_all_ok_topo (m : Node2Info) (hwf : WfGraph m) :
    ∀ fuel nodes seen stack (rank : String → Nat) seen1,
    (∀ x ∈ stack, x ∈ seen) →
    (∀ x ∈ seen, x ∈ m.map Prod.fst) →
    (∀ x ∈ nodes, x ∈ m.map Prod.fst) →
    unseen_count m seen ≤ fuel →
    (∀ u ∈ seen, u ∉ stack → ∀ v, isEdge m u v →
      v ∈ seen ∧ v ∉ stack ∧ rank v < rank u) →
    visit_all m fuel seen stack nodes = .ok seen1 →
    ∃ rank1 : String → Nat,
      (∀ x ∈ seen, x ∈ seen1)
      ∧ (∀ x ∈ seen1, x ∈ m.map Prod.fst)
      ∧ (∀ n0 ∈ nodes, n0 ∈ seen1 ∧ n0 ∉ stack)
      ∧ (∀ u ∈ seen1, u ∉ stack → ∀ v, isEdge m u v →
        v ∈ seen1 ∧ v ∉ stack ∧ rank1 v < rank1 u) := by
  intro fuel
  induction fuel using Nat.strong_induction_on with
  | _ fuel ihf =>
    intro nodes
    induction nodes with
    | nil =>
      intro seen stack rank seen1 hss hsk hnk hfuel hrank hvis
      have hs : seen = seen1 := by
        cases fuel <;> (rw [visit_all] at hvis; exact Except.ok.inj hvis)
      subst hs
      exact ⟨rank, fun x h => h, hsk,
        by intro n0 h; exact absurd h (List.not_mem_nil n0), hrank⟩
    | cons n rest ihn =>
      intro seen stack rank seen1 hss hsk hnk hfuel hrank hvis
      cases fuel with
      | zero =>
        by_cases hseen : n ∈ seen
        · rw [visit_all] at hvis
          simp only [hseen, if_true] at hvis
          by_cases hstk : n ∈ stack
          · simp only [hstk, if_true] at hvis
            exact Except.noConfusion hvis
          · simp only [hstk, if_false] at hvis
            obtain ⟨rank1, h1, h2, h3, h4⟩ :=
              ihn seen stack rank seen1 hss hsk (fun x hx => hnk x (by simp [hx]))
                hfuel hrank hvis
            refine ⟨rank1, h1, h2, ?_, h4⟩
            intro n0 hn0
            cases List.mem_cons.mp hn0 with
            | inl he => subst he; exact ⟨h1 n0 hseen, hstk⟩
            | inr he => exact h3 n0 he
        · exfalso
          have hstrict := unseen_count_strict m seen n (hnk n (by simp)) hseen
          omega
      | succ f =>
        rw [visit_all] at hvis
        by_cases hseen : n ∈ seen
        · simp only [hseen, if_true] at hvis
          by_cases hstk : n ∈ stack
          · simp only [hstk, if_true] at hvis
            exact Except.noConfusion hvis
          · simp only [hstk, if_false] at hvis
            obtain ⟨rank1, h1, h2, h3, h4⟩ :=
              ihn seen stack rank seen1 hss hsk (fun x hx => hnk x (by simp [hx]))
                hfuel hrank hvis
            refine ⟨rank1, h1, h2, ?_, h4⟩
            intro n0 hn0
            cases List.mem_cons.mp hn0 with
            | inl he => subst he; exact ⟨h1 n0 hseen, hstk⟩
            | inr he => exact h3 n0 he
        · simp only [hseen, if_false] at hvis
          have hnk0 : n ∈ m.map Prod.fst := hnk n (by simp)
          have hnstk : n ∉ stack := fun hc => hseen (hss n hc)
          cases hin : visit_all m f (n :: seen) (stack ++ [n]) (successors_of m n) with
          | error c0 =>
            rw [hin] at hvis
            exact Except.noConfusion hvis
          | ok seen2 =>
            rw [hin] at hvis
            obtain ⟨rank1, g1, g2, g3, g4⟩ :=
              ihf f (by omega) (successors_of m n) (n :: seen) (stack ++ [n]) rank seen2
                (by
                  intro x hx
                  rcases List.mem_append.mp hx with h | h
                  · exact List.mem_cons_of_mem n (hss x h)
                  · simp at h; subst h; simp)
                (by
                  intro x hx
                  cases List.mem_cons.mp hx with
                  | inl he => subst he; exact hnk0
                  | inr he => exact hsk x he)
                (fun x hx => hwf.2 n x hx)
                (by
                  have := unseen_count_strict m seen n hnk0 hseen
                  omega)
                (by
                  intro u hu hust v hedge
                  cases List.mem_cons.mp hu with
                  | inl he =>
                    exfalso
                    exact hust (by rw [he]; exact List.mem_append.mpr (Or.inr (by simp)))
                  | inr he =>
                    have hust2 : u ∉ stack := fun hc => hust (List.mem_append.mpr (Or.inl hc))
                    obtain ⟨hv1, hv2, hv3⟩ := hrank u he hust2 v hedge
                    refine ⟨List.mem_cons_of_mem n hv1, ?_, hv3⟩
                    intro hc
                    rcases List.mem_append.mp hc with h | h
                    · exact hv2 h
                    · simp at h; subst h; exact hseen hv1)
                hin
            have hseensub : ∀ x ∈ seen, x ∈ seen2 :=
              fun x hx => g1 x (List.mem_cons_of_mem n hx)
            have hnseen2 : n ∈ seen2 := g1 n (by simp)
            have hrank2 : ∀ u ∈ seen2, u ∉ stack → ∀ v, isEdge m u v →
                v ∈ seen2 ∧ v ∉ stack ∧
                (if v = n then ((seen2.map rank1).foldr Nat.max 0) + 1 else rank1 v)
                  < (if u = n then ((seen2.map rank1).foldr Nat.max 0) + 1 else rank1 u) := by
              intro u hu hust v hedge
              by_cases hun : u = n
              · subst hun
                obtain ⟨hv1, hv2⟩ := g3 v hedge
                have hvstk : v ∉ stack := fun hc => hv2 (List.mem_append.mpr (Or.inl hc))
                have hvn : v ≠ u := fun hc => hv2 (List.mem_append.mpr (Or.inr (by simp [hc])))
                refine ⟨hv1, hvstk, ?_⟩
                rw [if_neg hvn, if_pos rfl]
                have := le_foldr_max rank1 seen2 v hv1
                omega
              · have hust2 : u ∉ stack ++ [n] := by
                  intro hc
                  rcases List.mem_append.mp hc with h | h
                  · exact hust h
                  · simp at h; exact hun h
                obtain ⟨hv1, hv2, hv3⟩ := g4 u hu hust2 v hedge
                have hvstk : v ∉ stack := fun hc => hv2 (List.mem_append.mpr (Or.inl hc))
                have hvn : v ≠ n := fun hc => hv2 (List.mem_append.mpr (Or.inr (by simp [hc])))
                refine ⟨hv1, hvstk, ?_⟩
                rw [if_neg hvn, if_neg hun]
                exact hv3
            obtain ⟨rank3, k1, k2, k3, k4⟩ :=
              ihn seen2 stack
                (fun u => if u = n then ((seen2.map rank1).foldr Nat.max 0) + 1 else rank1 u)
                seen1
                (fun x hx => hseensub x (hss x hx))
                g2
                (fun x hx => hnk x (by simp [hx]))
                (le_trans (unseen_count_mono m seen seen2 hseensub) (le_trans hfuel (by omega)))
                hrank2
                hvis
            refine ⟨rank3, fun x hx => k1 x (hseensub x hx), k2, ?_, k4⟩
            intro n0 hn0
            cases List.mem_cons.mp hn0 with
            | inl he => subst he; exact ⟨k1 n0 hnseen2, hnstk⟩
            | inr he => exact k3 n0 he

theorem find_cycle_aux_none_topo (m : Node2Info) (hwf : WfGraph m) :
    ∀ ks seen (rank : String → Nat),
    (∀ x ∈ seen, x ∈ m.map Prod.fst) →
    (∀ x ∈ ks, x ∈ m.map Prod.fst) →
    (∀ u ∈ seen, ∀ v, isEdge m u v → v ∈ seen ∧ rank v < rank u) →
    find_cycle_aux m m.length seen ks = none →
    ∃ (seenF : List String) (rank1 : String → Nat),
      (∀ x ∈ seen, x ∈ seenF) ∧ (∀ x ∈ ks, x ∈ seenF) ∧
      (∀ u ∈ seenF, ∀ v, isEdge m u v → v ∈ seenF ∧ rank1 v < rank1 u) := by
  intro ks
  induction ks with
  | nil =>
    intro seen rank hsk _ hrank _
    exact ⟨seen, rank, fun x h => h, by intro x hx; exact absurd hx (List.not_mem_nil x), hrank⟩
  | cons k rest ih =>
    intro seen rank hsk hkk hrank h
    rw [find_cycle_aux] at h
    by_cases hks : k ∈ seen
    · simp only [hks, if_true] at h
      obtain ⟨seenF, rank1, a1, a2, a3⟩ :=
        ih seen rank hsk (fun x hx => hkk x (by simp [hx])) hrank h
      refine ⟨seenF, rank1, a1, ?_, a3⟩
      intro x hx
      cases List.mem_cons.mp hx with
      | inl he => subst he; exact a1 x hks
      | inr he => exact a2 x he
    · simp only [hks, if_false] at h
      cases hv : visit_all m m.length seen [] [k] with
      | error c =>
        rw [hv] at h
        exact Option.noConfusion h
      | ok seen2 =>
        rw [hv] at h
        obtain ⟨rank1, g1, g2, g3, g4⟩ :=
          visit_all_ok_topo m hwf m.length [k] seen [] rank seen2
            (by intro x hx; exact absurd hx (List.not_mem_nil x))
            hsk
            (by intro x hx
                cases List.mem_cons.mp hx with
                | inl he => subst he; exact hkk x (by simp)
                | inr he => exact absurd he (List.not_mem_nil x))
            (unseen_count_le m seen)
            (by intro u hu _ v hedge
                obtain ⟨a, c⟩ := hrank u hu v hedge
                exact ⟨a, by simp, c⟩)
            hv
        obtain ⟨seenF, rank2, a1, a2, a3⟩ :=
          ih seen2 rank1 g2 (fun x hx => hkk x (by simp [hx]))
            (by intro u hu v he
                obtain ⟨x1, _, x3⟩ := g4 u hu (by simp) v he
                exact ⟨x1, x3⟩)
            h
        refine ⟨seenF, rank2, fun x hx => a1 x (g1 x hx), ?_, a3⟩
        intro x hx
        cases List.mem_cons.mp hx with
        | inl he => subst he; exact a1 x (g3 x (by simp)).1
        | inr he => exact a2 x he

theorem chain_rank_desc (m : Node2Info) (rank1 : String → Nat)
    (hglob : ∀ u v, isEdge m u v → rank1 v < rank1 u) :
    ∀ t a b, chain_edges m (a :: t) = true → (a :: t).getLast? = some b → t ≠ [] →
      rank1 b < rank1 a := by
  intro t
  induction t with
  | nil =>
    intro a b _ _ hne
    exact absurd rfl hne
  | cons x t2 ih =>
    intro a b hchain hlast _
    have hparts : x ∈ successors_of m a ∧ chain_edges m (x :: t2) = true := by
      have := hchain
      simp only [chain_edges, Bool.and_eq_true, decide_eq_true_eq] at this
      exact this
    cases t2 with
    | nil =>
      have hb : b = x := by
        simp [List.getLast?] at hlast
        exact hlast.symm
      subst hb
      exact hglob a b hparts.1
    | cons y t3 =>
      have h2 := ih x b hparts.2 (by rw [← hlast]; exact (List.getLast?_cons_cons ..).symm)
        (by simp)
      exact lt_trans h2 (hglob a x hparts.1)

/-- Completeness of `_find_cycle` on well-formed graphs: when it reports
nothing, the graph has no closed walk at all. -/
theorem find_cycle_none_acyclic (m : Node2Info) (hwf : WfGraph m)
    (h : find_cycle m = none) : ¬ HasCycle m := by
  rintro ⟨c, hlen, hheads, hchain⟩
  obtain ⟨seenF, rank1, _, hkeys, htopo⟩ :=
    find_cycle_aux_none_topo m hwf (m.map Prod.fst) [] (fun _ => 0)
      (by intro x hx; exact absurd hx (List.not_mem_nil x))
      (fun x hx => hx)
      (by intro u hu; exact absurd hu (List.not_mem_nil u))
      h
  have hglob : ∀ u v, isEdge m u v → rank1 v < rank1 u := by
    intro u v he
    exact (htopo u (hkeys u (isEdge_mem_fst m u v he)) v he).2
  cases c with
  | nil => simp at hlen
  | cons a t =>
    have hne : t ≠ [] := by
      cases t with
      | nil => simp at hlen
      | cons y t0 => simp
    have hlast : (a :: t).getLast? = some a := by
      rw [← hheads]
      rfl
    have := chain_rank_desc m rank1 hglob t a a hchain hlast hne
    omega

/-- Completeness packaged: a graph with a closed walk makes `_find_cycle`
report one. -/
theorem find_cycle_complete (m : Node2Info) (hwf : WfGraph m)
    (hcyc : HasCycle m) : ∃ c, find_cycle m = some c := by
  cases hf : find_cycle m with
  | some c => exact ⟨c, rfl⟩
  | none => exact absurd hcyc (find_cycle_none_acyclic m hwf hf)

/-! Association-list lemmas about `aupdate` / `get_nodeinfo`, used both for
graph well-formedness and for the run-phase invariants. -/

theorem aupdate_map_fst {α β : Type} [DecidableEq α]
    (m : List (α × β)) (k : α) (f : β → β) :
    (aupdate m k f).map Prod.fst = m.map Prod.fst := by
  induction m with
  | nil => rfl
  | cons p rest ih =>
    obtain ⟨k0, v⟩ := p
    by_cases hk : k0 = k
    · simp [aupdate, hk]
    · simp [aupdate, hk, ih]

theorem alookup_aupdate_ne {α β : Type} [DecidableEq α]
    (m : List (α × β)) (k k1 : α) (f : β → β) (h : k1 ≠ k) :
    alookup (aupdate m k f) k1 = alookup m k1 := by
  induction m with
  | nil => rfl
  | cons p rest ih =>
    obtain ⟨k0, v⟩ := p
    by_cases hk : k0 = k
    · subst hk
      have hne : k0 ≠ k1 := fun hc => h hc.symm
      simp [aupdate, alookup, hne]
    · by_cases hk1 : k0 = k1
      · subst hk1
        simp [aupdate, alookup, hk]
      · simp [aupdate, alookup, hk, hk1, ih]

theorem aupdate_of_none {α β : Type} [DecidableEq α]
    (m : List (α × β)) (k : α) (f : β → β) (h : alookup m k = none) :
    aupdate m k f = m := by
  induction m with
  | nil => rfl
  | cons p rest ih =>
    obtain ⟨k0, v⟩ := p
    by_cases hk : k0 = k
    · simp [alookup, hk] at h
    · simp only [alookup, hk, if_false] at h
      simp [aupdate, hk, ih h]

theorem alookup_eq_none_of_not_mem {α β : Type} [DecidableEq α]
    (m : List (α × β)) (k : α) (h : k ∉ m.map Prod.fst) :
    alookup m k = none := by
  induction m with
  | nil => rfl
  | cons p rest ih =>
    obtain ⟨k0, v⟩ := p
    simp only [List.map_cons, List.mem_cons, not_or] at h
    have hne : k0 ≠ k := fun hc => h.1 hc.symm
    simp only [alookup, hne, if_false]
    exact ih h.2

theorem mem_fst_of_alookup_ne_none {α β : Type} [DecidableEq α]
    (m : List (α × β)) (k : α) (h : alookup m k ≠ none) :
    k ∈ m.map Prod.fst := by
  cases hl : alookup m k with
  | none => exact absurd hl h
  | some v => exact alookup_some_mem_fst m k v hl

theorem get_nodeinfo_map_fst (m : Node2Info) (node : String) :
    (get_nodeinfo m node).map Prod.fst
      = (match alookup m node with
         | some _ => m.map Prod.fst
         | none => m.map Prod.fst ++ [node]) := by
  unfold get_nodeinfo
  cases alookup m node <;> simp

theorem mem_fst_get_nodeinfo (m : Node2Info) (node : String) :
    node ∈ (get_nodeinfo m node).map Prod.fst := by
  rw [get_nodeinfo_map_fst]
  cases hl : alookup m node with
  | some i => exact alookup_some_mem_fst m node i hl
  | none => simp

theorem mem_fst_get_nodeinfo_of_mem (m : Node2Info) (node x : String)
    (h : x ∈ m.map Prod.fst) : x ∈ (get_nodeinfo m node).map Prod.fst := by
  rw [get_nodeinfo_map_fst]
  cases alookup m node <;> simp [h]

theorem alookup_isSome_of_mem_fst {α β : Type} [DecidableEq α]
    (m : List (α × β)) (k : α) (h : k ∈ m.map Prod.fst) :
    ∃ v, alookup m k = some v := by
  induction m with
  | nil => simp at h
  | cons p rest ih =>
    obtain ⟨k0, v⟩ := p
    by_cases hk : k0 = k
    · exact ⟨v, by simp [alookup, hk]⟩
    · simp only [List.map_cons, List.mem_cons] at h
      cases h with
      | inl he => exact absurd he.symm hk
      | inr he =>
        obtain ⟨w, hw⟩ := ih he
        exact ⟨w, by simp [alookup, hk, hw]⟩

theorem nodup_get_nodeinfo (m : Node2Info) (node : String)
    (h : (m.map Prod.fst).Nodup) : ((get_nodeinfo m node).map Prod.fst).Nodup := by
  rw [get_nodeinfo_map_fst]
  cases hl : alookup m node with
  | some i => exact h
  | none =>
    have hnm : node ∉ m.map Prod.fst := by
      intro hc
      obtain ⟨v, hv⟩ := alookup_isSome_of_mem_fst m node hc
      rw [hl] at hv
      exact Option.noConfusion hv
    simp [List.nodup_append, h, hnm]

theorem alookup_get_nodeinfo_self (m : Node2Info) (node : String) :
    ∃ i, alookup (get_nodeinfo m node) node = some i := by
  unfold get_nodeinfo
  cases hl : alookup m node with
  | some i => exact ⟨i, hl⟩
  | none =>
    refine ⟨{ npredecessors := 0, successors := [] }, ?_⟩
    rw [alookup_append_of_none m _ node hl]
    simp [alookup]

theorem successors_of_aupdate_keep (m : Node2Info) (k u : String) (f : NodeInfo → NodeInfo)
    (hf : ∀ i, (f i).successors = i.successors) :
    successors_of (aupdate m k f) u = successors_of m u := by
  unfold successors_of
  by_cases hu : u = k
  · subst hu
    cases hl : alookup m u with
    | none => rw [aupdate_of_none m u f hl, hl]
    | some i =>
      simp [alookup_aupdate_self m u f i hl, hl, hf i]
  · rw [alookup_aupdate_ne m k u f hu]

theorem successors_of_aupdate_ne (m : Node2Info) (k u : String) (f : NodeInfo → NodeInfo)
    (h : u ≠ k) :
    successors_of (aupdate m k f) u = successors_of m u := by
  unfold successors_of
  rw [alookup_aupdate_ne m k u f h]

theorem successors_of_get_nodeinfo (m : Node2Info) (node u : String) :
    successors_of (get_nodeinfo m node) u = successors_of m u := by
  unfold get_nodeinfo
  cases hl : alookup m node with
  | some _ => rfl
  | none =>
    unfold successors_of
    cases hu : alookup m u with
    | some i => rw [alookup_append_left m _ u i hu]
    | none =>
      rw [alookup_append_of_none m _ u hu]
      by_cases hun : node = u
      · subst hun
        simp [alookup]
      · simp [alookup, hun]

theorem isEdge_succ_append (acc : Node2Info) (p node u v : String)
    (h : isEdge
      (aupdate (get_nodeinfo acc p) p (fun i => { i with successors := i.successors ++ [node] }))
      u v) :
    isEdge acc u v ∨ v = node := by
  unfold isEdge at h
  by_cases hu : u = p
  · subst hu
    obtain ⟨i, hi⟩ := alookup_get_nodeinfo_self acc u
    unfold successors_of at h
    rw [alookup_aupdate_self _ u _ i hi] at h
    simp only at h
    rcases List.mem_append.mp h with h1 | h1
    · left
      show v ∈ successors_of acc u
      rw [← successors_of_get_nodeinfo acc u u]
      show v ∈ successors_of (get_nodeinfo acc u) u
      unfold successors_of
      rw [hi]
      exact h1
    · right
      simpa using h1
  · left
    unfold isEdge
    rw [successors_of_aupdate_ne _ p u _ hu, successors_of_get_nodeinfo acc p u] at h
    exact h

theorem map_fst_succ_append (acc : Node2Info) (p node : String) :
    (aupdate (get_nodeinfo acc p) p
      (fun i => { i with successors := i.successors ++ [node] })).map Prod.fst
    = (get_nodeinfo acc p).map Prod.fst :=
  aupdate_map_fst _ p _

/-- `TopologicalSorter.add` keeps the graph well formed. -/
theorem ts_add_wf (m : Node2Info) (node : String) (preds : List String)
    (h : WfGraph m) : WfGraph (ts_add m node preds) := by
  unfold ts_add
  have hkeys1 : (aupdate (get_nodeinfo m node) node
      (fun i => { i with npredecessors := i.npredecessors + preds.length })).map Prod.fst
      = (get_nodeinfo m node).map Prod.fst := aupdate_map_fst _ node _
  have hm1 : WfGraph (aupdate (get_nodeinfo m node) node
        (fun i => { i with npredecessors := i.npredecessors + preds.length }))
      ∧ node ∈ (aupdate (get_nodeinfo m node) node
        (fun i => { i with npredecessors := i.npredecessors + preds.length })).map Prod.fst := by
    refine ⟨⟨?_, ?_⟩, ?_⟩
    · rw [hkeys1]
      exact nodup_get_nodeinfo m node h.1
    · intro u v he
      unfold isEdge at he
      rw [successors_of_aupdate_keep (get_nodeinfo m node) node u
          (fun i => { i with npredecessors := i.npredecessors + preds.length })
          (fun i => rfl),
        successors_of_get_nodeinfo m node u] at he
      rw [hkeys1]
      exact mem_fst_get_nodeinfo_of_mem m node v (h.2 u v he)
    · rw [hkeys1]
      exact mem_fst_get_nodeinfo m node
  have hstep : ∀ (acc : Node2Info) (p : String),
      (WfGraph acc ∧ node ∈ acc.map Prod.fst) →
      (WfGraph (aupdate (get_nodeinfo acc p) p
        (fun i => { i with successors := i.successors ++ [node] }))
       ∧ node ∈ (aupdate (get_nodeinfo acc p) p
        (fun i => { i with successors := i.successors ++ [node] })).map Prod.fst) := by
    intro acc p ⟨hw, hn⟩
    have hmem : ∀ x, x ∈ acc.map Prod.fst →
        x ∈ (aupdate (get_nodeinfo acc p) p
          (fun i => { i with successors := i.successors ++ [node] })).map Prod.fst := by
      intro x hx
      rw [map_fst_succ_append]
      exact mem_fst_get_nodeinfo_of_mem acc p x hx
    refine ⟨⟨?_, ?_⟩, hmem node hn⟩
    · rw [map_fst_succ_append]
      exact nodup_get_nodeinfo acc p hw.1
    · intro u v he
      rcases isEdge_succ_append acc p node u v he with h1 | h1
      · exact hmem v (hw.2 u v h1)
      · subst h1
        exact hmem v hn
  exact (foldl_preserve _ (fun acc => WfGraph acc ∧ node ∈ acc.map Prod.fst)
    hstep preds _ hm1).1

/-- The graph built while ingesting steps is well formed. -/
theorem build_state_wf (plugins : List Plugin) (op : String) :
    WfGraph (build_state plugins op).graph := by
  unfold build_state
  refine foldl_preserve
    (fun st p => (p.get_operation_steps op).foldl (fun st1 s => ingest_step st1 p s) st)
    (fun st => WfGraph st.graph)
    ?_ plugins { steps := [], warnings := [], graph := [] } ?_
  · intro st p hst
    refine foldl_preserve (fun st1 s => ingest_step st1 p s)
      (fun st1 => WfGraph st1.graph) ?_ (p.get_operation_steps op) st hst
    intro st1 s1 h1
    show WfGraph (ingest_step st1 p s1).graph
    unfold ingest_step
    cases he : alookup st1.steps s1.name with
    | some prev =>
      exact h1
    | none =>
      exact foldl_preserve (fun g r => ts_add g r [s1.name])
        (fun g => WfGraph g)
        (fun g r hg => ts_add_wf g r [s1.name] hg)
        s1.reverse_dependencies _
        (ts_add_wf st1.graph s1.name s1.dependencies h1)
  · constructor
    · simp
    · intro u v he
      unfold isEdge successors_of alookup at he
      simp at he

/-- C4: whenever the built dependency graph for an operation has a cycle,
`get_operation_sequence` itself raises `DependencyCycleException` (it returns
the error, yielding no step), the error carries the operation name, and its
step list is exactly the closed walk found, minus its repeated first node —
hence it contains every node of the cycle, each mapped to its step when one
exists and the raw name when dangling. -/
theorem c4_theorem (plugins : List Plugin) (op : String)
    (hcyc : HasCycle (build_state plugins op).graph) :
    ∃ (e : DependencyCycleException) (cyc : List String),
      get_operation_sequence plugins op = .error e
      ∧ e.op_name = op
      ∧ is_cycle_list (build_state plugins op).graph cyc
      ∧ e.steps = (cyc.drop 1).map (fun n =>
          (match alookup (build_state plugins op).steps n with
           | some s => Sum.inl s
           | none => Sum.inr n))
      ∧ ∀ x ∈ cyc, x ∈ cyc.drop 1 := by
  obtain ⟨cyc, hfc⟩ := find_cycle_complete _ (build_state_wf plugins op) hcyc
  have hsound := find_cycle_sound _ cyc hfc
  refine ⟨DependencyCycleException.mk op ((cyc.drop 1).map (fun n =>
      (match alookup (build_state plugins op).steps n with
       | some s => Sum.inl s
       | none => Sum.inr n))), cyc, ?_, rfl, hsound, rfl, ?_⟩
  · unfold get_operation_sequence
    have hp : ts_prepare (build_state plugins op).graph = .error cyc := by
      unfold ts_prepare
      rw [hfc]
    rw [hp]
  · obtain ⟨hlen, hheads, _⟩ := hsound
    cases cyc with
    | nil => simp at hlen
    | cons a t =>
      intro x hx
      have ht : t ≠ [] := by
        cases t with
        | nil => simp at hlen
        | cons y t2 => simp
      have hlast : (a :: t).getLast? = some a := by
        rw [← hheads]
        rfl
      have hgl : t.getLast? = some a := by
        cases t with
        | nil => exact absurd rfl ht
        | cons y t2 =>
          rw [← List.getLast?_cons_cons (a := a)]
          exact hlast
      have hat : a ∈ t := by
        obtain ⟨h9, heq⟩ := List.mem_getLast?_eq_getLast (l := t) (x := a)
          (by rw [Option.mem_def]; exact hgl)
        exact heq ▸ List.getLast_mem h9
      simp only [List.drop_succ_cons, List.drop_zero]
      cases List.mem_cons.mp hx with
      | inl he => subst he; exact hat
      | inr he => exact he

/-- C4 witness: the chicken-and-egg cycle from the repository's own test
suite raises at call time with both steps named. -/
theorem c4_witness : ∃ (e : DependencyCycleException) (cyc : List String),
    get_operation_sequence [ex_plugin_S_dangling] "o" = .error e
    ∧ e.op_name = "o"
    ∧ is_cycle_list (build_state [ex_plugin_S_dangling] "o").graph cyc
    ∧ e.steps = (cyc.drop 1).map (fun n =>
        (match alookup (build_state [ex_plugin_S_dangling] "o").steps n with
         | some s => Sum.inl s
         | none => Sum.inr n))
    ∧ ∀ x ∈ cyc, x ∈ cyc.drop 1 :=
  c4_theorem [ex_plugin_S_dangling] "o"
    ⟨["S", "d", "S"], by decide, by decide, by
      simp +decide [chain_edges, successors_of, alookup, build_state, ingest_step, ts_add,
        get_nodeinfo, aupdate, ex_plugin_S_dangling, ex_step_S_dangling]⟩

/-! Accounting lemmas: how the per-entry sums `mention_sum` and `live_count`
move under a single `aupdate`. -/

theorem entry_sum_aupdate (g : NodeInfo → Nat) (m : Node2Info) (k : String)
    (f : NodeInfo → NodeInfo) (i : NodeInfo) (hl : alookup m k = some i) :
    ((aupdate m k f).map (fun p => g p.2)).sum + g i
      = (m.map (fun p => g p.2)).sum + g (f i) := by
  induction m with
  | nil => simp [alookup] at hl
  | cons p rest ih =>
    obtain ⟨k0, w⟩ := p
    by_cases hk : k0 = k
    · subst hk
      simp only [alookup, if_pos rfl] at hl
      cases hl
      simp only [aupdate, eq_self_iff_true, if_true, ite_true, List.map_cons, List.sum_cons]
      omega
    · simp only [alookup, hk, if_false] at hl
      have := ih hl
      simp only [aupdate, hk, if_false, List.map_cons, List.sum_cons]
      omega

theorem mention_sum_aupdate (m : Node2Info) (k : String) (f : NodeInfo → NodeInfo)
    (i : NodeInfo) (v : String) (hl : alookup m k = some i) :
    mention_sum (aupdate m k f) v
      + (if -1 ≤ i.npredecessors then i.successors.count v else 0)
    = mention_sum m v
      + (if -1 ≤ (f i).npredecessors then (f i).successors.count v else 0) :=
  entry_sum_aupdate (fun inf => if -1 ≤ inf.npredecessors then inf.successors.count v else 0)
    m k f i hl

theorem mention_sum_aupdate_keep (m : Node2Info) (k : String) (f : NodeInfo → NodeInfo)
    (i : NodeInfo) (v : String) (hl : alookup m k = some i)
    (hsucc : (f i).successors = i.successors)
    (hind : (-1 ≤ i.npredecessors) ↔ (-1 ≤ (f i).npredecessors)) :
    mention_sum (aupdate m k f) v = mention_sum m v := by
  have h := mention_sum_aupdate m k f i v hl
  by_cases hi : -1 ≤ i.npredecessors
  · rw [if_pos hi, if_pos (hind.mp hi), hsucc] at h
    omega
  · rw [if_neg hi, if_neg (fun hc => hi (hind.mpr hc))] at h
    omega

theorem live_count_aupdate (m : Node2Info) (k : String) (f : NodeInfo → NodeInfo)
    (i : NodeInfo) (hl : alookup m k = some i) :
    live_count (aupdate m k f) + (if 0 ≤ i.npredecessors then 1 else 0)
      = live_count m + (if 0 ≤ (f i).npredecessors then 1 else 0) :=
  entry_sum_aupdate (fun inf => if 0 ≤ inf.npredecessors then 1 else 0) m k f i hl

theorem alookup_mem {α β : Type} [DecidableEq α] (m : List (α × β)) (k : α) (v : β)
    (h : alookup m k = some v) : (k, v) ∈ m := by
  induction m with
  | nil => simp [alookup] at h
  | cons p rest ih =>
    obtain ⟨k0, w⟩ := p
    by_cases hk : k0 = k
    · simp only [alookup, hk, if_true] at h
      cases h
      subst hk
      simp
    · simp only [alookup, hk, if_false] at h
      exact List.mem_cons_of_mem _ (ih h)

theorem alookup_of_mem_nodup {α β : Type} [DecidableEq α] (m : List (α × β))
    (hnd : (m.map Prod.fst).Nodup) (k : α) (v : β) (h : (k, v) ∈ m) :
    alookup m k = some v := by
  induction m with
  | nil => simp at h
  | cons p rest ih =>
    obtain ⟨k0, w⟩ := p
    simp only [List.map_cons, List.nodup_cons] at hnd
    cases List.mem_cons.mp h with
    | inl he =>
      cases he
      simp [alookup]
    | inr he =>
      by_cases hk : k0 = k
      · subst hk
        exfalso
        exact hnd.1 (by simpa using List.mem_map_of_mem Prod.fst he)
      · simp only [alookup, hk, if_false]
        exact ih hnd.2 he

theorem term_le_mention_sum (m : Node2Info) (u : String) (j : NodeInfo) (v : String)
    (hmem : (u, j) ∈ m) :
    (if -1 ≤ j.npredecessors then j.successors.count v else 0) ≤ mention_sum m v := by
  unfold mention_sum
  exact List.single_le_sum (by intro x _; exact Nat.zero_le x) _
    (List.mem_map_of_mem (fun p => if -1 ≤ p.2.npredecessors then p.2.successors.count v else 0)
      hmem)

theorem isEdge_congr (m1 m2 : Node2Info)
    (h : ∀ u, successors_of m1 u = successors_of m2 u) (u v : String) :
    isEdge m1 u v ↔ isEdge m2 u v := by
  unfold isEdge
  rw [h u]

/-- The inner decrement loop of `done`: processing a pending mention list `l`
restores the count invariant and only ever moves live nodes, possibly
appending fresh zero-count nodes to the ready list. -/
theorem dec_fold (l : List String) : ∀ (ts : TS),
    (ts.node2info.map Prod.fst).Nodup →
    (∀ x ∈ l, x ∈ ts.node2info.map Prod.fst) →
    (∀ x ∈ l, ∀ i, alookup ts.node2info x = some i → 0 ≤ i.npredecessors) →
    (∀ v i, alookup ts.node2info v = some i → 0 ≤ i.npredecessors →
      i.npredecessors = (mention_sum ts.node2info v : Int) + (l.count v : Int)) →
    (∀ v i, alookup ts.node2info v = some i →
      i.npredecessors = -2 ∨ i.npredecessors = -1 ∨ 0 ≤ i.npredecessors) →
    (∀ v i, alookup ts.node2info v = some i → i.npredecessors < 0 →
      ∀ u j, alookup ts.node2info u = some j → v ∈ j.successors → j.npredecessors = -2) →
    (∀ n ∈ ts.ready, ∃ i, alookup ts.node2info n = some i ∧ i.npredecessors = 0) →
    ts.ready.Nodup →
    (∀ v i, alookup ts.node2info v = some i → i.npredecessors = 0 → v ∈ ts.ready) →
    DecFoldOut ts (l.foldl dec_successor ts) := by
  induction l with
  | nil =>
    intro ts hnd hlm hlneg hcnt hvals hpd hrz hrnd hr0
    refine ⟨rfl, fun u => rfl, rfl, rfl, ⟨[], by simp⟩, hrz, hrnd, ?_, hvals, hpd, hr0,
      fun v i h _ => h, fun v i h _ => h, rfl⟩
    intro v i hv hpos
    have := hcnt v i hv hpos
    simpa using this
  | cons x rest ih =>
    intro ts hnd hlm hlneg hcnt hvals hpd hrz hrnd hr0
    obtain ⟨i, hi⟩ := alookup_isSome_of_mem_fst ts.node2info x (hlm x (by simp))
    have hipos : 0 ≤ i.npredecessors := hlneg x (by simp) i hi
    have hcnti := hcnt x i hi hipos
    have hi1 : (1 : Int) ≤ i.npredecessors := by
      have hc : 1 ≤ ((x :: rest).count x : Int) := by
        have := List.count_cons_self x rest
        simp [this]
      omega
    have hstep : List.foldl dec_successor ts (x :: rest)
        = List.foldl dec_successor (dec_successor ts x) rest := rfl
    set i1 : NodeInfo := { i with npredecessors := i.npredecessors - 1 } with hi1def
    have hdec : dec_successor ts x =
        (if i.npredecessors - 1 = 0 then
          { ts with
            node2info := aupdate ts.node2info x
              (fun j => { j with npredecessors := j.npredecessors - 1 }),
            ready := ts.ready ++ [x] }
         else
          { ts with
            node2info := aupdate ts.node2info x
              (fun j => { j with npredecessors := j.npredecessors - 1 }) }) := by
      unfold dec_successor
      rw [hi]
    -- facts about the state after one decrement, independent of the branch
    set m1 := aupdate ts.node2info x
      (fun j => { j with npredecessors := j.npredecessors - 1 }) with hm1
    have hm1x : alookup m1 x = some i1 :=
      alookup_aupdate_self ts.node2info x _ i hi
    have hm1ne : ∀ v, v ≠ x → alookup m1 v = alookup ts.node2info v :=
      fun v hv => alookup_aupdate_ne ts.node2info x v _ hv
    have hkeys1 : m1.map Prod.fst = ts.node2info.map Prod.fst := aupdate_map_fst _ x _
    have hsucc1 : ∀ u, successors_of m1 u = successors_of ts.node2info u :=
      fun u => successors_of_aupdate_keep ts.node2info x u _ (fun j => rfl)
    have hms1 : ∀ v, mention_sum m1 v = mention_sum ts.node2info v := by
      intro v
      refine mention_sum_aupdate_keep ts.node2info x _ i v hi rfl ?_
      constructor
      · intro _
        show (-1 : Int) ≤ i.npredecessors - 1
        omega
      · intro _
        omega
    have hlc1 : live_count m1 = live_count ts.node2info := by
      have h2 := live_count_aupdate ts.node2info x
        (fun j => { j with npredecessors := j.npredecessors - 1 }) i hi
      have hfi : ((fun j : NodeInfo => { j with npredecessors := j.npredecessors - 1 }) i).npredecessors
          = i.npredecessors - 1 := rfl
      rw [hfi] at h2
      rw [if_pos hipos, if_pos (by omega : (0:Int) ≤ i.npredecessors - 1)] at h2
      rw [hm1]
      omega
    have hready1 : ((dec_successor ts x).ready = ts.ready ∧ ¬ i.npredecessors - 1 = 0)
        ∨ ((dec_successor ts x).ready = ts.ready ++ [x] ∧ i.npredecessors - 1 = 0) := by
      rw [hdec]
      by_cases hz : i.npredecessors - 1 = 0
      · right
        rw [if_pos hz]
        exact ⟨rfl, hz⟩
      · left
        rw [if_neg hz]
        exact ⟨rfl, hz⟩
    have hnode1 : (dec_successor ts x).node2info = m1 := by
      rw [hdec]
      by_cases hz : i.npredecessors - 1 = 0
      · rw [if_pos hz]
      · rw [if_neg hz]
    have hcnts1 : ∀ n ∈ (dec_successor ts x).ready,
        ∃ j, alookup m1 n = some j ∧ j.npredecessors = 0 := by
      intro n hn
      rcases hready1 with ⟨hr, _⟩ | ⟨hr, hz⟩ <;> rw [hr] at hn
      · obtain ⟨j, hj, hj0⟩ := hrz n hn
        have hnx : n ≠ x := by
          intro hc
          subst hc
          rw [hi] at hj
          cases hj
          omega
        exact ⟨j, (hm1ne n hnx).symm ▸ hj, hj0⟩
      · rcases List.mem_append.mp hn with hn1 | hn1
        · obtain ⟨j, hj, hj0⟩ := hrz n hn1
          have hnx : n ≠ x := by
            intro hc
            subst hc
            rw [hi] at hj
            cases hj
            omega
          exact ⟨j, (hm1ne n hnx).symm ▸ hj, hj0⟩
        · simp at hn1
          subst hn1
          exact ⟨i1, hm1x, by simp [hi1def, hz]⟩
    have hxready : x ∉ ts.ready := by
      intro hc
      obtain ⟨j, hj, hj0⟩ := hrz x hc
      rw [hi] at hj
      cases hj
      omega
    have hrnd1 : (dec_successor ts x).ready.Nodup := by
      rcases hready1 with ⟨hr, _⟩ | ⟨hr, _⟩ <;> rw [hr]
      · exact hrnd
      · simp [List.nodup_append, hrnd, hxready]
    have hrext1 : ∃ new, (dec_successor ts x).ready = ts.ready ++ new := by
      rcases hready1 with ⟨hr, _⟩ | ⟨hr, _⟩
      · exact ⟨[], by simp [hr]⟩
      · exact ⟨[x], hr⟩
    have hout := ih (dec_successor ts x)
      (by rw [hnode1, hkeys1]; exact hnd)
      (by intro y hy; rw [hnode1, hkeys1]; exact hlm y (by simp [hy]))
      (by
        intro y hy j hj
        rw [hnode1] at hj
        by_cases hyx : y = x
        · subst hyx
          rw [hm1x] at hj
          cases hj
          simp [hi1def]
          omega
        · rw [hm1ne y hyx] at hj
          exact hlneg y (by simp [hy]) j hj)
      (by
        intro v j hj hjpos
        rw [hnode1] at hj ⊢
        rw [hms1 v]
        by_cases hvx : v = x
        · subst hvx
          rw [hm1x] at hj
          cases hj
          have hcc := List.count_cons_self v rest
          simp [hi1def] at hjpos ⊢
          have : (List.count v (v :: rest) : Int) = (List.count v rest : Int) + 1 := by
            rw [hcc]
            push_cast
            ring
          omega
        · rw [hm1ne v hvx] at hj
          have h3 := hcnt v j hj hjpos
          have hcc : List.count v (x :: rest) = List.count v rest := by
            simp [List.count_cons, hvx]
          rw [hcc] at h3
          omega)
      (by
        intro v j hj
        rw [hnode1] at hj
        by_cases hvx : v = x
        · subst hvx
          rw [hm1x] at hj
          cases hj
          right; right
          simp [hi1def]
          omega
        · rw [hm1ne v hvx] at hj
          exact hvals v j hj)
      (by
        intro v j hj hneg u j2 hj2 hmem
        rw [hnode1] at hj hj2
        have hvx : v ≠ x := by
          intro hc
          subst hc
          rw [hm1x] at hj
          cases hj
          simp [hi1def] at hneg
          omega
        rw [hm1ne v hvx] at hj
        by_cases hux : u = x
        · subst hux
          rw [hm1x] at hj2
          cases hj2
          exfalso
          have : v ∈ i.successors := by simpa [hi1def] using hmem
          have := hpd v _ hj hneg u i hi this
          omega
        · rw [hm1ne u hux] at hj2
          exact hpd v _ hj hneg u j2 hj2 hmem)
      (by rw [hnode1]; exact hcnts1)
      hrnd1
      (by
        intro v j hj hj0
        rw [hnode1] at hj
        by_cases hvx : v = x
        · subst hvx
          rw [hm1x] at hj
          cases hj
          have hz : i.npredecessors - 1 = 0 := by simpa [hi1def] using hj0
          rcases hready1 with ⟨hr, hnz⟩ | ⟨hr, _⟩
          · exact absurd hz hnz
          · rw [hr]
            simp
        · rw [hm1ne v hvx] at hj
          have := hr0 v j hj hj0
          obtain ⟨new, hnew⟩ := hrext1
          rw [hnew]
          exact List.mem_append.mpr (Or.inl this))
    rw [hstep]
    refine ⟨?_, ?_, ?_, ?_, ?_, hout.ready_zero, hout.ready_nodup, hout.cnt, hout.vals,
      hout.pd, hout.r0, ?_, ?_, ?_⟩
    · rw [hout.keys_eq, hnode1, hkeys1]
    · intro u
      rw [hout.succ_eq u, hnode1, hsucc1 u]
    · rw [hout.pass_eq, hdec]
      by_cases hz : i.npredecessors - 1 = 0
      · rw [if_pos hz]
      · rw [if_neg hz]
    · rw [hout.nfin_eq, hdec]
      by_cases hz : i.npredecessors - 1 = 0
      · rw [if_pos hz]
      · rw [if_neg hz]
    · obtain ⟨new1, h1⟩ := hrext1
      obtain ⟨new2, h2⟩ := hout.ready_ext
      exact ⟨new1 ++ new2, by rw [h2, h1, List.append_assoc]⟩
    · intro v j hj hneg
      have hvx : v ≠ x := by
        intro hc
        subst hc
        rw [hi] at hj
        cases hj
        omega
      refine hout.neg_pres v j ?_ hneg
      rw [hnode1, hm1ne v hvx]
      exact hj
    · intro v j hj hneg
      have h1 := hout.neg_back v j hj hneg
      rw [hnode1] at h1
      have hvx : v ≠ x := by
        intro hc
        subst hc
        rw [hm1x] at h1
        cases h1
        simp [hi1def] at hneg
        omega
      rw [hm1ne v hvx] at h1
      exact h1
    · rw [hout.live_eq, hnode1, hlc1]

/-- A node whose live mention count is zero is mentioned only by done nodes. -/
theorem mention_zero_preds (m : Node2Info) (a : String)
    (h0 : mention_sum m a = 0) :
    ∀ u j, alookup m u = some j → a ∈ j.successors → j.npredecessors < -1 := by
  intro u j hj hmem
  by_contra hge
  push_neg at hge
  have hle := term_le_mention_sum m u j a (alookup_mem m u j hj)
  rw [if_pos hge, h0] at hle
  have := List.count_eq_zero.mp (Nat.le_zero.mp hle)
  exact this hmem

/-- At the loop boundary every node mentioning a ready node is already done. -/
theorem boundary_preds_done (ts : TS) (hinv : TsInv ts) (a : String)
    (ha : a ∈ ts.ready) :
    ∀ u j, alookup ts.node2info u = some j → a ∈ j.successors →
      j.npredecessors = -2 := by
  obtain ⟨i, hi, hi0⟩ := hinv.ready_zero a ha
  have hms : mention_sum ts.node2info a = 0 := by
    have := hinv.cnt a i hi (by omega)
    omega
  intro u j hj hmem
  have hlt := mention_zero_preds ts.node2info a hms u j hj hmem
  rcases hinv.vals u j hj with h | h | h <;> omega

/-- One `done_one` step under the mid-iteration invariant: the head of the
pending group becomes done, the invariant survives with the tail, and the
bookkeeping facts needed to chain steps hold. -/
theorem done_one_step (ts : TS) (n : String) (r : List String)
    (hmid : MidInv ts (n :: r)) :
    MidInv (done_one ts n) r
    ∧ (done_one ts n).node2info.map Prod.fst = ts.node2info.map Prod.fst
    ∧ (∀ u, successors_of (done_one ts n).node2info u = successors_of ts.node2info u)
    ∧ (done_one ts n).npassedout = ts.npassedout
    ∧ (done_one ts n).nfinished = ts.nfinished + 1
    ∧ live_count (done_one ts n).node2info = live_count ts.node2info
    ∧ (∀ v j, alookup ts.node2info v = some j → j.npredecessors = -2 →
        alookup (done_one ts n).node2info v = some j)
    ∧ (∃ j, alookup (done_one ts n).node2info n = some j ∧ j.npredecessors = -2)
    ∧ (∀ v j, alookup (done_one ts n).node2info v = some j → j.npredecessors = -2 →
        v = n ∨ alookup ts.node2info v = some j)
    ∧ (∃ new, (done_one ts n).ready = ts.ready ++ new) := by
  obtain ⟨i, hi⟩ := alookup_isSome_of_mem_fst ts.node2info n (hmid.r_mem n (by simp))
  have hiout : i.npredecessors = -1 := (hmid.out_iff n i hi).mpr (by simp)
  set ts1 : TS := { ts with
    node2info := aupdate ts.node2info n (fun j => { j with npredecessors := -2 }) } with hts1
  have hdo : done_one ts n =
      { i.successors.foldl dec_successor ts1 with
        nfinished := (i.successors.foldl dec_successor ts1).nfinished + 1 } := by
    unfold done_one
    rw [hi]
  set i2 : NodeInfo := { i with npredecessors := -2 } with hi2
  have hm1n : alookup ts1.node2info n = some i2 :=
    alookup_aupdate_self ts.node2info n _ i hi
  have hm1ne : ∀ v, v ≠ n → alookup ts1.node2info v = alookup ts.node2info v :=
    fun v hv => alookup_aupdate_ne ts.node2info n v _ hv
  have hkeys1 : ts1.node2info.map Prod.fst = ts.node2info.map Prod.fst :=
    aupdate_map_fst _ n _
  have hsucc1 : ∀ u, successors_of ts1.node2info u = successors_of ts.node2info u :=
    fun u => successors_of_aupdate_keep ts.node2info n u _ (fun j => rfl)
  have hsuccn : successors_of ts.node2info n = i.successors := by
    unfold successors_of
    rw [hi]
  have hms1 : ∀ v, mention_sum ts1.node2info v + i.successors.count v
      = mention_sum ts.node2info v := by
    intro v
    show mention_sum (aupdate ts.node2info n (fun j => { j with npredecessors := -2 })) v
        + i.successors.count v = mention_sum ts.node2info v
    have h := mention_sum_aupdate ts.node2info n
      (fun j => { j with npredecessors := -2 }) i v hi
    rw [if_pos (by omega : (-1 : Int) ≤ i.npredecessors)] at h
    norm_num at h
    omega
  have hlc1 : live_count ts1.node2info = live_count ts.node2info := by
    show live_count (aupdate ts.node2info n (fun j => { j with npredecessors := -2 }))
        = live_count ts.node2info
    have h := live_count_aupdate ts.node2info n
      (fun j => { j with npredecessors := -2 }) i hi
    rw [if_neg (by omega : ¬ (0 : Int) ≤ i.npredecessors)] at h
    norm_num at h
    omega
  -- decrement targets are never the done node itself
  have hsucc_live : ∀ x ∈ i.successors, ∀ j, alookup ts.node2info x = some j →
      0 ≤ j.npredecessors := by
    intro x hx j hj
    by_contra hlt
    push_neg at hlt
    have := hmid.pd x j hj hlt n i hi hx
    omega
  have hsucc_ne : ∀ x ∈ i.successors, x ≠ n := by
    intro x hx hc
    subst hc
    have := hsucc_live x hx i hi
    omega
  have hout := dec_fold i.successors ts1
    (by rw [hkeys1]; exact hmid.nodup_keys)
    (by
      intro x hx
      rw [hkeys1]
      exact hmid.edges_closed n x (by rw [isEdge, hsuccn]; exact hx))
    (by
      intro x hx j hj
      rw [hm1ne x (hsucc_ne x hx)] at hj
      exact hsucc_live x hx j hj)
    (by
      intro v j hj hjpos
      have hvn : v ≠ n := by
        intro hc
        subst hc
        rw [hm1n] at hj
        cases hj
        simp [hi2] at hjpos
      rw [hm1ne v hvn] at hj
      have h1 := hmid.cnt v j hj hjpos
      have h2 := hms1 v
      have h3 : mention_sum ts1.node2info v
          = mention_sum (aupdate ts.node2info n (fun j => { j with npredecessors := -2 })) v := rfl
      push_cast
      omega)
    (by
      intro v j hj
      by_cases hvn : v = n
      · subst hvn
        rw [hm1n] at hj
        cases hj
        left
        rfl
      · rw [hm1ne v hvn] at hj
        exact hmid.vals v j hj)
    (by
      intro v j hj hneg u j2 hj2 hmem
      by_cases hun : u = n
      · subst hun
        rw [hm1n] at hj2
        cases hj2
        rfl
      · rw [hm1ne u hun] at hj2
        by_cases hvn : v = n
        · subst hvn
          exact hmid.pd v i hi (by omega) u j2 hj2 hmem
        · rw [hm1ne v hvn] at hj
          exact hmid.pd v j hj hneg u j2 hj2 hmem)
    (by
      intro v hv
      obtain ⟨j, hj, hj0⟩ := hmid.ready_zero v hv
      have hvn : v ≠ n := by
        intro hc
        subst hc
        rw [hi] at hj
        cases hj
        omega
      exact ⟨j, by rw [hm1ne v hvn]; exact hj, hj0⟩)
    hmid.ready_nodup
    (by
      intro v j hj hj0
      have hvn : v ≠ n := by
        intro hc
        subst hc
        rw [hm1n] at hj
        cases hj
        simp [hi2] at hj0
      rw [hm1ne v hvn] at hj
      exact hmid.r0 v j hj hj0)
  set ts2 := i.successors.foldl dec_successor ts1 with hts2
  have hnode : (done_one ts n).node2info = ts2.node2info := by rw [hdo]
  have hready : (done_one ts n).ready = ts2.ready := by rw [hdo]
  have hkeys : ts2.node2info.map Prod.fst = ts.node2info.map Prod.fst := by
    rw [hout.keys_eq, hkeys1]
  have hsucc : ∀ u, successors_of ts2.node2info u = successors_of ts.node2info u := by
    intro u
    rw [hout.succ_eq u, hsucc1 u]
  have hndone : alookup ts2.node2info n = some i2 :=
    hout.neg_pres n i2 hm1n (by simp [hi2])
  refine ⟨?_, ?_, ?_, ?_, ?_, ?_, ?_, ?_, ?_, ?_⟩
  · refine ⟨?_, ?_, ?_, ?_, ?_, ?_, ?_, ?_, ?_, ?_, ?_⟩
    · rw [hnode, hkeys]
      exact hmid.nodup_keys
    · intro u v he
      rw [hnode] at he ⊢
      rw [hkeys]
      exact hmid.edges_closed u v ((isEdge_congr _ _ hsucc u v).mp he)
    · rw [hready]
      exact hout.ready_nodup
    · rw [hready, hnode]
      exact hout.ready_zero
    · rw [hnode]
      exact hout.vals
    · rw [hnode]
      exact hout.cnt
    · rw [hnode]
      exact hout.pd
    · rw [hnode, hready]
      exact hout.r0
    · rw [hnode]
      intro v j hj
      constructor
      · intro hj1
        have hm1 := hout.neg_back v j hj (by omega)
        have hvn : v ≠ n := by
          intro hc
          subst hc
          rw [hm1n] at hm1
          cases hm1
          simp [hi2] at hj1
        rw [hm1ne v hvn] at hm1
        have := (hmid.out_iff v j hm1).mp hj1
        cases List.mem_cons.mp this with
        | inl h => exact absurd h hvn
        | inr h => exact h
      · intro hvr
        have hvn : v ≠ n := by
          intro hc
          subst hc
          have := hmid.r_nodup
          rw [List.nodup_cons] at this
          exact this.1 hvr
        obtain ⟨j0, hj0⟩ := alookup_isSome_of_mem_fst ts.node2info v
          (hmid.r_mem v (List.mem_cons_of_mem n hvr))
        have hj01 : j0.npredecessors = -1 :=
          (hmid.out_iff v j0 hj0).mpr (List.mem_cons_of_mem n hvr)
        have hm1 : alookup ts1.node2info v = some j0 := by
          rw [hm1ne v hvn]
          exact hj0
        have h2 := hout.neg_pres v j0 hm1 (by omega)
        rw [hj] at h2
        cases h2
        exact hj01
    · have := hmid.r_nodup
      rw [List.nodup_cons] at this
      exact this.2
    · intro x hx
      rw [hnode, hkeys]
      exact hmid.r_mem x (List.mem_cons_of_mem n hx)
  · rw [hnode, hkeys]
  · intro u
    rw [hnode, hsucc u]
  · rw [hdo, hout.pass_eq]
  · rw [hdo, hout.nfin_eq]
  · rw [hnode, hout.live_eq, hlc1]
  · intro v j hj hj2
    have hvn : v ≠ n := by
      intro hc
      subst hc
      rw [hi] at hj
      cases hj
      omega
    rw [hnode]
    refine hout.neg_pres v j ?_ (by omega)
    rw [hm1ne v hvn]
    exact hj
  · exact ⟨i2, by rw [hnode]; exact hndone, by simp [hi2]⟩
  · intro v j hj hj2
    rw [hnode] at hj
    have hm1 := hout.neg_back v j hj (by omega)
    by_cases hvn : v = n
    · exact Or.inl hvn
    · right
      rw [hm1ne v hvn] at hm1
      exact hm1
  · rw [hready]
    exact hout.ready_ext

/-- `done(*group)`: folding `done_one` over the whole pending group empties
it, preserving the invariant and making exactly the group's nodes done. -/
theorem done_fold (r : List String) : ∀ (ts : TS), MidInv ts r →
    MidInv (ts_done ts r) []
    ∧ (ts_done ts r).node2info.map Prod.fst = ts.node2info.map Prod.fst
    ∧ (∀ u, successors_of (ts_done ts r).node2info u = successors_of ts.node2info u)
    ∧ (ts_done ts r).npassedout = ts.npassedout
    ∧ (ts_done ts r).nfinished = ts.nfinished + r.length
    ∧ live_count (ts_done ts r).node2info = live_count ts.node2info
    ∧ (∀ v j, alookup ts.node2info v = some j → j.npredecessors = -2 →
        alookup (ts_done ts r).node2info v = some j)
    ∧ (∀ v ∈ r, ∃ j, alookup (ts_done ts r).node2info v = some j ∧ j.npredecessors = -2)
    ∧ (∀ v j, alookup (ts_done ts r).node2info v = some j → j.npredecessors = -2 →
        v ∈ r ∨ alookup ts.node2info v = some j)
    ∧ (∃ new, (ts_done ts r).ready = ts.ready ++ new) := by
  induction r with
  | nil =>
    intro ts hmid
    refine ⟨hmid, rfl, fun u => rfl, rfl, rfl, rfl, fun v j h _ => h, by simp, ?_, ⟨[], by simp [ts_done]⟩⟩
    intro v j h h2
    exact Or.inr h
  | cons n rest ih =>
    intro ts hmid
    obtain ⟨hmid1, hkeys1, hsucc1, hpass1, hfin1, hlive1, hpres1, hnd1, hback1, hready1⟩ :=
      done_one_step ts n rest hmid
    obtain ⟨hmid2, hkeys2, hsucc2, hpass2, hfin2, hlive2, hpres2, hall2, hback2, hready2⟩ :=
      ih (done_one ts n) hmid1
    have hstep : ts_done ts (n :: rest) = ts_done (done_one ts n) rest := rfl
    rw [hstep]
    refine ⟨hmid2, by rw [hkeys2, hkeys1], ?_, by rw [hpass2, hpass1],
      by rw [hfin2, hfin1]; simp; omega, by rw [hlive2, hlive1], ?_, ?_, ?_, ?_⟩
    · intro u
      rw [hsucc2 u, hsucc1 u]
    · intro v j hj hj2
      exact hpres2 v j (hpres1 v j hj hj2) hj2
    · intro v hv
      cases List.mem_cons.mp hv with
      | inl he =>
        subst he
        obtain ⟨j, hj, hj2⟩ := hnd1
        exact ⟨j, hpres2 v j hj hj2, hj2⟩
      | inr he => exact hall2 v he
    · intro v j hj hj2
      cases hback2 v j hj hj2 with
      | inl h => exact Or.inl (List.mem_cons_of_mem n h)
      | inr h =>
        cases hback1 v j h hj2 with
        | inl h2 => exact Or.inl (by rw [h2]; simp)
        | inr h2 => exact Or.inr h2
    · obtain ⟨n1, h1⟩ := hready1
      obtain ⟨n2, h2⟩ := hready2
      exact ⟨n1 ++ n2, by rw [h2, h1, List.append_assoc]⟩

/-- The marking fold of `get_ready`: every handed-out node's predecessor
count moves from `0` to `_NODE_OUT = -1`; keys, successor lists and live
mention counts are untouched and the live-entry count drops by the group
size. -/
theorem mark_fold (G : List String) : ∀ (m : Node2Info),
    (m.map Prod.fst).Nodup →
    G.Nodup →
    (∀ n ∈ G, ∃ i, alookup m n = some i ∧ i.npredecessors = 0) →
    (G.foldl (fun acc n => aupdate acc n (fun i => { i with npredecessors := -1 })) m).map
        Prod.fst = m.map Prod.fst
    ∧ (∀ u, successors_of
        (G.foldl (fun acc n => aupdate acc n (fun i => { i with npredecessors := -1 })) m) u
        = successors_of m u)
    ∧ (∀ v, v ∉ G → alookup
        (G.foldl (fun acc n => aupdate acc n (fun i => { i with npredecessors := -1 })) m) v
        = alookup m v)
    ∧ (∀ v ∈ G, ∃ i, alookup m v = some i ∧ alookup
        (G.foldl (fun acc n => aupdate acc n (fun i => { i with npredecessors := -1 })) m) v
        = some { i with npredecessors := -1 })
    ∧ (∀ v, mention_sum
        (G.foldl (fun acc n => aupdate acc n (fun i => { i with npredecessors := -1 })) m) v
        = mention_sum m v)
    ∧ live_count
        (G.foldl (fun acc n => aupdate acc n (fun i => { i with npredecessors := -1 })) m)
        + G.length = live_count m := by
  induction G with
  | nil =>
    intro m hnd _ _
    exact ⟨rfl, fun u => rfl, fun v _ => rfl, by simp, fun v => rfl, by simp⟩
  | cons n rest ih =>
    intro m hnd hgnd hz
    obtain ⟨i, hi, hi0⟩ := hz n (by simp)
    rw [List.nodup_cons] at hgnd
    have hstep : (n :: rest).foldl
        (fun acc x => aupdate acc x (fun j => { j with npredecessors := -1 })) m
        = rest.foldl (fun acc x => aupdate acc x (fun j => { j with npredecessors := -1 }))
          (aupdate m n (fun j => { j with npredecessors := -1 })) := rfl
    have hm1n : alookup (aupdate m n (fun j => { j with npredecessors := -1 })) n
        = some { i with npredecessors := -1 } :=
      alookup_aupdate_self m n _ i hi
    have hm1ne : ∀ v, v ≠ n →
        alookup (aupdate m n (fun j => { j with npredecessors := -1 })) v = alookup m v :=
      fun v hv => alookup_aupdate_ne m n v _ hv
    obtain ⟨hkeys, hsucc, hnmem, hmem, hms, hlc⟩ :=
      ih (aupdate m n (fun j => { j with npredecessors := -1 }))
        (by rw [aupdate_map_fst]; exact hnd)
        hgnd.2
        (by
          intro x hx
          obtain ⟨jx, hjx, hjx0⟩ := hz x (by simp [hx])
          have hxn : x ≠ n := fun hc => hgnd.1 (hc ▸ hx)
          exact ⟨jx, by rw [hm1ne x hxn]; exact hjx, hjx0⟩)
    rw [hstep]
    refine ⟨by rw [hkeys, aupdate_map_fst], ?_, ?_, ?_, ?_, ?_⟩
    · intro u
      rw [hsucc u, successors_of_aupdate_keep m n u
        (fun j => { j with npredecessors := -1 }) (fun j => rfl)]
    · intro v hv
      have hvn : v ≠ n := fun hc => hv (by simp [hc])
      have hvr : v ∉ rest := fun hc => hv (by simp [hc])
      rw [hnmem v hvr, hm1ne v hvn]
    · intro v hv
      cases List.mem_cons.mp hv with
      | inl he =>
        subst he
        refine ⟨i, hi, ?_⟩
        rw [hnmem v hgnd.1]
        exact hm1n
      | inr he =>
        have hvn : v ≠ n := fun hc => hgnd.1 (hc ▸ he)
        obtain ⟨jv, hjv, hjv2⟩ := hmem v he
        rw [hm1ne v hvn] at hjv
        exact ⟨jv, hjv, hjv2⟩
    · intro v
      rw [hms v]
      exact mention_sum_aupdate_keep m n _ i v hi rfl (by simp [hi0])
    · have h := live_count_aupdate m n (fun j => { j with npredecessors := -1 }) i hi
      have h2 : ((fun j : NodeInfo => { j with npredecessors := -1 }) i).npredecessors
          = -1 := rfl
      rw [h2, if_pos (by omega : (0 : Int) ≤ i.npredecessors),
          if_neg (by norm_num : ¬ (0 : Int) ≤ (-1 : Int))] at h
      rw [List.length_cons, ← Nat.add_assoc, hlc]
      omega

/-- After `get_ready` hands out the boundary group, the mid-iteration
invariant holds with exactly that group pending. -/
theorem mid_after_get_ready (ts : TS) (hinv : TsInv ts) :
    MidInv
      { node2info := ts.ready.foldl
          (fun acc n => aupdate acc n (fun i => { i with npredecessors := -1 })) ts.node2info,
        ready := [],
        npassedout := ts.npassedout + ts.ready.length,
        nfinished := ts.nfinished } ts.ready := by
  obtain ⟨hkeys, hsucc, hnmem, hmem, hms, hlc⟩ :=
    mark_fold ts.ready ts.node2info hinv.nodup_keys hinv.ready_nodup hinv.ready_zero
  refine ⟨?_, ?_, ?_, ?_, ?_, ?_, ?_, ?_, ?_, ?_, ?_⟩
  · dsimp only
    rw [hkeys]
    exact hinv.nodup_keys
  · intro u v he
    dsimp only at he ⊢
    rw [hkeys]
    exact hinv.edges_closed u v ((isEdge_congr _ _ hsucc u v).mp he)
  · exact List.nodup_nil
  · intro n hn
    exact absurd hn (List.not_mem_nil n)
  · intro v j hj
    dsimp only at hj
    by_cases hv : v ∈ ts.ready
    · obtain ⟨i0, hi0, hup⟩ := hmem v hv
      rw [hup] at hj
      cases hj
      right
      left
      rfl
    · rw [hnmem v hv] at hj
      exact hinv.vals v j hj
  · intro v j hj hpos
    dsimp only at hj ⊢
    by_cases hv : v ∈ ts.ready
    · obtain ⟨i0, hi0, hup⟩ := hmem v hv
      rw [hup] at hj
      cases hj
      simp at hpos
    · rw [hnmem v hv] at hj
      rw [hms v]
      exact hinv.cnt v j hj hpos
  · intro v j hj hneg u j2 hj2 hmemv
    dsimp only at hj hj2
    by_cases hu : u ∈ ts.ready
    · obtain ⟨iu, hiu, hupu⟩ := hmem u hu
      obtain ⟨iu2, hiu2, hiu20⟩ := hinv.ready_zero u hu
      rw [hiu] at hiu2
      cases hiu2
      rw [hupu] at hj2
      cases hj2
      have hmemv2 : v ∈ iu.successors := hmemv
      by_cases hv : v ∈ ts.ready
      · have := boundary_preds_done ts hinv v hv u iu hiu hmemv2
        omega
      · rw [hnmem v hv] at hj
        have := hinv.pd v j hj hneg u iu hiu hmemv2
        omega
    · rw [hnmem u hu] at hj2
      by_cases hv : v ∈ ts.ready
      · exact boundary_preds_done ts hinv v hv u j2 hj2 hmemv
      · rw [hnmem v hv] at hj
        exact hinv.pd v j hj hneg u j2 hj2 hmemv
  · intro v j hj h0
    dsimp only at hj
    by_cases hv : v ∈ ts.ready
    · obtain ⟨i0, hi0, hup⟩ := hmem v hv
      rw [hup] at hj
      cases hj
      simp at h0
    · rw [hnmem v hv] at hj
      exact absurd (hinv.r0 v j hj h0) hv
  · intro v j hj
    dsimp only at hj
    constructor
    · intro hj1
      by_contra hv
      rw [hnmem v hv] at hj
      exact hinv.noout v j hj hj1
    · intro hv
      obtain ⟨i0, hi0, hup⟩ := hmem v hv
      rw [hup] at hj
      cases hj
      rfl
  · exact hinv.ready_nodup
  · intro x hx
    dsimp only
    rw [hkeys]
    obtain ⟨i0, hi0, _⟩ := hinv.ready_zero x hx
    exact mem_fst_of_alookup_ne_none ts.node2info x (by simp [hi0])

/-- One whole iteration of the generator loop (`get_ready`, then `done` on
the whole group): the boundary invariant is restored, the graph skeleton is
unchanged, exactly the group's nodes become done and the live-entry count
drops by the group size. -/
theorem ts_iter_step (ts : TS) (hinv : TsInv ts) :
    TsInv (ts_done (ts_get_ready ts).2 ts.ready)
    ∧ (ts_done (ts_get_ready ts).2 ts.ready).node2info.map Prod.fst
        = ts.node2info.map Prod.fst
    ∧ (∀ u, successors_of (ts_done (ts_get_ready ts).2 ts.ready).node2info u
        = successors_of ts.node2info u)
    ∧ live_count (ts_done (ts_get_ready ts).2 ts.ready).node2info + ts.ready.length
        = live_count ts.node2info
    ∧ (∀ v j, alookup ts.node2info v = some j → j.npredecessors = -2 →
        alookup (ts_done (ts_get_ready ts).2 ts.ready).node2info v = some j)
    ∧ (∀ v ∈ ts.ready, ∃ j,
        alookup (ts_done (ts_get_ready ts).2 ts.ready).node2info v = some j
        ∧ j.npredecessors = -2)
    ∧ (∀ v j, alookup (ts_done (ts_get_ready ts).2 ts.ready).node2info v = some j →
        j.npredecessors = -2 → v ∈ ts.ready ∨ alookup ts.node2info v = some j) := by
  obtain ⟨hkeys, hsucc, hnmem, hmem, hms, hlc⟩ :=
    mark_fold ts.ready ts.node2info hinv.nodup_keys hinv.ready_nodup hinv.ready_zero
  have hgr : (ts_get_ready ts).2 =
      { node2info := ts.ready.foldl
          (fun acc n => aupdate acc n (fun i => { i with npredecessors := -1 })) ts.node2info,
        ready := [],
        npassedout := ts.npassedout + ts.ready.length,
        nfinished := ts.nfinished } := rfl
  rw [hgr]
  obtain ⟨hmid2, hkeys2, hsucc2, hpass2, hfin2, hlive2, hpres2, hall2, hback2, hready2⟩ :=
    done_fold ts.ready _ (mid_after_get_ready ts hinv)
  refine ⟨?_, ?_, ?_, ?_, ?_, hall2, ?_⟩
  · refine ⟨hmid2.nodup_keys, hmid2.edges_closed, hmid2.ready_nodup, hmid2.ready_zero,
      ?_, hmid2.vals, hmid2.cnt, hmid2.pd, hmid2.r0, ?_⟩
    · rw [hfin2, hpass2]
      dsimp only
      have := hinv.fin_eq
      omega
    · intro v j hj hc
      exact absurd ((hmid2.out_iff v j hj).mp hc) (List.not_mem_nil v)
  · rw [hkeys2]
    dsimp only
    exact hkeys
  · intro u
    rw [hsucc2 u]
    dsimp only
    exact hsucc u
  · rw [hlive2]
    dsimp only
    exact hlc
  · intro v j hj hj2
    have hv : v ∉ ts.ready := by
      intro hc
      obtain ⟨i0, hi0, hi00⟩ := hinv.ready_zero v hc
      rw [hj] at hi0
      cases hi0
      omega
    refine hpres2 v j ?_ hj2
    dsimp only
    rw [hnmem v hv]
    exact hj
  · intro v j hj hj2
    cases hback2 v j hj hj2 with
    | inl h => exact Or.inl h
    | inr h =>
      dsimp only at h
      by_cases hv : v ∈ ts.ready
      · exact Or.inl hv
      · rw [hnmem v hv] at h
        exact Or.inr h

/-- Draining the generator with enough fuel: the boundary invariant is
preserved, the emitted nodes are distinct previously-live nodes listed with
no backward edge, the done set grows by exactly the emitted nodes, and the
loop genuinely terminates (the final state is inactive). -/
theorem node_out_drain (fuel : Nat) : ∀ (ts : TS), TsInv ts →
    live_count ts.node2info < fuel →
    DrainOut ts (node_out fuel ts).1 (node_out fuel ts).2 := by
  induction fuel with
  | zero =>
    intro ts _ hlt
    exact absurd hlt (by omega)
  | succ fuel ih =>
    intro ts hinv hlt
    cases hact : ts_is_active ts with
    | false =>
      have h1 : node_out (fuel + 1) ts = ([], ts) := by
        simp [node_out, hact]
      rw [h1]
      exact ⟨hinv, rfl, fun u => rfl, List.nodup_nil, by simp, by simp, List.Pairwise.nil,
        by simp, fun v j h _ => h, fun v j h _ => Or.inr h, hact⟩
    | true =>
      obtain ⟨hiter1, hiter2, hiter3, hiter4, hiter5, hiter6, hiter7⟩ := ts_iter_step ts hinv
      have hready_ne : ts.ready ≠ [] := by
        intro hc
        unfold ts_is_active at hact
        rw [hinv.fin_eq, hc] at hact
        simp at hact
      have hlen : 1 ≤ ts.ready.length := by
        cases hr : ts.ready with
        | nil => exact absurd hr hready_ne
        | cons a l => simp
      have hlt2 : live_count (ts_done (ts_get_ready ts).2 ts.ready).node2info < fuel := by
        omega
      obtain ⟨jinv, jkeys, jsucc, jnodup, jkeyso, jlive, jpair, jdone, jpres, jback, jinact⟩ :=
        ih (ts_done (ts_get_ready ts).2 ts.ready) hiter1 hlt2
      have h1 : (node_out (fuel + 1) ts).1
          = ts.ready ++ (node_out fuel (ts_done (ts_get_ready ts).2 ts.ready)).1 := by
        simp [node_out, hact]
      have h2 : (node_out (fuel + 1) ts).2
          = (node_out fuel (ts_done (ts_get_ready ts).2 ts.ready)).2 := by
        simp [node_out, hact]
      have htrans : ∀ v j,
          alookup (ts_done (ts_get_ready ts).2 ts.ready).node2info v = some j →
          0 ≤ j.npredecessors →
          v ∉ ts.ready ∧ ∃ j0, alookup ts.node2info v = some j0 ∧ 0 ≤ j0.npredecessors := by
        intro v j hj hpos
        have hvni : v ∉ ts.ready := by
          intro hc
          obtain ⟨j2, hj2, hj22⟩ := hiter6 v hc
          rw [hj] at hj2
          cases hj2
          omega
        refine ⟨hvni, ?_⟩
        have hvk : v ∈ ts.node2info.map Prod.fst := by
          have hv2 : v ∈ (ts_done (ts_get_ready ts).2 ts.ready).node2info.map Prod.fst :=
            mem_fst_of_alookup_ne_none _ v (by simp [hj])
          rwa [hiter2] at hv2
        obtain ⟨j0, hj0⟩ := alookup_isSome_of_mem_fst _ v hvk
        rcases hinv.vals v j0 hj0 with h | h | h
        · exfalso
          have h3 := hiter5 v j0 hj0 h
          rw [hj] at h3
          cases h3
          omega
        · exact absurd h (hinv.noout v j0 hj0)
        · exact ⟨j0, hj0, h⟩
      rw [h1, h2]
      refine ⟨jinv, by rw [jkeys, hiter2], ?_, ?_, ?_, ?_, ?_, ?_, ?_, ?_, jinact⟩
      · intro u
        rw [jsucc u, hiter3 u]
      · rw [List.nodup_append]
        refine ⟨hinv.ready_nodup, jnodup, ?_⟩
        intro a ha hb
        obtain ⟨j2, hj2, hj22⟩ := hiter6 a ha
        obtain ⟨j, hj, hpos⟩ := jlive a hb
        rw [hj2] at hj
        cases hj
        omega
      · intro v hv
        cases List.mem_append.mp hv with
        | inl h =>
          obtain ⟨i0, hi0, _⟩ := hinv.ready_zero v h
          exact mem_fst_of_alookup_ne_none _ v (by simp [hi0])
        | inr h =>
          have hk := jkeyso v h
          rwa [hiter2] at hk
      · intro v hv
        cases List.mem_append.mp hv with
        | inl h =>
          obtain ⟨i0, hi0, hi00⟩ := hinv.ready_zero v h
          exact ⟨i0, hi0, by omega⟩
        | inr h =>
          obtain ⟨j, hj, hpos⟩ := jlive v h
          obtain ⟨_, j0, hj0, hpos0⟩ := htrans v j hj hpos
          exact ⟨j0, hj0, hpos0⟩
      · rw [List.pairwise_append]
        refine ⟨?_, ?_, ?_⟩
        · apply List.pairwise_of_forall_mem_list
          intro a ha b hb hedge
          obtain ⟨jb, hjb, hjb0⟩ := hinv.ready_zero b hb
          have hmem2 : a ∈ jb.successors := by
            have h3 : a ∈ successors_of ts.node2info b := hedge
            unfold successors_of at h3
            rw [hjb] at h3
            exact h3
          have := boundary_preds_done ts hinv a ha b jb hjb hmem2
          omega
        · refine List.Pairwise.imp ?_ jpair
          intro a b hn hedge
          exact hn ((isEdge_congr _ _ hiter3 b a).mpr hedge)
        · intro a ha b hb hedge
          obtain ⟨j, hj, hpos⟩ := jlive b hb
          obtain ⟨_, j0, hj0, hpos0⟩ := htrans b j hj hpos
          have hmem2 : a ∈ j0.successors := by
            have h3 : a ∈ successors_of ts.node2info b := hedge
            unfold successors_of at h3
            rw [hj0] at h3
            exact h3
          have := boundary_preds_done ts hinv a ha b j0 hj0 hmem2
          omega
      · intro v hv
        cases List.mem_append.mp hv with
        | inl h =>
          obtain ⟨j2, hj2, hj22⟩ := hiter6 v h
          exact ⟨j2, jpres v j2 hj2 hj22, hj22⟩
        | inr h => exact jdone v h
      · intro v j hj hj2
        exact jpres v j (hiter5 v j hj hj2) hj2
      · intro v j hj hj2
        cases jback v j hj hj2 with
        | inl h => exact Or.inl (List.mem_append.mpr (Or.inr h))
        | inr h =>
          cases hiter7 v j h hj2 with
          | inl h2 => exact Or.inl (List.mem_append.mpr (Or.inl h2))
          | inr h2 => exact Or.inr h2

/-! Build-phase accounting: `add` keeps every predecessor count equal to the
node's mention count. -/

theorem mention_sum_append (m l : Node2Info) (v : String) :
    mention_sum (m ++ l) v = mention_sum m v + mention_sum l v := by
  unfold mention_sum
  rw [List.map_append, List.sum_append]

theorem mention_sum_zero_of_none (m : Node2Info) (x : String)
    (hwf : WfGraph m) (hx : alookup m x = none) : mention_sum m x = 0 := by
  unfold mention_sum
  rw [List.sum_eq_zero]
  intro t ht
  rw [List.mem_map] at ht
  obtain ⟨⟨u, j⟩, hmem, ht2⟩ := ht
  subst ht2
  by_cases hind : (-1 : Int) ≤ j.npredecessors
  · rw [if_pos hind]
    rw [List.count_eq_zero]
    intro hc
    have hl : alookup m u = some j := alookup_of_mem_nodup m hwf.1 u j hmem
    have hedge : isEdge m u x := by
      unfold isEdge successors_of
      rw [hl]
      exact hc
    obtain ⟨w, hw⟩ := alookup_isSome_of_mem_fst m x (hwf.2 u x hedge)
    rw [hx] at hw
    exact Option.noConfusion hw
  · rw [if_neg hind]

theorem mention_sum_get_nodeinfo (m : Node2Info) (node v : String) :
    mention_sum (get_nodeinfo m node) v = mention_sum m v := by
  unfold get_nodeinfo
  cases alookup m node with
  | some i => rfl
  | none =>
    rw [mention_sum_append]
    simp [mention_sum]

theorem get_nodeinfo_wf (m : Node2Info) (node : String) (hwf : WfGraph m) :
    WfGraph (get_nodeinfo m node) := by
  constructor
  · exact nodup_get_nodeinfo m node hwf.1
  · intro u v he
    have he2 : isEdge m u v := by
      unfold isEdge at he ⊢
      rwa [successors_of_get_nodeinfo] at he
    exact mem_fst_get_nodeinfo_of_mem m node v (hwf.2 u v he2)

theorem get_nodeinfo_lookup (m : Node2Info) (node v : String) :
    alookup (get_nodeinfo m node) v = alookup m v
    ∨ (v = node ∧ alookup m v = none
       ∧ alookup (get_nodeinfo m node) v
         = some { npredecessors := 0, successors := [] }) := by
  unfold get_nodeinfo
  cases hmn : alookup m node with
  | some i => exact Or.inl rfl
  | none =>
    by_cases hv : v = node
    · subst hv
      refine Or.inr ⟨rfl, hmn, ?_⟩
      rw [alookup_append_of_none m _ v hmn]
      simp [alookup]
    · left
      cases hmv : alookup m v with
      | some j => exact alookup_append_left m _ v j hmv
      | none =>
        rw [alookup_append_of_none m _ v hmv]
        simp only [alookup]
        rw [if_neg (fun hc => hv hc.symm)]

theorem count_singleton_ite (w x : String) :
    List.count w [x] = if x = w then 1 else 0 := by
  by_cases h : x = w
  · subst h
    simp
  · rw [if_neg h, List.count_eq_zero]
    intro hc
    rw [List.mem_singleton] at hc
    exact h hc.symm

/-- The predecessor fold of `add`: appending `node` to each predecessor's
successor list raises `node`'s mention count once per predecessor, keeping
the graph well-formed; starting from a pending debt equal to the number of
predecessors, the exact-count invariant is restored. -/
theorem succ_fold (node : String) (l : List String) : ∀ (acc : Node2Info),
    WfGraph acc →
    node ∈ acc.map Prod.fst →
    (∀ v j, alookup acc v = some j → 0 ≤ j.npredecessors ∧
      j.npredecessors
        = (mention_sum acc v : Int) + (if v = node then (l.length : Int) else 0)) →
    WfGraph (l.foldl (fun acc p => aupdate (get_nodeinfo acc p) p
        (fun i => { i with successors := i.successors ++ [node] })) acc)
    ∧ ∀ v j, alookup (l.foldl (fun acc p => aupdate (get_nodeinfo acc p) p
        (fun i => { i with successors := i.successors ++ [node] })) acc) v = some j →
        0 ≤ j.npredecessors ∧
        j.npredecessors = (mention_sum (l.foldl (fun acc p => aupdate (get_nodeinfo acc p) p
          (fun i => { i with successors := i.successors ++ [node] })) acc) v : Int) := by
  induction l with
  | nil =>
    intro acc hwf _ hcnt
    refine ⟨hwf, ?_⟩
    intro v j hj
    obtain ⟨h1, h2⟩ := hcnt v j hj
    refine ⟨h1, ?_⟩
    simpa using h2
  | cons p l ih =>
    intro acc hwf hnode hcnt
    obtain ⟨ip, hip⟩ := alookup_get_nodeinfo_self acc p
    have hwfg : WfGraph (get_nodeinfo acc p) := get_nodeinfo_wf acc p hwf
    have hnodeg : node ∈ (get_nodeinfo acc p).map Prod.fst :=
      mem_fst_get_nodeinfo_of_mem acc p node hnode
    have hcntg : ∀ v j, alookup (get_nodeinfo acc p) v = some j → 0 ≤ j.npredecessors ∧
        j.npredecessors = (mention_sum (get_nodeinfo acc p) v : Int)
          + (if v = node then ((p :: l).length : Int) else 0) := by
      intro v j hj
      rcases get_nodeinfo_lookup acc p v with h | ⟨hvp, hnone, hsome⟩
      · rw [h] at hj
        have h2 := hcnt v j hj
        rw [mention_sum_get_nodeinfo]
        exact h2
      · rw [hsome] at hj
        cases hj
        refine ⟨by norm_num, ?_⟩
        have hvnode : v ≠ node := by
          intro hc
          subst hc
          obtain ⟨w, hw⟩ := alookup_isSome_of_mem_fst acc v hnode
          rw [hnone] at hw
          exact Option.noConfusion hw
        rw [if_neg hvnode, mention_sum_get_nodeinfo,
          mention_sum_zero_of_none acc v hwf hnone]
        norm_num
    have hip0 : 0 ≤ ip.npredecessors := (hcntg p ip hip).1
    have hm1p : alookup (aupdate (get_nodeinfo acc p) p
        (fun i => { i with successors := i.successors ++ [node] })) p
        = some { ip with successors := ip.successors ++ [node] } :=
      alookup_aupdate_self _ p _ ip hip
    have hm1ne : ∀ v, v ≠ p → alookup (aupdate (get_nodeinfo acc p) p
        (fun i => { i with successors := i.successors ++ [node] })) v
        = alookup (get_nodeinfo acc p) v :=
      fun v hv => alookup_aupdate_ne _ p v _ hv
    have hms1 : ∀ w, mention_sum (aupdate (get_nodeinfo acc p) p
        (fun i => { i with successors := i.successors ++ [node] })) w
        = mention_sum (get_nodeinfo acc p) w + (if node = w then 1 else 0) := by
      intro w
      have h := mention_sum_aupdate (get_nodeinfo acc p) p
        (fun i => { i with successors := i.successors ++ [node] }) ip w hip
      have hred1 : ((fun i : NodeInfo => { i with successors := i.successors ++ [node] })
          ip).npredecessors = ip.npredecessors := rfl
      have hred2 : ((fun i : NodeInfo => { i with successors := i.successors ++ [node] })
          ip).successors = ip.successors ++ [node] := rfl
      rw [hred1, hred2] at h
      rw [if_pos (by omega : (-1:Int) ≤ ip.npredecessors),
          if_pos (by omega : (-1:Int) ≤ ip.npredecessors)] at h
      rw [List.count_append, count_singleton_ite w node] at h
      by_cases hwn : node = w
      · rw [if_pos hwn] at h ⊢
        omega
      · rw [if_neg hwn] at h ⊢
        omega
    have hwf1 : WfGraph (aupdate (get_nodeinfo acc p) p
        (fun i => { i with successors := i.successors ++ [node] })) := by
      constructor
      · rw [aupdate_map_fst]
        exact hwfg.1
      · intro u v he
        rw [aupdate_map_fst]
        by_cases hup : u = p
        · subst hup
          unfold isEdge successors_of at he
          rw [hm1p] at he
          have he2 : v ∈ ip.successors ++ [node] := he
          rcases List.mem_append.mp he2 with h | h
          · refine hwfg.2 u v ?_
            unfold isEdge successors_of
            rw [hip]
            exact h
          · rw [List.mem_singleton] at h
            subst h
            exact hnodeg
        · rw [isEdge, successors_of_aupdate_ne (get_nodeinfo acc p) p u
            (fun i => { i with successors := i.successors ++ [node] }) hup] at he
          exact hwfg.2 u v he
    have hnode1 : node ∈ (aupdate (get_nodeinfo acc p) p
        (fun i => { i with successors := i.successors ++ [node] })).map Prod.fst := by
      rw [aupdate_map_fst]
      exact hnodeg
    have hcnt1 : ∀ v j, alookup (aupdate (get_nodeinfo acc p) p
        (fun i => { i with successors := i.successors ++ [node] })) v = some j →
        0 ≤ j.npredecessors ∧
        j.npredecessors = (mention_sum (aupdate (get_nodeinfo acc p) p
          (fun i => { i with successors := i.successors ++ [node] })) v : Int)
          + (if v = node then (l.length : Int) else 0) := by
      intro v j hj
      by_cases hvp : v = p
      · subst hvp
        rw [hm1p] at hj
        cases hj
        obtain ⟨h1, h2⟩ := hcntg v ip hip
        refine ⟨h1, ?_⟩
        show ip.npredecessors = _
        rw [hms1 v]
        by_cases hvn : v = node
        · rw [if_pos hvn] at h2 ⊢
          rw [if_pos hvn.symm]
          rw [List.length_cons] at h2
          push_cast at h2 ⊢
          omega
        · rw [if_neg hvn] at h2 ⊢
          rw [if_neg (fun hc => hvn hc.symm)]
          push_cast at h2 ⊢
          omega
      · rw [hm1ne v hvp] at hj
        obtain ⟨h1, h2⟩ := hcntg v j hj
        refine ⟨h1, ?_⟩
        rw [hms1 v]
        by_cases hvn : v = node
        · rw [if_pos hvn] at h2 ⊢
          rw [if_pos hvn.symm]
          rw [List.length_cons] at h2
          push_cast at h2 ⊢
          omega
        · rw [if_neg hvn] at h2 ⊢
          rw [if_neg (fun hc => hvn hc.symm)]
          push_cast at h2 ⊢
          omega
    have hstep : (p :: l).foldl (fun acc p => aupdate (get_nodeinfo acc p) p
        (fun i => { i with successors := i.successors ++ [node] })) acc
        = l.foldl (fun acc p => aupdate (get_nodeinfo acc p) p
            (fun i => { i with successors := i.successors ++ [node] }))
          (aupdate (get_nodeinfo acc p) p
            (fun i => { i with successors := i.successors ++ [node] })) := rfl
    rw [hstep]
    exact ih _ hwf1 hnode1 hcnt1

/-- `TopologicalSorter.add` keeps the build-phase invariant: the new node's
count is bumped by exactly the number of predecessors, and each predecessor
mentions it exactly once more. -/
theorem ts_add_inv (m : Node2Info) (node : String) (preds : List String)
    (hinv : BuildInv m) : BuildInv (ts_add m node preds) := by
  obtain ⟨hwf, hcnt⟩ := hinv
  obtain ⟨i0, hi0⟩ := alookup_get_nodeinfo_self m node
  have hwfg : WfGraph (get_nodeinfo m node) := get_nodeinfo_wf m node hwf
  have hcntg : ∀ v j, alookup (get_nodeinfo m node) v = some j →
      0 ≤ j.npredecessors ∧
      j.npredecessors = (mention_sum (get_nodeinfo m node) v : Int) := by
    intro v j hj
    rcases get_nodeinfo_lookup m node v with h | ⟨hvn, hnone, hsome⟩
    · rw [h] at hj
      rw [mention_sum_get_nodeinfo]
      exact hcnt v j hj
    · rw [hsome] at hj
      cases hj
      refine ⟨by norm_num, ?_⟩
      rw [mention_sum_get_nodeinfo, mention_sum_zero_of_none m v hwf hnone]
      norm_num
  have hi00 : 0 ≤ i0.npredecessors := (hcntg node i0 hi0).1
  have hm1n : alookup (aupdate (get_nodeinfo m node) node
      (fun i => { i with npredecessors := i.npredecessors + preds.length })) node
      = some { i0 with npredecessors := i0.npredecessors + preds.length } :=
    alookup_aupdate_self _ node _ i0 hi0
  have hm1ne : ∀ v, v ≠ node → alookup (aupdate (get_nodeinfo m node) node
      (fun i => { i with npredecessors := i.npredecessors + preds.length })) v
      = alookup (get_nodeinfo m node) v :=
    fun v hv => alookup_aupdate_ne _ node v _ hv
  have hms1 : ∀ w, mention_sum (aupdate (get_nodeinfo m node) node
      (fun i => { i with npredecessors := i.npredecessors + preds.length })) w
      = mention_sum (get_nodeinfo m node) w := by
    intro w
    refine mention_sum_aupdate_keep (get_nodeinfo m node) node _ i0 w hi0 rfl ?_
    constructor
    · intro _
      show (-1 : Int) ≤ i0.npredecessors + preds.length
      omega
    · intro _
      omega
  have hwf1 : WfGraph (aupdate (get_nodeinfo m node) node
      (fun i => { i with npredecessors := i.npredecessors + preds.length })) := by
    constructor
    · rw [aupdate_map_fst]
      exact hwfg.1
    · intro u v he
      rw [aupdate_map_fst]
      rw [isEdge, successors_of_aupdate_keep (get_nodeinfo m node) node u
        (fun i => { i with npredecessors := i.npredecessors + preds.length })
        (fun i => rfl)] at he
      exact hwfg.2 u v he
  have hnode1 : node ∈ (aupdate (get_nodeinfo m node) node
      (fun i => { i with npredecessors := i.npredecessors + preds.length })).map Prod.fst := by
    rw [aupdate_map_fst]
    exact mem_fst_get_nodeinfo m node
  have hcnt1 : ∀ v j, alookup (aupdate (get_nodeinfo m node) node
      (fun i => { i with npredecessors := i.npredecessors + preds.length })) v = some j →
      0 ≤ j.npredecessors ∧
      j.npredecessors = (mention_sum (aupdate (get_nodeinfo m node) node
        (fun i => { i with npredecessors := i.npredecessors + preds.length })) v : Int)
        + (if v = node then (preds.length : Int) else 0) := by
    intro v j hj
    by_cases hvn : v = node
    · subst hvn
      rw [hm1n] at hj
      cases hj
      obtain ⟨h1, h2⟩ := hcntg v i0 hi0
      rw [if_pos rfl, hms1 v]
      constructor
      · show 0 ≤ i0.npredecessors + (preds.length : Int)
        omega
      · show i0.npredecessors + (preds.length : Int) = _
        omega
    · rw [hm1ne v hvn] at hj
      obtain ⟨h1, h2⟩ := hcntg v j hj
      rw [if_neg hvn, hms1 v]
      exact ⟨h1, by omega⟩
  have hts : ts_add m node preds
      = preds.foldl (fun acc p => aupdate (get_nodeinfo acc p) p
          (fun i => { i with successors := i.successors ++ [node] }))
        (aupdate (get_nodeinfo m node) node
          (fun i => { i with npredecessors := i.npredecessors + preds.length })) := rfl
  rw [BuildInv, hts]
  exact succ_fold node preds _ hwf1 hnode1 hcnt1

theorem build_state_inv (plugins : List Plugin) (op : String) :
    BuildInv (build_state plugins op).graph := by
  unfold build_state
  refine foldl_preserve
    (fun st p => (p.get_operation_steps op).foldl (fun st1 s => ingest_step st1 p s) st)
    (fun st => BuildInv st.graph)
    ?_ plugins { steps := [], warnings := [], graph := [] } ?_
  · intro st p hst
    refine foldl_preserve (fun st1 s => ingest_step st1 p s)
      (fun st1 => BuildInv st1.graph) ?_ (p.get_operation_steps op) st hst
    intro st1 s1 h1
    show BuildInv (ingest_step st1 p s1).graph
    unfold ingest_step
    cases he : alookup st1.steps s1.name with
    | some prev =>
      exact h1
    | none =>
      exact foldl_preserve (fun g r => ts_add g r [s1.name])
        (fun g => BuildInv g)
        (fun g r hg => ts_add_inv g r [s1.name] hg)
        s1.reverse_dependencies _
        (ts_add_inv st1.graph s1.name s1.dependencies h1)
  · constructor
    · constructor
      · simp
      · intro u v he
        unfold isEdge successors_of alookup at he
        simp at he
    · intro v j hj
      simp [alookup] at hj

theorem ready_filterMap_sublist (m : Node2Info) :
    List.Sublist
      (m.filterMap (fun p => if p.2.npredecessors = 0 then some p.1 else none))
      (m.map Prod.fst) := by
  induction m with
  | nil => simp
  | cons q rest ih =>
    by_cases hq : q.2.npredecessors = 0
    · simp only [List.filterMap_cons, hq, if_pos, List.map_cons]
      exact List.Sublist.cons₂ q.1 ih
    · simp only [List.filterMap_cons, if_neg hq, List.map_cons]
      exact List.Sublist.cons q.1 ih

/-- `prepare` on a freshly built, acyclic graph yields a state satisfying the
boundary invariant of the generator loop. -/
theorem ts_prepare_tsinv (m : Node2Info) (hinv : BuildInv m) (ts0 : TS)
    (h : ts_prepare m = .ok ts0) : TsInv ts0 := by
  obtain ⟨hwf, hcnt⟩ := hinv
  unfold ts_prepare at h
  cases hf : find_cycle m with
  | some cyc =>
    rw [hf] at h
    exact Except.noConfusion h
  | none =>
    rw [hf] at h
    cases h
    refine ⟨hwf.1, hwf.2, ?_, ?_, rfl, ?_, ?_, ?_, ?_, ?_⟩
    · show (m.filterMap (fun p => if p.2.npredecessors = 0 then some p.1 else none)).Nodup
      exact (ready_filterMap_sublist m).nodup hwf.1
    · intro n hn
      have hn2 : n ∈ m.filterMap (fun p => if p.2.npredecessors = 0 then some p.1 else none) :=
        hn
      rw [List.mem_filterMap] at hn2
      obtain ⟨⟨u, j⟩, hmem, hif⟩ := hn2
      by_cases hz : j.npredecessors = 0
      · rw [if_pos hz] at hif
        injection hif with hif2
        subst hif2
        exact ⟨j, alookup_of_mem_nodup m hwf.1 _ j hmem, hz⟩
      · rw [if_neg hz] at hif
        exact Option.noConfusion hif
    · intro n i hi
      right
      right
      exact (hcnt n i hi).1
    · intro n i hi _
      exact (hcnt n i hi).2
    · intro n i hi hneg
      have := (hcnt n i hi).1
      omega
    · intro n i hi hz
      show n ∈ m.filterMap (fun p => if p.2.npredecessors = 0 then some p.1 else none)
      rw [List.mem_filterMap]
      exact ⟨(n, i), alookup_mem m n i hi, by rw [if_pos hz]⟩
    · intro n i hi
      have := (hcnt n i hi).1
      omega

/-- The generator emits exactly the steps found for the drained node names. -/
theorem iterate_gen_eq_node_out (steps : List (String × OperationStep)) (fuel : Nat) :
    ∀ ts : TS,
    (iterate_gen steps fuel ts).1
      = ((node_out fuel ts).1).filterMap (fun n => alookup steps n)
    ∧ (iterate_gen steps fuel ts).2 = (node_out fuel ts).2 := by
  induction fuel with
  | zero => intro ts; exact ⟨rfl, rfl⟩
  | succ fuel ih =>
    intro ts
    cases hact : ts_is_active ts with
    | false =>
      constructor <;> simp [iterate_gen, node_out, hact]
    | true =>
      obtain ⟨ih1, ih2⟩ := ih (ts_done (ts_get_ready ts).2 ts.ready)
      have e1 : iterate_gen steps (fuel + 1) ts
          = (ts.ready.filterMap (fun n => alookup steps n)
              ++ (iterate_gen steps fuel (ts_done (ts_get_ready ts).2 ts.ready)).1,
             (iterate_gen steps fuel (ts_done (ts_get_ready ts).2 ts.ready)).2) := by
        simp only [iterate_gen, hact, eq_self_iff_true, if_true]
        rfl
      have e2 : node_out (fuel + 1) ts
          = (ts.ready ++ (node_out fuel (ts_done (ts_get_ready ts).2 ts.ready)).1,
             (node_out fuel (ts_done (ts_get_ready ts).2 ts.ready)).2) := by
        simp only [node_out, hact, eq_self_iff_true, if_true]
      rw [e1, e2]
      constructor
      · show ts.ready.filterMap (fun n => alookup steps n)
            ++ (iterate_gen steps fuel (ts_done (ts_get_ready ts).2 ts.ready)).1
          = (ts.ready ++ (node_out fuel (ts_done (ts_get_ready ts).2 ts.ready)).1).filterMap
              (fun n => alookup steps n)
        rw [List.filterMap_append, ih1]
      · exact ih2

theorem iterate_gen_inactive (steps : List (String × OperationStep)) (fuel : Nat) (ts : TS)
    (h : ts_is_active ts = false) : iterate_gen steps fuel ts = ([], ts) := by
  cases fuel with
  | zero => rfl
  | succ fuel => simp [iterate_gen, h]

theorem live_count_le_length (m : Node2Info) : live_count m ≤ m.length := by
  unfold live_count
  induction m with
  | nil => simp
  | cons p rest ih =>
    simp only [List.map_cons, List.sum_cons, List.length_cons]
    by_cases h : (0:Int) ≤ p.2.npredecessors
    · rw [if_pos h]
      omega
    · rw [if_neg h]
      omega

theorem exists_mentioner (m : Node2Info) (v : String) (h : 0 < mention_sum m v) :
    ∃ u j, (u, j) ∈ m ∧ (-1 : Int) ≤ j.npredecessors ∧ v ∈ j.successors := by
  by_contra hc
  push_neg at hc
  have h0 : mention_sum m v = 0 := by
    unfold mention_sum
    rw [List.sum_eq_zero]
    intro t ht
    rw [List.mem_map] at ht
    obtain ⟨⟨u, j⟩, hmem, ht2⟩ := ht
    subst ht2
    by_cases hind : (-1 : Int) ≤ j.npredecessors
    · rw [if_pos hind, List.count_eq_zero]
      exact hc u j hmem hind
    · rw [if_neg hind]
  omega

/-- Walking backwards along predecessors: the path's properties. -/
theorem iter_path_spec (m : Node2Info) (f : String → String) (P : String → Prop)
    (hf : ∀ v, P v → P (f v) ∧ isEdge m (f v) v) :
    ∀ (d : Nat) (v : String), P v →
      P (f^[d] v)
      ∧ chain_edges m (iter_path f d v) = true
      ∧ (iter_path f d v).length = d + 1
      ∧ (iter_path f d v).head? = some (f^[d] v)
      ∧ (iter_path f d v).getLast? = some v := by
  intro d
  induction d with
  | zero =>
    intro v hv
    exact ⟨hv, rfl, rfl, rfl, rfl⟩
  | succ d ih =>
    intro v hv
    obtain ⟨hP, hchain, hlen, hhead, hlast⟩ := ih v hv
    have hstep := hf (f^[d] v) hP
    have hit : f^[d + 1] v = f (f^[d] v) := Function.iterate_succ_apply' f d v
    refine ⟨?_, ?_, ?_, rfl, ?_⟩
    · rw [hit]
      exact hstep.1
    · show chain_edges m (f^[d + 1] v :: iter_path f d v) = true
      cases hrest : iter_path f d v with
      | nil =>
        rw [hrest] at hlen
        simp at hlen
      | cons b t =>
        rw [hrest] at hhead hchain
        have hb : b = f^[d] v := by
          simp only [List.head?_cons, Option.some.injEq] at hhead
          exact hhead
        simp only [chain_edges, Bool.and_eq_true, decide_eq_true_eq]
        refine ⟨?_, hchain⟩
        rw [hb, hit]
        exact hstep.2
    · show (f^[d + 1] v :: iter_path f d v).length = d + 1 + 1
      rw [List.length_cons, hlen]
    · show (f^[d + 1] v :: iter_path f d v).getLast? = some v
      cases hrest : iter_path f d v with
      | nil =>
        rw [hrest] at hlen
        simp at hlen
      | cons b t =>
        rw [hrest] at hlast
        rw [List.getLast?_cons_cons]
        exact hlast

/-- If every node of a nonempty family has a predecessor inside the family,
the graph has a cycle (pigeonhole over the key list). -/
theorem has_cycle_of_all_pred (m : Node2Info) (P : String → Prop)
    (hne : ∃ v, P v)
    (hkeys : ∀ v, P v → v ∈ m.map Prod.fst)
    (hstep : ∀ v, P v → ∃ u, P u ∧ isEdge m u v) :
    HasCycle m := by
  classical
  obtain ⟨v0, hv0⟩ := hne
  have hch : ∀ v, ∃ u, P v → P u ∧ isEdge m u v := by
    intro v
    by_cases h : P v
    · obtain ⟨u, hu⟩ := hstep v h
      exact ⟨u, fun _ => hu⟩
    · exact ⟨v, fun hc2 => absurd hc2 h⟩
  choose f hf using hch
  have hiter : ∀ k, P (f^[k] v0) := by
    intro k
    exact (iter_path_spec m f P hf k v0 hv0).1
  have hmaps : ∀ k ∈ Finset.range ((m.map Prod.fst).length + 1),
      f^[k] v0 ∈ (m.map Prod.fst).toFinset := by
    intro k _
    rw [List.mem_toFinset]
    exact hkeys _ (hiter k)
  have hcard : ((m.map Prod.fst).toFinset).card
      < (Finset.range ((m.map Prod.fst).length + 1)).card := by
    rw [Finset.card_range]
    have := List.toFinset_card_le (m.map Prod.fst)
    omega
  obtain ⟨a, _, b, _, hab, heq⟩ :=
    Finset.exists_ne_map_eq_of_card_lt_of_maps_to hcard hmaps
  have key : ∀ x y : Nat, x < y → f^[x] v0 = f^[y] v0 → HasCycle m := by
    intro x y hxy hxy2
    obtain ⟨_, hchain, hlen, hhead, hlast⟩ := iter_path_spec m f P hf (y - x) (f^[x] v0)
      (hiter x)
    have hcomp : f^[y - x] (f^[x] v0) = f^[x] v0 := by
      rw [← Function.iterate_add_apply]
      have : y - x + x = y := by omega
      rw [this]
      exact hxy2.symm
    refine ⟨iter_path f (y - x) (f^[x] v0), ?_, ?_, hchain⟩
    · rw [hlen]
      omega
    · rw [hhead, hlast, hcomp]
  rcases Nat.lt_trichotomy a b with h | h | h
  · exact key a b h heq
  · exact absurd h hab
  · exact key b a h heq.symm

/-- At an inactive boundary of an acyclic run every node is done. -/
theorem final_all_done (ts : TS) (hinv : TsInv ts) (hina : ts_is_active ts = false)
    (hac : ¬ HasCycle ts.node2info) :
    ∀ v j, alookup ts.node2info v = some j → j.npredecessors = -2 := by
  have hready : ts.ready = [] := by
    cases hr : ts.ready with
    | nil => rfl
    | cons a l =>
      unfold ts_is_active at hina
      rw [hr] at hina
      simp at hina
  intro v j hj
  by_contra hne
  apply hac
  refine has_cycle_of_all_pred ts.node2info
    (fun w => ∃ i, alookup ts.node2info w = some i ∧ 0 ≤ i.npredecessors) ?_ ?_ ?_
  · rcases hinv.vals v j hj with h | h | h
    · exact absurd h hne
    · exact absurd h (hinv.noout v j hj)
    · exact ⟨v, j, hj, h⟩
  · rintro w ⟨i, hi, _⟩
    exact mem_fst_of_alookup_ne_none _ w (by simp [hi])
  · rintro w ⟨i, hi, hipos⟩
    have hnz : i.npredecessors ≠ 0 := by
      intro hz
      have hmem := hinv.r0 w i hi hz
      rw [hready] at hmem
      exact absurd hmem (List.not_mem_nil w)
    have hcw := hinv.cnt w i hi hipos
    have hmpos : 0 < mention_sum ts.node2info w := by omega
    obtain ⟨u, j2, hmem, hind, hsucc⟩ := exists_mentioner ts.node2info w hmpos
    have hu : alookup ts.node2info u = some j2 :=
      alookup_of_mem_nodup _ hinv.nodup_keys u j2 hmem
    have hupos : 0 ≤ j2.npredecessors := by
      rcases hinv.vals u j2 hu with h | h | h
      · omega
      · exact absurd h (hinv.noout u j2 hu)
      · exact h
    refine ⟨u, ⟨j2, hu, hupos⟩, ?_⟩
    show w ∈ successors_of ts.node2info u
    unfold successors_of
    rw [hu]
    exact hsucc

theorem chain_edges_congr (m1 m2 : Node2Info)
    (h : ∀ u, successors_of m1 u = successors_of m2 u) :
    ∀ l, chain_edges m1 l = chain_edges m2 l := by
  intro l
  induction l with
  | nil => rfl
  | cons a rest ih =>
    cases rest with
    | nil => rfl
    | cons b t =>
      simp only [chain_edges]
      rw [h a, ih]

theorem has_cycle_congr (m1 m2 : Node2Info)
    (h : ∀ u, successors_of m1 u = successors_of m2 u) :
    HasCycle m1 → HasCycle m2 := by
  rintro ⟨c, hlen, hhl, hchain⟩
  exact ⟨c, hlen, hhl, by rw [← chain_edges_congr m1 m2 h c]; exact hchain⟩

/-- The successful branch of `get_operation_sequence`, unpacked: the prepared
state satisfies the invariant, the graph is acyclic, the drain facts hold
with the supplied fuel, the result is the emitted names looked up in the
step dictionary, and every graph node is emitted. -/
theorem gos_ok_master (plugins : List Plugin) (op : String) (out : List OperationStep)
    (h : get_operation_sequence plugins op = .ok out) :
    ∃ ts0 : TS,
      ts_prepare (build_state plugins op).graph = .ok ts0
      ∧ ts0.node2info = (build_state plugins op).graph
      ∧ TsInv ts0
      ∧ DrainOut ts0
          (node_out ((build_state plugins op).graph.length + 1) ts0).1
          (node_out ((build_state plugins op).graph.length + 1) ts0).2
      ∧ out = ((node_out ((build_state plugins op).graph.length + 1) ts0).1).filterMap
          (fun n => alookup (build_state plugins op).steps n)
      ∧ ¬ HasCycle (build_state plugins op).graph
      ∧ (∀ v ∈ (build_state plugins op).graph.map Prod.fst,
          v ∈ (node_out ((build_state plugins op).graph.length + 1) ts0).1) := by
  unfold get_operation_sequence at h
  cases hp : ts_prepare (build_state plugins op).graph with
  | error cyc =>
    rw [hp] at h
    exact Except.noConfusion h
  | ok ts0 =>
    rw [hp] at h
    have h3 : (Except.ok ((iterate_gen (build_state plugins op).steps
        ((build_state plugins op).graph.length + 1) ts0).1)
        : Except DependencyCycleException (List OperationStep)) = Except.ok out := h
    injection h3 with h2
    have hnode : ts0.node2info = (build_state plugins op).graph := by
      unfold ts_prepare at hp
      cases hf : find_cycle (build_state plugins op).graph with
      | some c =>
        rw [hf] at hp
        exact Except.noConfusion hp
      | none =>
        rw [hf] at hp
        cases hp
        rfl
    have hfc : find_cycle (build_state plugins op).graph = none := by
      unfold ts_prepare at hp
      cases hf : find_cycle (build_state plugins op).graph with
      | some c =>
        rw [hf] at hp
        exact Except.noConfusion hp
      | none => rfl
    have hinv0 : TsInv ts0 := ts_prepare_tsinv _ (build_state_inv plugins op) ts0 hp
    have hac : ¬ HasCycle (build_state plugins op).graph :=
      find_cycle_none_acyclic _ (build_state_wf plugins op) hfc
    have hfuel : live_count ts0.node2info < (build_state plugins op).graph.length + 1 := by
      rw [hnode]
      have := live_count_le_length (build_state plugins op).graph
      omega
    have hdrain := node_out_drain ((build_state plugins op).graph.length + 1) ts0 hinv0 hfuel
    obtain ⟨he1, he2⟩ := iterate_gen_eq_node_out (build_state plugins op).steps
      ((build_state plugins op).graph.length + 1) ts0
    have hcover : ∀ v ∈ (build_state plugins op).graph.map Prod.fst,
        v ∈ (node_out ((build_state plugins op).graph.length + 1) ts0).1 := by
      intro v hv
      have hv0 : v ∈ ts0.node2info.map Prod.fst := by
        rw [hnode]
        exact hv
      have hvf : v ∈ (node_out ((build_state plugins op).graph.length + 1)
          ts0).2.node2info.map Prod.fst := by
        rw [hdrain.keys_eq]
        exact hv0
      obtain ⟨j, hj⟩ := alookup_isSome_of_mem_fst _ v hvf
      have hdone : j.npredecessors = -2 := by
        refine final_all_done _ hdrain.inv hdrain.inactive ?_ v j hj
        intro hcyc
        refine hac (has_cycle_congr _ _ ?_ hcyc)
        intro u
        rw [hdrain.succ_eq u, hnode]
      cases hdrain.done_back v j hj hdone with
      | inl h4 => exact h4
      | inr h4 =>
        exfalso
        have hj0 : alookup (build_state plugins op).graph v = some j := by
          rw [← hnode]
          exact h4
        have := ((build_state_inv plugins op).2 v j hj0).1
        omega
    refine ⟨ts0, rfl, hnode, hinv0, hdrain, ?_, hac, hcover⟩
    rw [← h2, he1]

/-- C10: on success the returned sequence is the inner generator drained to
exhaustion in the `get_operation_sequence` call itself: the final generator
state is inactive, so iterating the same returned object again — with any
amount of fuel — yields no steps; only a fresh call (or materializing the
first result) reproduces the sequence. -/
theorem c10_theorem (plugins : List Plugin) (op : String) (out : List OperationStep)
    (h : get_operation_sequence plugins op = .ok out) :
    ∃ ts0 tsf : TS,
      ts_prepare (build_state plugins op).graph = .ok ts0
      ∧ iterate_gen (build_state plugins op).steps
          ((build_state plugins op).graph.length + 1) ts0 = (out, tsf)
      ∧ ts_is_active tsf = false
      ∧ ∀ fuel2, iterate_gen (build_state plugins op).steps fuel2 tsf = ([], tsf) := by
  obtain ⟨ts0, hprep, hnode, hinv, hdrain, hout, hac, hcover⟩ := gos_ok_master plugins op out h
  obtain ⟨he1, he2⟩ := iterate_gen_eq_node_out (build_state plugins op).steps
    ((build_state plugins op).graph.length + 1) ts0
  refine ⟨ts0, (node_out ((build_state plugins op).graph.length + 1) ts0).2, hprep, ?_,
    hdrain.inactive, ?_⟩
  · have hpair : iterate_gen (build_state plugins op).steps
        ((build_state plugins op).graph.length + 1) ts0
        = ((iterate_gen (build_state plugins op).steps
            ((build_state plugins op).graph.length + 1) ts0).1,
           (iterate_gen (build_state plugins op).steps
            ((build_state plugins op).graph.length + 1) ts0).2) := rfl
    rw [hpair, he1, he2, ← hout]
  · intro fuel2
    exact iterate_gen_inactive _ fuel2 _ hdrain.inactive

/-- C10 witness: the concrete two-plugin acyclic example, drained once; its
final generator state yields nothing more at any fuel. -/
theorem c10_witness :
    ∃ ts0 tsf : TS,
      ts_prepare (build_state [ex_plugin_A, ex_plugin_B] "o").graph = .ok ts0
      ∧ iterate_gen (build_state [ex_plugin_A, ex_plugin_B] "o").steps
          ((build_state [ex_plugin_A, ex_plugin_B] "o").graph.length + 1) ts0
          = ([ex_step_A, ex_step_B], tsf)
      ∧ ts_is_active tsf = false
      ∧ ∀ fuel2, iterate_gen (build_state [ex_plugin_A, ex_plugin_B] "o").steps fuel2 tsf
          = ([], tsf) :=
  c10_theorem [ex_plugin_A, ex_plugin_B] "o" [ex_step_A, ex_step_B]
    (by simp +decide [get_operation_sequence, build_state, ingest_step, ts_add, get_nodeinfo,
      aupdate, alookup, ts_prepare, find_cycle, find_cycle_aux, visit_all, successors_of,
      stack_suffix_from, iterate_gen, ts_is_active, ts_get_ready, ts_done, done_one,
      dec_successor, ex_plugin_A, ex_plugin_B, ex_step_A, ex_step_B])

/-! Edges recorded during the build phase survive later `add` calls, and
every recorded step's dependency hints are present as edges. -/

theorem succ_mem_fold_mono (node : String) (l : List String) :
    ∀ (g : Node2Info) (u x : String), x ∈ successors_of g u →
      x ∈ successors_of (l.foldl (fun acc p => aupdate (get_nodeinfo acc p) p
        (fun i => { i with successors := i.successors ++ [node] })) g) u := by
  induction l with
  | nil =>
    intro g u x hx
    exact hx
  | cons p l ih =>
    intro g u x hx
    refine ih _ u x ?_
    by_cases hup : u = p
    · subst hup
      obtain ⟨ip, hip⟩ := alookup_get_nodeinfo_self g u
      have hsucc : successors_of (get_nodeinfo g u) u = successors_of g u :=
        successors_of_get_nodeinfo g u u
      have hips : ip.successors = successors_of g u := by
        rw [← hsucc]
        unfold successors_of
        rw [hip]
      show x ∈ successors_of (aupdate (get_nodeinfo g u) u
        (fun i => { i with successors := i.successors ++ [node] })) u
      unfold successors_of
      rw [alookup_aupdate_self _ u _ ip hip]
      show x ∈ ip.successors ++ [node]
      refine List.mem_append.mpr (Or.inl ?_)
      rw [hips]
      exact hx
    · show x ∈ successors_of (aupdate (get_nodeinfo g p) p
        (fun i => { i with successors := i.successors ++ [node] })) u
      rw [successors_of_aupdate_ne (get_nodeinfo g p) p u
        (fun i => { i with successors := i.successors ++ [node] }) hup,
        successors_of_get_nodeinfo]
      exact hx

theorem ts_add_succ_mono (m : Node2Info) (node : String) (preds : List String)
    (u x : String) (hx : x ∈ successors_of m u) :
    x ∈ successors_of (ts_add m node preds) u := by
  show x ∈ successors_of (preds.foldl (fun acc p => aupdate (get_nodeinfo acc p) p
      (fun i => { i with successors := i.successors ++ [node] }))
    (aupdate (get_nodeinfo m node) node
      (fun i => { i with npredecessors := i.npredecessors + preds.length }))) u
  refine succ_mem_fold_mono node preds _ u x ?_
  rw [successors_of_aupdate_keep (get_nodeinfo m node) node u
    (fun i => { i with npredecessors := i.npredecessors + preds.length }) (fun i => rfl),
    successors_of_get_nodeinfo]
  exact hx

theorem ts_add_edge_mono (m : Node2Info) (node : String) (preds : List String)
    (u v : String) (h : isEdge m u v) : isEdge (ts_add m node preds) u v :=
  ts_add_succ_mono m node preds u v h

theorem fold_creates (node : String) (l : List String) :
    ∀ (g : Node2Info), ∀ p ∈ l,
      node ∈ successors_of (l.foldl (fun acc q => aupdate (get_nodeinfo acc q) q
        (fun i => { i with successors := i.successors ++ [node] })) g) p := by
  induction l with
  | nil =>
    intro g p hp
    exact absurd hp (List.not_mem_nil p)
  | cons q l ih =>
    intro g p hp
    cases List.mem_cons.mp hp with
    | inl he =>
      subst he
      refine succ_mem_fold_mono node l _ p node ?_
      obtain ⟨ip, hip⟩ := alookup_get_nodeinfo_self g p
      show node ∈ successors_of (aupdate (get_nodeinfo g p) p
        (fun i => { i with successors := i.successors ++ [node] })) p
      unfold successors_of
      rw [alookup_aupdate_self _ p _ ip hip]
      show node ∈ ip.successors ++ [node]
      exact List.mem_append.mpr (Or.inr (by simp))
    | inr he => exact ih _ p he

theorem ts_add_creates (m : Node2Info) (node : String) (preds : List String) :
    ∀ p ∈ preds, isEdge (ts_add m node preds) p node := by
  intro p hp
  show node ∈ successors_of (preds.foldl (fun acc q => aupdate (get_nodeinfo acc q) q
      (fun i => { i with successors := i.successors ++ [node] }))
    (aupdate (get_nodeinfo m node) node
      (fun i => { i with npredecessors := i.npredecessors + preds.length }))) p
  exact fold_creates node preds _ p hp

theorem rdep_fold_mono (nm : String) (l : List String) (g : Node2Info)
    (u v : String) (h : isEdge g u v) :
    isEdge (l.foldl (fun g2 r => ts_add g2 r [nm]) g) u v :=
  foldl_preserve (fun g2 r => ts_add g2 r [nm]) (fun g2 => isEdge g2 u v)
    (fun g2 r hg => ts_add_edge_mono g2 r [nm] u v hg) l g h

theorem rdep_fold_creates (nm : String) (l : List String) :
    ∀ (g : Node2Info), ∀ r ∈ l,
      isEdge (l.foldl (fun g2 r2 => ts_add g2 r2 [nm]) g) nm r := by
  induction l with
  | nil =>
    intro g r hr
    exact absurd hr (List.not_mem_nil r)
  | cons q l ih =>
    intro g r hr
    cases List.mem_cons.mp hr with
    | inl he =>
      subst he
      refine rdep_fold_mono nm l _ nm r ?_
      exact ts_add_creates g r [nm] nm (by simp)
    | inr he => exact ih _ r he

/-- Every recorded step's dependency names are backward edges into it and its
reverse-dependency names are forward edges out of it, in the final graph. -/
theorem build_state_edges (plugins : List Plugin) (op : String) :
    ∀ nm s, alookup (build_state plugins op).steps nm = some s →
      (∀ d ∈ s.dependencies, isEdge (build_state plugins op).graph d nm)
      ∧ (∀ r ∈ s.reverse_dependencies, isEdge (build_state plugins op).graph nm r) := by
  unfold build_state
  refine foldl_preserve
    (fun st p => (p.get_operation_steps op).foldl (fun st1 s => ingest_step st1 p s) st)
    (fun st => ∀ nm s, alookup st.steps nm = some s →
      (∀ d ∈ s.dependencies, isEdge st.graph d nm)
      ∧ (∀ r ∈ s.reverse_dependencies, isEdge st.graph nm r))
    ?_ plugins { steps := [], warnings := [], graph := [] } ?_
  · intro st p hst
    refine foldl_preserve (fun st1 s => ingest_step st1 p s)
      (fun st1 => ∀ nm s, alookup st1.steps nm = some s →
        (∀ d ∈ s.dependencies, isEdge st1.graph d nm)
        ∧ (∀ r ∈ s.reverse_dependencies, isEdge st1.graph nm r))
      ?_ (p.get_operation_steps op) st hst
    intro st1 s1 h1
    show ∀ nm s, alookup (ingest_step st1 p s1).steps nm = some s →
      (∀ d ∈ s.dependencies, isEdge (ingest_step st1 p s1).graph d nm)
      ∧ (∀ r ∈ s.reverse_dependencies, isEdge (ingest_step st1 p s1).graph nm r)
    unfold ingest_step
    cases he : alookup st1.steps s1.name with
    | some prev => exact h1
    | none =>
      intro nm s hs
      have hs2 : alookup (st1.steps ++ [(s1.name, s1)]) nm = some s := hs
      cases hlk : alookup st1.steps nm with
      | some s0 =>
        rw [alookup_append_left st1.steps _ nm s0 hlk] at hs2
        cases hs2
        obtain ⟨hd, hr⟩ := h1 nm s hlk
        constructor
        · intro d hdm
          exact rdep_fold_mono s1.name s1.reverse_dependencies _ d nm
            (ts_add_edge_mono st1.graph s1.name s1.dependencies d nm (hd d hdm))
        · intro r hrm
          exact rdep_fold_mono s1.name s1.reverse_dependencies _ nm r
            (ts_add_edge_mono st1.graph s1.name s1.dependencies nm r (hr r hrm))
      | none =>
        rw [alookup_append_of_none st1.steps _ nm hlk] at hs2
        have hnm : s1.name = nm ∧ s1 = s := by
          by_cases hq : s1.name = nm
          · refine ⟨hq, ?_⟩
            simp only [alookup, hq, if_pos] at hs2
            cases hs2
            rfl
          · simp only [alookup, hq, if_false] at hs2
            exact Option.noConfusion hs2
        obtain ⟨hnm1, hnm2⟩ := hnm
        subst hnm1
        subst hnm2
        constructor
        · intro d hdm
          exact rdep_fold_mono s1.name s1.reverse_dependencies _ d s1.name
            (ts_add_creates st1.graph s1.name s1.dependencies d hdm)
        · intro r hrm
          exact rdep_fold_creates s1.name s1.reverse_dependencies _ r hrm
  · intro nm s hs
    simp [alookup] at hs

/-- C3: in a successfully resolved sequence the order respects every hint
that names a produced step: a step named in `S.dependencies` appears strictly
before `S`, and a step named in `S.reverse_dependencies` appears strictly
after `S`. -/
theorem c3_theorem (plugins : List Plugin) (op : String) (out : List OperationStep)
    (h : get_operation_sequence plugins op = .ok out) :
    ∀ (i k : Nat) (hi : i < out.length) (hk : k < out.length),
      (out[i].name ∈ out[k].dependencies ∨ out[k].name ∈ out[i].reverse_dependencies → i < k)
      ∧ (out[k].name ∈ out[i].dependencies ∨ out[i].name ∈ out[k].reverse_dependencies →
          k < i) := by
  obtain ⟨ts0, hprep, hnode, hinv, hdrain, hout, hac, hcover⟩ := gos_ok_master plugins op out h
  have hmem_lookup : ∀ s ∈ out, alookup (build_state plugins op).steps s.name = some s := by
    intro s hs
    rw [hout] at hs
    rw [List.mem_filterMap] at hs
    obtain ⟨n, hn, hsn⟩ := hs
    have h2 := build_state_steps_named plugins op n s hsn
    rw [← h2] at hsn
    exact hsn
  have hpair : List.Pairwise
      (fun S T : OperationStep => ¬ isEdge (build_state plugins op).graph T.name S.name)
      out := by
    rw [hout, List.pairwise_filterMap]
    refine List.Pairwise.imp ?_ hdrain.no_back
    intro a b hnab S hS T hT hedge
    rw [Option.mem_def] at hS hT
    have hSa : S.name = a := build_state_steps_named plugins op a S hS
    have hTb : T.name = b := build_state_steps_named plugins op b T hT
    rw [hSa, hTb] at hedge
    refine hnab ?_
    rw [hnode]
    exact hedge
  have hself : ∀ (S : OperationStep), S ∈ out →
      ¬ isEdge (build_state plugins op).graph S.name S.name := by
    intro S _ hedge
    refine hac ⟨[S.name, S.name], ?_, ?_, ?_⟩
    · simp
    · simp
    · simp only [chain_edges, Bool.and_eq_true, decide_eq_true_eq]
      exact ⟨hedge, trivial⟩
  have hidx := List.pairwise_iff_getElem.mp hpair
  -- edge between two produced steps forces their order
  have horder : ∀ (i k : Nat) (hi : i < out.length) (hk : k < out.length),
      isEdge (build_state plugins op).graph out[k].name out[i].name → k < i := by
    intro i k hi hk hedge
    by_contra hc
    push_neg at hc
    rcases Nat.lt_or_eq_of_le hc with hik | hik
    · exact hidx i k hi hk hik hedge
    · subst hik
      exact hself out[i] (List.getElem_mem hi) hedge
  intro i k hi hk
  constructor
  · intro hhint
    refine horder k i hk hi ?_
    cases hhint with
    | inl hdep =>
      exact (build_state_edges plugins op out[k].name out[k]
        (hmem_lookup out[k] (List.getElem_mem hk))).1 out[i].name hdep
    | inr hrd =>
      exact (build_state_edges plugins op out[i].name out[i]
        (hmem_lookup out[i] (List.getElem_mem hi))).2 out[k].name hrd
  · intro hhint
    refine horder i k hi hk ?_
    cases hhint with
    | inl hdep =>
      exact (build_state_edges plugins op out[i].name out[i]
        (hmem_lookup out[i] (List.getElem_mem hi))).1 out[k].name hdep
    | inr hrd =>
      exact (build_state_edges plugins op out[k].name out[k]
        (hmem_lookup out[k] (List.getElem_mem hk))).2 out[i].name hrd

/-- C3 witness: with plugin `PC` (step `C` depending on `"A"`) listed before
plugin `PA`, resolution still places `A` first, and the theorem instantiated
at the two concrete positions yields the strict ordering. -/
theorem c3_witness :
    get_operation_sequence [ex_plugin_C, ex_plugin_A] "o" = .ok [ex_step_A, ex_step_C]
    ∧ (0 : Nat) < 1 :=
  ⟨by simp +decide [get_operation_sequence, build_state, ingest_step, ts_add, get_nodeinfo,
      aupdate, alookup, ts_prepare, find_cycle, find_cycle_aux, visit_all, successors_of,
      stack_suffix_from, iterate_gen, ts_is_active, ts_get_ready, ts_done, done_one,
      dec_successor, ex_plugin_C, ex_plugin_A, ex_step_C, ex_step_A],
   ((c3_theorem [ex_plugin_C, ex_plugin_A] "o" [ex_step_A, ex_step_C]
      (by simp +decide [get_operation_sequence, build_state, ingest_step, ts_add, get_nodeinfo,
        aupdate, alookup, ts_prepare, find_cycle, find_cycle_aux, visit_all, successors_of,
        stack_suffix_from, iterate_gen, ts_is_active, ts_get_ready, ts_done, done_one,
        dec_successor, ex_plugin_C, ex_plugin_A, ex_step_C, ex_step_A]))
      0 1 (by decide) (by decide)).1 (Or.inl (by decide))⟩

/-! Duplicate handling: the steps dict holds the first contribution per name
in plugin iteration order; later contributions only add a warning. -/

theorem build_fold_contribs (op : String) (plugins : List Plugin) : ∀ (st0 : BuildState),
    plugins.foldl (fun st p => (p.get_operation_steps op).foldl
        (fun st1 s => ingest_step st1 p s) st) st0
      = (plugins.flatMap (fun p => (p.get_operation_steps op).map (fun s => (p, s)))).foldl
          (fun st q => ingest_step st q.1 q.2) st0 := by
  induction plugins with
  | nil =>
    intro st0
    rfl
  | cons p rest ih =>
    intro st0
    show rest.foldl _ ((p.get_operation_steps op).foldl (fun st1 s => ingest_step st1 p s) st0)
      = _
    rw [ih]
    show _ = (((p.get_operation_steps op).map (fun s => (p, s))
        ++ rest.flatMap (fun p2 => (p2.get_operation_steps op).map (fun s => (p2, s)))).foldl
          (fun st q => ingest_step st q.1 q.2) st0)
    rw [List.foldl_append, List.foldl_map]

theorem build_state_eq_contribs (plugins : List Plugin) (op : String) :
    build_state plugins op
      = (plugins.flatMap (fun p => (p.get_operation_steps op).map (fun s => (p, s)))).foldl
          (fun st q => ingest_step st q.1 q.2)
          { steps := [], warnings := [], graph := [] } := by
  unfold build_state
  exact build_fold_contribs op plugins _

theorem contribs_snd (plugins : List Plugin) (op : String) :
    (plugins.flatMap (fun p => (p.get_operation_steps op).map (fun s => (p, s)))).map Prod.snd
      = plugins.flatMap (fun p => p.get_operation_steps op) := by
  induction plugins with
  | nil => rfl
  | cons p rest ih =>
    simp only [List.flatMap_cons, List.map_append, ih, List.map_map]
    congr 1
    simp

theorem ingest_warn_mono (st : BuildState) (p : Plugin) (s : OperationStep)
    (w : String × String × String) (hw : w ∈ st.warnings) :
    w ∈ (ingest_step st p s).warnings := by
  unfold ingest_step
  cases he : alookup st.steps s.name with
  | some prev => exact List.mem_append.mpr (Or.inl hw)
  | none => exact hw

theorem ingest_lookup_mono (st : BuildState) (p : Plugin) (s : OperationStep)
    (nm : String) (s0 : OperationStep) (h : alookup st.steps nm = some s0) :
    alookup (ingest_step st p s).steps nm = some s0 := by
  unfold ingest_step
  cases he : alookup st.steps s.name with
  | some prev => exact h
  | none => exact alookup_append_left st.steps _ nm s0 h

theorem ingest_fold_lookup (l : List (Plugin × OperationStep)) :
    ∀ (st : BuildState) (nm : String),
    alookup ((l.foldl (fun st2 q => ingest_step st2 q.1 q.2) st).steps) nm
      = (match alookup st.steps nm with
         | some s => some s
         | none => (l.map Prod.snd).find? (fun s => decide (s.name = nm))) := by
  induction l with
  | nil =>
    intro st nm
    cases h : alookup st.steps nm <;> simp [h]
  | cons q rest ih =>
    intro st nm
    obtain ⟨p, s⟩ := q
    have hstep : ((p, s) :: rest).foldl (fun st2 q2 => ingest_step st2 q2.1 q2.2) st
        = rest.foldl (fun st2 q2 => ingest_step st2 q2.1 q2.2) (ingest_step st p s) := rfl
    rw [hstep, ih]
    cases he : alookup st.steps s.name with
    | some prev =>
      have hing : ingest_step st p s
          = { st with warnings := st.warnings ++ [(s.name, prev.plugin, p.name)] } := by
        unfold ingest_step
        rw [he]
      rw [hing]
      by_cases hnm : s.name = nm
      · subst hnm
        show (match alookup st.steps s.name with
              | some s2 => some s2
              | none => (rest.map Prod.snd).find? (fun s2 => decide (s2.name = s.name)))
            = match alookup st.steps s.name with
              | some s2 => some s2
              | none => ((s :: rest.map Prod.snd).find? (fun s2 => decide (s2.name = s.name)))
        rw [he]
      · show (match alookup st.steps nm with
              | some s2 => some s2
              | none => (rest.map Prod.snd).find? (fun s2 => decide (s2.name = nm)))
            = match alookup st.steps nm with
              | some s2 => some s2
              | none => ((s :: rest.map Prod.snd).find? (fun s2 => decide (s2.name = nm)))
        rw [List.find?_cons_of_neg _ (by simp [hnm])]
    | none =>
      have hing : ingest_step st p s
          = { steps := st.steps ++ [(s.name, s)], warnings := st.warnings,
              graph := s.reverse_dependencies.foldl (fun g r => ts_add g r [s.name])
                (ts_add st.graph s.name s.dependencies) } := by
        unfold ingest_step
        rw [he]
      rw [hing]
      by_cases hnm : s.name = nm
      · subst hnm
        have hl : alookup (st.steps ++ [(s.name, s)]) s.name = some s := by
          rw [alookup_append_of_none st.steps _ s.name he]
          simp [alookup]
        show (match alookup (st.steps ++ [(s.name, s)]) s.name with
              | some s2 => some s2
              | none => (rest.map Prod.snd).find? (fun s2 => decide (s2.name = s.name)))
            = match alookup st.steps s.name with
              | some s2 => some s2
              | none => ((s :: rest.map Prod.snd).find? (fun s2 => decide (s2.name = s.name)))
        rw [hl, he, List.find?_cons_of_pos _ (by simp)]
      · have hl : alookup (st.steps ++ [(s.name, s)]) nm = alookup st.steps nm := by
          cases hv : alookup st.steps nm with
          | some s0 => exact alookup_append_left st.steps _ nm s0 hv
          | none =>
            rw [alookup_append_of_none st.steps _ nm hv]
            simp only [alookup]
            rw [if_neg hnm]
        show (match alookup (st.steps ++ [(s.name, s)]) nm with
              | some s2 => some s2
              | none => (rest.map Prod.snd).find? (fun s2 => decide (s2.name = nm)))
            = match alookup st.steps nm with
              | some s2 => some s2
              | none => ((s :: rest.map Prod.snd).find? (fun s2 => decide (s2.name = nm)))
        rw [hl, List.find?_cons_of_neg _ (by simp [hnm])]

theorem ingest_fold_warn_dup (l : List (Plugin × OperationStep)) :
    ∀ (st : BuildState) (nm : String),
    (∃ s0, alookup st.steps nm = some s0) →
    (∃ s2 ∈ l.map Prod.snd, s2.name = nm) →
    ∃ w ∈ (l.foldl (fun st2 q => ingest_step st2 q.1 q.2) st).warnings, w.1 = nm := by
  induction l with
  | nil =>
    rintro st nm _ ⟨s2, hs2, _⟩
    exact absurd hs2 (List.not_mem_nil s2)
  | cons q rest ih =>
    rintro st nm ⟨s0, hs0⟩ hex
    obtain ⟨p, s⟩ := q
    have hstep : ((p, s) :: rest).foldl (fun st2 q2 => ingest_step st2 q2.1 q2.2) st
        = rest.foldl (fun st2 q2 => ingest_step st2 q2.1 q2.2) (ingest_step st p s) := rfl
    rw [hstep]
    by_cases hnm : s.name = nm
    · subst hnm
      have hing : ingest_step st p s
          = { st with warnings := st.warnings ++ [(s.name, s0.plugin, p.name)] } := by
        unfold ingest_step
        rw [hs0]
      have hw : (s.name, s0.plugin, p.name) ∈ (ingest_step st p s).warnings := by
        rw [hing]
        exact List.mem_append.mpr (Or.inr (by simp))
      have hfinal : (s.name, s0.plugin, p.name)
          ∈ (rest.foldl (fun st2 q2 => ingest_step st2 q2.1 q2.2)
              (ingest_step st p s)).warnings :=
        foldl_preserve (fun st2 q2 => ingest_step st2 q2.1 q2.2)
          (fun st2 => (s.name, s0.plugin, p.name) ∈ st2.warnings)
          (fun st2 q2 h2 => ingest_warn_mono st2 q2.1 q2.2 _ h2) rest _ hw
      exact ⟨(s.name, s0.plugin, p.name), hfinal, rfl⟩
    · obtain ⟨s2, hs2mem, hs2nm⟩ := hex
      have hs2mem2 : s2 ∈ s :: rest.map Prod.snd := hs2mem
      have hex2 : ∃ s3 ∈ rest.map Prod.snd, s3.name = nm := by
        cases List.mem_cons.mp hs2mem2 with
        | inl he2 =>
          subst he2
          exact absurd hs2nm hnm
        | inr he2 => exact ⟨s2, he2, hs2nm⟩
      exact ih (ingest_step st p s) nm ⟨s0, ingest_lookup_mono st p s nm s0 hs0⟩ hex2

theorem ingest_fold_warn_ex (l : List (Plugin × OperationStep)) :
    ∀ (st : BuildState) (nm : String),
    alookup st.steps nm = none →
    2 ≤ ((l.map Prod.snd).filter (fun s2 => decide (s2.name = nm))).length →
    ∃ w ∈ (l.foldl (fun st2 q => ingest_step st2 q.1 q.2) st).warnings, w.1 = nm := by
  induction l with
  | nil =>
    intro st nm _ hcnt
    simp at hcnt
  | cons q rest ih =>
    intro st nm hnone hcnt
    obtain ⟨p, s⟩ := q
    have hstep : ((p, s) :: rest).foldl (fun st2 q2 => ingest_step st2 q2.1 q2.2) st
        = rest.foldl (fun st2 q2 => ingest_step st2 q2.1 q2.2) (ingest_step st p s) := rfl
    rw [hstep]
    have hmap : ((p, s) :: rest).map Prod.snd = s :: rest.map Prod.snd := rfl
    by_cases hnm : s.name = nm
    · subst hnm
      have hing : ingest_step st p s
          = { steps := st.steps ++ [(s.name, s)], warnings := st.warnings,
              graph := s.reverse_dependencies.foldl (fun g r => ts_add g r [s.name])
                (ts_add st.graph s.name s.dependencies) } := by
        unfold ingest_step
        rw [hnone]
      have hlk : alookup (ingest_step st p s).steps s.name = some s := by
        rw [hing]
        show alookup (st.steps ++ [(s.name, s)]) s.name = some s
        rw [alookup_append_of_none st.steps _ s.name hnone]
        simp [alookup]
      have hpos : 0 < ((rest.map Prod.snd).filter
          (fun s2 => decide (s2.name = s.name))).length := by
        rw [hmap, List.filter_cons_of_pos (by simp)] at hcnt
        rw [List.length_cons] at hcnt
        omega
      have hex2 : ∃ s3 ∈ rest.map Prod.snd, s3.name = s.name := by
        obtain ⟨s3, hs3⟩ := List.exists_mem_of_length_pos hpos
        have := List.mem_filter.mp hs3
        exact ⟨s3, this.1, by simpa using this.2⟩
      exact ingest_fold_warn_dup rest (ingest_step st p s) s.name ⟨s, hlk⟩ hex2
    · have hnone2 : alookup (ingest_step st p s).steps nm = none := by
        unfold ingest_step
        cases he : alookup st.steps s.name with
        | some prev => exact hnone
        | none =>
          show alookup (st.steps ++ [(s.name, s)]) nm = none
          rw [alookup_append_of_none st.steps _ nm hnone]
          simp only [alookup]
          rw [if_neg hnm]
      have hcnt2 : 2 ≤ ((rest.map Prod.snd).filter
          (fun s2 => decide (s2.name = nm))).length := by
        rw [hmap, List.filter_cons_of_neg (by simp [hnm])] at hcnt
        exact hcnt
      exact ih (ingest_step st p s) nm hnone2 hcnt2

theorem ts_add_keys_mono (m : Node2Info) (node : String) (preds : List String)
    (x : String) (hx : x ∈ m.map Prod.fst) :
    x ∈ (ts_add m node preds).map Prod.fst := by
  show x ∈ (preds.foldl (fun acc p => aupdate (get_nodeinfo acc p) p
      (fun i => { i with successors := i.successors ++ [node] }))
    (aupdate (get_nodeinfo m node) node
      (fun i => { i with npredecessors := i.npredecessors + preds.length }))).map Prod.fst
  refine foldl_preserve (fun acc p => aupdate (get_nodeinfo acc p) p
      (fun i => { i with successors := i.successors ++ [node] }))
    (fun g : Node2Info => x ∈ g.map Prod.fst) ?_ preds _ ?_
  · intro g p hg
    show x ∈ (aupdate (get_nodeinfo g p) p
      (fun i => { i with successors := i.successors ++ [node] })).map Prod.fst
    rw [aupdate_map_fst]
    exact mem_fst_get_nodeinfo_of_mem g p x hg
  · show x ∈ (aupdate (get_nodeinfo m node) node
      (fun i => { i with npredecessors := i.npredecessors + preds.length })).map Prod.fst
    rw [aupdate_map_fst]
    exact mem_fst_get_nodeinfo_of_mem m node x hx

theorem ts_add_keys_self (m : Node2Info) (node : String) (preds : List String) :
    node ∈ (ts_add m node preds).map Prod.fst := by
  show node ∈ (preds.foldl (fun acc p => aupdate (get_nodeinfo acc p) p
      (fun i => { i with successors := i.successors ++ [node] }))
    (aupdate (get_nodeinfo m node) node
      (fun i => { i with npredecessors := i.npredecessors + preds.length }))).map Prod.fst
  refine foldl_preserve (fun acc p => aupdate (get_nodeinfo acc p) p
      (fun i => { i with successors := i.successors ++ [node] }))
    (fun g : Node2Info => node ∈ g.map Prod.fst) ?_ preds _ ?_
  · intro g p hg
    show node ∈ (aupdate (get_nodeinfo g p) p
      (fun i => { i with successors := i.successors ++ [node] })).map Prod.fst
    rw [aupdate_map_fst]
    exact mem_fst_get_nodeinfo_of_mem g p node hg
  · show node ∈ (aupdate (get_nodeinfo m node) node
      (fun i => { i with npredecessors := i.npredecessors + preds.length })).map Prod.fst
    rw [aupdate_map_fst]
    exact mem_fst_get_nodeinfo m node

/-- Every recorded step name has a node in the dependency graph. -/
theorem steps_sub_graph (plugins : List Plugin) (op : String) :
    ∀ nm s, alookup (build_state plugins op).steps nm = some s →
      nm ∈ (build_state plugins op).graph.map Prod.fst := by
  unfold build_state
  refine foldl_preserve
    (fun st p => (p.get_operation_steps op).foldl (fun st1 s => ingest_step st1 p s) st)
    (fun st => ∀ nm s, alookup st.steps nm = some s → nm ∈ st.graph.map Prod.fst)
    ?_ plugins { steps := [], warnings := [], graph := [] } ?_
  · intro st p hst
    refine foldl_preserve (fun st1 s => ingest_step st1 p s)
      (fun st1 => ∀ nm s, alookup st1.steps nm = some s → nm ∈ st1.graph.map Prod.fst)
      ?_ (p.get_operation_steps op) st hst
    intro st1 s1 h1
    show ∀ nm s, alookup (ingest_step st1 p s1).steps nm = some s →
      nm ∈ (ingest_step st1 p s1).graph.map Prod.fst
    unfold ingest_step
    cases he : alookup st1.steps s1.name with
    | some prev => exact h1
    | none =>
      intro nm s hs
      have hs2 : alookup (st1.steps ++ [(s1.name, s1)]) nm = some s := hs
      have hmono : ∀ g : Node2Info, nm ∈ g.map Prod.fst →
          nm ∈ (s1.reverse_dependencies.foldl (fun g2 r => ts_add g2 r [s1.name])
            g).map Prod.fst := by
        intro g hg
        exact foldl_preserve (fun g2 r => ts_add g2 r [s1.name])
          (fun g2 => nm ∈ g2.map Prod.fst)
          (fun g2 r h2 => ts_add_keys_mono g2 r [s1.name] nm h2)
          s1.reverse_dependencies g hg
      cases hlk : alookup st1.steps nm with
      | some s0 =>
        exact hmono _ (ts_add_keys_mono st1.graph s1.name s1.dependencies nm (h1 nm s0 hlk))
      | none =>
        rw [alookup_append_of_none st1.steps _ nm hlk] at hs2
        by_cases hq : s1.name = nm
        · subst hq
          exact hmono _ (ts_add_keys_self st1.graph s1.name s1.dependencies)
        · simp only [alookup, hq, if_false] at hs2
          exact Option.noConfusion hs2
  · intro nm s hs
    simp [alookup] at hs

/-- Counting steps with a given name in the generator output: since the steps
dict stores each step under its own name, a duplicate-free name list yields
at most one step per name — exactly one when the name is emitted and known. -/
theorem filterMap_count_name (steps : List (String × OperationStep)) (nm : String)
    (hnamed : ∀ k s, alookup steps k = some s → s.name = k) :
    ∀ (ns : List String), ns.Nodup →
    ((ns.filterMap (fun n => alookup steps n)).filter
        (fun s2 => decide (s2.name = nm))).length
      = if nm ∈ ns ∧ (alookup steps nm).isSome = true then 1 else 0 := by
  intro ns
  induction ns with
  | nil =>
    intro _
    simp
  | cons n ns ih =>
    intro hnd
    rw [List.nodup_cons] at hnd
    have ihs := ih hnd.2
    cases hf : alookup steps n with
    | none =>
      rw [List.filterMap_cons_none hf, ihs]
      by_cases hnm : nm = n
      · subst hnm
        have hfalse : ¬ ((alookup steps nm).isSome = true) := by
          rw [hf]
          simp
        rw [if_neg (fun hc => hfalse hc.2), if_neg (fun hc => hfalse hc.2)]
      · by_cases hc : nm ∈ ns ∧ (alookup steps nm).isSome = true
        · rw [if_pos hc, if_pos ⟨List.mem_cons_of_mem n hc.1, hc.2⟩]
        · rw [if_neg hc, if_neg ?_]
          rintro ⟨hm, hs⟩
          cases List.mem_cons.mp hm with
          | inl h2 => exact hnm h2
          | inr h2 => exact hc ⟨h2, hs⟩
    | some s =>
      have hsn : s.name = n := hnamed n s hf
      rw [List.filterMap_cons_some hf]
      by_cases hnm : nm = n
      · subst hnm
        rw [List.filter_cons_of_pos (by simp [hsn]), List.length_cons, ihs,
          if_neg (fun hc => hnd.1 hc.1), if_pos ⟨by simp, by rw [hf]; rfl⟩]
      · rw [List.filter_cons_of_neg (by simp [hsn]; exact fun h2 => hnm h2.symm), ihs]
        by_cases hc : nm ∈ ns ∧ (alookup steps nm).isSome = true
        · rw [if_pos hc, if_pos ⟨List.mem_cons_of_mem n hc.1, hc.2⟩]
        · rw [if_neg hc, if_neg ?_]
          rintro ⟨hm, hs⟩
          cases List.mem_cons.mp hm with
          | inl h2 => exact hnm h2
          | inr h2 => exact hc ⟨h2, hs⟩

/-- C5: when the plugin collection contributes at least two steps sharing one
name for an operation, the resolved sequence contains exactly one step with
that name, that step is the first contribution in the collection's iteration
order, and a duplicate warning naming it is logged. -/
theorem c5_theorem (plugins : List Plugin) (op : String) (out : List OperationStep)
    (nm : String)
    (h : get_operation_sequence plugins op = .ok out)
    (hdup : 2 ≤ ((plugins.flatMap (fun p => p.get_operation_steps op)).filter
        (fun s => decide (s.name = nm))).length) :
    (out.filter (fun s => decide (s.name = nm))).length = 1
    ∧ (∀ s ∈ out, s.name = nm →
        (plugins.flatMap (fun p => p.get_operation_steps op)).find?
          (fun s2 => decide (s2.name = nm)) = some s)
    ∧ ∃ w ∈ (build_state plugins op).warnings, w.1 = nm := by
  obtain ⟨ts0, hprep, hnode, hinv, hdrain, hout, hac, hcover⟩ := gos_ok_master plugins op out h
  -- the steps dict holds the first contribution of each name
  have hlookup_eq : ∀ k, alookup (build_state plugins op).steps k
      = (plugins.flatMap (fun p => p.get_operation_steps op)).find?
          (fun s2 => decide (s2.name = k)) := by
    intro k
    rw [build_state_eq_contribs plugins op]
    rw [ingest_fold_lookup _ { steps := [], warnings := [], graph := [] } k]
    show (match (alookup [] k : Option OperationStep) with
          | some s => some s
          | none => _) = _
    rw [show (alookup [] k : Option OperationStep) = none from rfl]
    rw [contribs_snd plugins op]
  -- the duplicated name is recorded and emitted
  have hfind : ∃ s0, (plugins.flatMap (fun p => p.get_operation_steps op)).find?
      (fun s2 => decide (s2.name = nm)) = some s0 := by
    have hpos : 0 < ((plugins.flatMap (fun p => p.get_operation_steps op)).filter
        (fun s => decide (s.name = nm))).length := by omega
    obtain ⟨s0, hs0⟩ := List.exists_mem_of_length_pos hpos
    obtain ⟨hmem, hpred⟩ := List.mem_filter.mp hs0
    rw [← Option.isSome_iff_exists, List.find?_isSome]
    exact ⟨s0, hmem, hpred⟩
  obtain ⟨s0, hs0⟩ := hfind
  have hlk : alookup (build_state plugins op).steps nm = some s0 := by
    rw [hlookup_eq nm]
    exact hs0
  have hnm_names : nm ∈ (node_out ((build_state plugins op).graph.length + 1) ts0).1 :=
    hcover nm (steps_sub_graph plugins op nm s0 hlk)
  refine ⟨?_, ?_, ?_⟩
  · rw [hout]
    rw [filterMap_count_name (build_state plugins op).steps nm
      (build_state_steps_named plugins op) _ hdrain.out_nodup]
    rw [if_pos ⟨hnm_names, by rw [hlk]; rfl⟩]
  · intro s hs hsnm
    rw [hout] at hs
    rw [List.mem_filterMap] at hs
    obtain ⟨n, hn, hsn⟩ := hs
    have hname : s.name = n := build_state_steps_named plugins op n s hsn
    have hn_eq : n = nm := by rw [← hname, hsnm]
    subst hn_eq
    rw [← hlookup_eq _]
    exact hsn
  · rw [build_state_eq_contribs plugins op]
    refine ingest_fold_warn_ex _ { steps := [], warnings := [], graph := [] } nm rfl ?_
    rw [contribs_snd plugins op]
    exact hdup

/-- C5 witness: plugins `PA` and `PA2` both contribute a step named `"A"`;
the resolved sequence keeps exactly `PA`'s step (the first in iteration
order) and a warning names the duplicate. -/
theorem c5_witness :
    get_operation_sequence [ex_plugin_A, ex_plugin_A2] "o" = .ok [ex_step_A]
    ∧ (([ex_step_A].filter (fun s => decide (s.name = "A"))).length = 1
       ∧ (∀ s ∈ [ex_step_A], s.name = "A" →
           ([ex_plugin_A, ex_plugin_A2].flatMap (fun p => p.get_operation_steps "o")).find?
             (fun s2 => decide (s2.name = "A")) = some s)
       ∧ ∃ w ∈ (build_state [ex_plugin_A, ex_plugin_A2] "o").warnings, w.1 = "A") :=
  ⟨by simp +decide [get_operation_sequence, build_state, ingest_step, ts_add, get_nodeinfo,
      aupdate, alookup, ts_prepare, find_cycle, find_cycle_aux, visit_all, successors_of,
      stack_suffix_from, iterate_gen, ts_is_active, ts_get_ready, ts_done, done_one,
      dec_successor, ex_plugin_A, ex_plugin_A2, ex_step_A, ex_step_A2],
   c5_theorem [ex_plugin_A, ex_plugin_A2] "o" [ex_step_A] "A"
    (by simp +decide [get_operation_sequence, build_state, ingest_step, ts_add, get_nodeinfo,
      aupdate, alookup, ts_prepare, find_cycle, find_cycle_aux, visit_all, successors_of,
      stack_suffix_from, iterate_gen, ts_is_active, ts_get_ready, ts_done, done_one,
      dec_successor, ex_plugin_A, ex_plugin_A2, ex_step_A, ex_step_A2])
    (by decide)⟩
